import Mathlib

/-!
# simple-calculator: the expression evaluator of `src/main.cpp`

A shallow embedding of the string-rescanning evaluator (`readExpression` and its six
recognisers), of the line layer (`execCommand`, `execLine`) and of the two registers
(`Calculator::lastResult`, `Calculator::memory`).

Conventions of the embedding

* `std::string` is `List Char`; `substr`, `find(..) != 0`, `front`, `back` are the list
  functions below.
* `double` is an abstract carrier `α` together with a record `DoubleOps α` of the
  operations the tables use (`+ - * /`, `pow`, the `<cmath>` functions, `M_PI`) and of the
  text-to-double conversion performed by the stream (`strtod`).  Every theorem is stated
  for an arbitrary such record, so it holds in particular for IEEE-754 binary64.
* `optional<T>` is `Option T`.
* `istringstream >> temp` is modelled after the GNU C++ library in the "C" locale
  (`extractInt`, `extractDouble`): which characters the scanner consumes is computed here,
  only the conversion of the consumed text to a `double` is left to `DoubleOps.strtod`.
* The mutual recursion `readExpression -> readParantheses / readBinaryOp / readUnaryOp ->
  readExpression` is written in open form: each recogniser receives the function `rec` it
  calls where the source calls `readExpression`.  `readExpressionFuel` closes the knot by
  iteration and `readExpression` runs it with `str.length + 1` rounds, which is proved to be
  enough for every string (the result no longer changes with more rounds).
-/

namespace Calc

/-- A `std::string`. -/
abbrev Str := List Char

/-! ## The arithmetic the program is linked against -/

/-- The operations on `double` used by the operator tables, and the conversion of an
extracted character buffer to a `double` done inside `operator>>` (`strtod` returns `none`
when the buffer is not wholly a number or the value overflows, the cases in which the
stream sets `failbit`). -/
structure DoubleOps (α : Type) where
  fadd : α → α → α
  fsub : α → α → α
  fmul : α → α → α
  fdiv : α → α → α
  pow : α → α → α
  fneg : α → α
  sin : α → α
  cos : α → α
  tan : α → α
  log : α → α
  exp : α → α
  abs : α → α
  M_PI : α
  strtod : Str → Option α

/-! ## `std::string` helpers -/

/-- The C-locale `isspace`: space, `\t`, `\n`, `\v`, `\f`, `\r`. -/
def isspace (c : Char) : Bool :=
  c.toNat = 32 || (9 ≤ c.toNat && c.toNat ≤ 13)

/-- The C-locale `isdigit`. -/
def isdigit (c : Char) : Bool :=
  48 ≤ c.toNat && c.toNat ≤ 57

/-- The C-locale `isalpha`: an ASCII letter. -/
def isalpha (c : Char) : Bool :=
  (65 ≤ c.toNat && c.toNat ≤ 90) || (97 ≤ c.toNat && c.toNat ≤ 122)

/-- `str.substr(pos, n)`, for `pos <= str.size()` (the only way the program calls it). -/
def substr (str : Str) (pos n : Nat) : Str :=
  (str.drop pos).take n

/-- `str.substr(pos)`, for `pos <= str.size()`. -/
def substrFrom (str : Str) (pos : Nat) : Str :=
  str.drop pos

/-- `str[0]` of a `const string&`: the first character, or the terminating `'\0'` when the
string is empty. -/
def char0 (str : Str) : Char :=
  str.headD (Char.ofNat 0)

/-- `trim`: skip the leading white space; an all-blank string gives `""`; otherwise drop
the trailing white space too. -/
def trim (str : Str) : Str :=
  let t := str.dropWhile isspace
  if t = [] then [] else t.rdropWhile isspace

/-! ## Stream extraction (`istringstream >> temp`) -/

/-- What `ss >> temp` leaves behind: the value when the extraction succeeded (`failbit`
clear), and whether the stream hit its end (`eofbit`). -/
structure Extracted (β : Type) where
  val : Option β
  eof : Bool

/-- `Digits s`: every character of `s` is a decimal digit. -/
def Digits (s : Str) : Prop :=
  ∀ c ∈ s, isdigit c = true

instance (s : Str) : Decidable (Digits s) :=
  inferInstanceAs (Decidable (∀ c ∈ s, isdigit c = true))

/-- Value of a run of decimal digits, most significant first. -/
def digitsValue (ds : Str) : Nat :=
  ds.foldl (fun acc c => 10 * acc + (c.toNat - 48)) 0

/-- `ss >> temp` for `int temp`: skip white space, an optional sign, then the longest run of
decimal digits; fails on an empty run or a value outside `int`. -/
def extractInt (str : Str) : Extracted Int :=
  let s := str.dropWhile isspace
  if s = [] then ⟨none, true⟩ else
  let neg := s.head? = some '-'
  let s1 := if s.head? = some '-' ∨ s.head? = some '+' then s.tail else s
  let ds := s1.takeWhile isdigit
  let rest := s1.dropWhile isdigit
  let v : Int := if neg then -(digitsValue ds : Int) else (digitsValue ds : Int)
  if ds = [] then ⟨none, rest = []⟩
  else if v < -2147483648 ∨ 2147483647 < v then ⟨none, rest = []⟩
  else ⟨some v, rest = []⟩

/-- The main loop of the floating-point scanner: digits, at most one decimal point before
the exponent, at most one exponent mark (only after a mantissa digit) with an optional sign
right after it.  The flags are `found_mantissa`, `found_dec`, `found_sci`, and `esign`,
which is set exactly when the previous character was the exponent mark (the only place
where a sign is consumed).  Returns the characters accumulated for conversion and the
unread rest. -/
def floatLoop : Bool → Bool → Bool → Bool → Str → Str × Str
  | _, _, _, _, [] => ([], [])
  | mant, dec, sci, esign, c :: cs =>
    if esign = true ∧ (c = '+' ∨ c = '-') then
      let r := floatLoop mant dec sci false cs
      (c :: r.1, r.2)
    else if isdigit c then
      let r := floatLoop true dec sci false cs
      (c :: r.1, r.2)
    else if c = '.' ∧ dec = false ∧ sci = false then
      let r := floatLoop mant true sci false cs
      ('.' :: r.1, r.2)
    else if (c = 'e' ∨ c = 'E') ∧ sci = false ∧ mant = true then
      let r := floatLoop mant dec true true cs
      ('e' :: r.1, r.2)
    else ([], c :: cs)

/-- The floating-point scanner of the stream: an optional sign, leading zeros (kept as a
single `0`), then `floatLoop`. -/
def scanFloat (s : Str) : Str × Str :=
  let sgn : Str := if s.head? = some '-' ∨ s.head? = some '+' then s.take 1 else []
  let s1 := if s.head? = some '-' ∨ s.head? = some '+' then s.tail else s
  let zeros := s1.takeWhile (fun c => c = '0')
  let s2 := s1.dropWhile (fun c => c = '0')
  let mant : Bool := !zeros.isEmpty
  let r := floatLoop mant false false false s2
  (sgn ++ (if mant then ['0'] else []) ++ r.1, r.2)

/-- `ss >> temp` for `double temp`: skip white space, scan, convert the scanned text. -/
def extractDouble {α : Type} (A : DoubleOps α) (str : Str) : Extracted α :=
  let s := str.dropWhile isspace
  if s = [] then ⟨none, true⟩ else
  let r := scanFloat s
  ⟨A.strtod r.1, r.2 = []⟩

/-! ## The registers and the operator tables -/

/-- The two globals of `namespace Calculator`, and the values written to `cout`.
`memory i` for `i < 10` is slot `i` of the `array<double, 10>`; `memory 10` stands for the
word just past the array, which the unchecked `operator[]` reaches when the guard
`*index > Calculator::memory.size()` lets index 10 through. -/
structure Calculator (α : Type) where
  lastResult : α
  memory : Nat → α
  cout : List α

/-- A unary operator of the table: symbol and function. -/
structure UnaryOperation (α : Type) where
  str : Str
  func : α → α

/-- A binary operator of the table: symbol and function. -/
structure BinaryOperation (α : Type) where
  str : Str
  func : α → α → α

/-- Associativity tag of a precedence tier. -/
inductive Assoc where
  | LeftAssoc
  | RightAssoc
  deriving DecidableEq, Repr

/-- A precedence tier: same-precedence operators and their associativity. -/
structure PrecedenceSet (α : Type) where
  operations : List (BinaryOperation α)
  assoc : Assoc

/-- The `aliases` map. -/
def aliases {α : Type} (A : DoubleOps α) : List (Str × α) :=
  [(['p', 'i'], A.M_PI)]

/-- The `unaryOperations` table, in declaration order. -/
def unaryOperations {α : Type} (A : DoubleOps α) : List (UnaryOperation α) :=
  [ ⟨['+'], fun x => x⟩,
    ⟨['-'], A.fneg⟩,
    ⟨['s', 'i', 'n'], A.sin⟩,
    ⟨['c', 'o', 's'], A.cos⟩,
    ⟨['t', 'a', 'n'], A.tan⟩,
    ⟨['l', 'o', 'g'], A.log⟩,
    ⟨['e', 'x', 'p'], A.exp⟩,
    ⟨['a', 'b', 's'], A.abs⟩ ]

/-- The `binaryOperations` table: tiers in ascending precedence. -/
def binaryOperations {α : Type} (A : DoubleOps α) : List (PrecedenceSet α) :=
  [ ⟨[⟨['+'], A.fadd⟩, ⟨['-'], A.fsub⟩], Assoc.LeftAssoc⟩,
    ⟨[⟨['*'], A.fmul⟩, ⟨['/'], A.fdiv⟩], Assoc.LeftAssoc⟩,
    ⟨[⟨['^'], A.pow⟩], Assoc.RightAssoc⟩ ]

/-! ## The recognisers -/

/-- `readInteger`. -/
def readInteger (str : Str) : Option Int :=
  if char0 str = '-' ∨ char0 str = '+' then none
  else
    let ss := extractInt str
    if !isspace (char0 str) && ss.val.isSome && ss.eof then ss.val else none

/-- `readDouble`. -/
def readDouble {α : Type} (A : DoubleOps α) (str : Str) : Option α :=
  if char0 str = '-' ∨ char0 str = '+' then none
  else
    let ss := extractDouble A str
    if !isspace (char0 str) && ss.val.isSome && ss.eof then ss.val else none

/-- `readPercent`.  The comparison `*index > Calculator::memory.size()` is made in
`size_t`, to which the `int` is converted (modulo `2^64`). -/
def readPercent {α : Type} (st : Calculator α) (str : Str) : Option α :=
  if str.head? ≠ some '%' then none
  else if str.length = 1 then some st.lastResult
  else
    match readInteger (substrFrom str 1) with
    | none => none
    | some index =>
      if (index % 2 ^ 64).toNat > 10 then none else some (st.memory index.toNat)

/-- The body of the loop over the operators of a tier at split position `i`, left-associative
scan: the first operator whose symbol is the text ending at `i` decides; `none` is the
`break` (or the exhausted loop) that sends the scan to the next position.  The start
`i - operation.str.size() + 1` is `i + 1 - size` here: every symbol of the table has
size 1, so the unsigned expression never wraps. -/
def splitLeft {α : Type} (rec : Str → Option α) (str : Str) (i : Nat) :
    List (BinaryOperation α) → Option α
  | [] => none
  | operation :: rest =>
    if substr str (i + 1 - operation.str.length) operation.str.length = operation.str then
      let expr1 := substr str 0 (i + 1 - operation.str.length)
      let expr2 := substrFrom str (i + 1)
      match rec (trim expr1) with
      | none => none
      | some operand1 =>
        match rec (trim expr2) with
        | none => none
        | some operand2 => some (operation.func operand1 operand2)
    else splitLeft rec str i rest

/-- The body of the loop over the operators of a tier at split position `i`,
right-associative scan. -/
def splitRight {α : Type} (rec : Str → Option α) (str : Str) (i : Nat) :
    List (BinaryOperation α) → Option α
  | [] => none
  | operation :: rest =>
    if substr str i operation.str.length = operation.str then
      let expr1 := substr str 0 i
      let expr2 := substrFrom str (i + operation.str.length)
      match rec (trim expr1) with
      | none => none
      | some operand1 =>
        match rec (trim expr2) with
        | none => none
        | some operand2 => some (operation.func operand1 operand2)
    else splitRight rec str i rest

/-- One tier of `readBinaryOp`: positions `str.size(), ..., 0` for a left-associative tier,
`0, ..., str.size() - 1` for a right-associative one; the first position whose split
evaluates on both sides returns. -/
def readTier {α : Type} (rec : Str → Option α) (str : Str) (precedenceSet : PrecedenceSet α) :
    Option α :=
  match precedenceSet.assoc with
  | Assoc.LeftAssoc =>
    (List.range (str.length + 1)).reverse.findSome?
      (fun i => splitLeft rec str i precedenceSet.operations)
  | Assoc.RightAssoc =>
    (List.range str.length).findSome?
      (fun i => splitRight rec str i precedenceSet.operations)

/-- `readBinaryOp`: the tiers in table order, the first tier that yields a value returns. -/
def readBinaryOp {α : Type} (A : DoubleOps α) (rec : Str → Option α) (str : Str) : Option α :=
  (binaryOperations A).findSome? (readTier rec str)

/-- The loop of `readUnaryOp` over the table: the first operator whose symbol is a prefix of
`str` decides, and a failing operand ends the whole recogniser. -/
def readUnaryOpLoop {α : Type} (rec : Str → Option α) (str : Str) :
    List (UnaryOperation α) → Option α
  | [] => none
  | operation :: rest =>
    if operation.str.isPrefixOf str then
      let expr := substrFrom str operation.str.length
      match rec (trim expr) with
      | none => none
      | some operand => some (operation.func operand)
    else readUnaryOpLoop rec str rest

/-- `readUnaryOp`. -/
def readUnaryOp {α : Type} (A : DoubleOps α) (rec : Str → Option α) (str : Str) : Option α :=
  readUnaryOpLoop rec str (unaryOperations A)

/-- `readAlias`: exact lookup in `aliases`. -/
def readAlias {α : Type} (A : DoubleOps α) (str : Str) : Option α :=
  ((aliases A).find? (fun p => p.1 = str)).map (fun p => p.2)

/-- `readParantheses`. -/
def readParantheses {α : Type} (rec : Str → Option α) (str : Str) : Option α :=
  if str ≠ [] ∧ str.head? = some '(' ∧ str.getLast? = some ')' then
    rec (trim (substr str 1 (str.length - 2)))
  else none

/-- The body of `readExpression`: the six recognisers in order, the first success wins. -/
def readExpressionStep {α : Type} (A : DoubleOps α) (st : Calculator α)
    (rec : Str → Option α) (str : Str) : Option α :=
  (readPercent st str).orElse fun _ =>
  (readDouble A str).orElse fun _ =>
  (readParantheses rec str).orElse fun _ =>
  (readBinaryOp A rec str).orElse fun _ =>
  (readUnaryOp A rec str).orElse fun _ =>
  readAlias A str

/-- `readExpression` unrolled `n` times. -/
def readExpressionFuel {α : Type} (A : DoubleOps α) (st : Calculator α) :
    Nat → Str → Option α
  | 0 => fun _ => none
  | n + 1 => readExpressionStep A st (readExpressionFuel A st n)

/-- `readExpression`. -/
def readExpression {α : Type} (A : DoubleOps α) (st : Calculator α) (str : Str) : Option α :=
  readExpressionFuel A st (str.length + 1) str

/-! ## The line layer -/

/-- The words of a line as `stream >> temp` reads them: maximal runs of non-blank
characters.  `cur` is the word being read, last character first. -/
def tokensAux : Str → Str → List Str
  | [], cur => if cur = [] then [] else [cur.reverse]
  | c :: cs, cur =>
    if isspace c then
      (if cur = [] then tokensAux cs [] else cur.reverse :: tokensAux cs [])
    else tokensAux cs (c :: cur)

/-- The words of a line. -/
def tokens (line : Str) : List Str :=
  tokensAux line []

/-- How a call of the line layer ends: the process has left through `exit(0)`, or the call
returned a `bool` and left the registers in some state. -/
inductive Outcome (α : Type) where
  | exited
  | returned (ok : Bool) (st : Calculator α)

/-- The `set` entry of `commands`.  As in `readPercent` the guard compares in `size_t`. -/
def commandSet {α : Type} (A : DoubleOps α) (st : Calculator α) (args : List Str) :
    Outcome α :=
  match args with
  | [arg0, arg1] =>
    match readInteger arg0 with
    | none => Outcome.returned false st
    | some index =>
      if (index % 2 ^ 64).toNat > 10 then Outcome.returned false st
      else
        match readExpression A st arg1 with
        | none => Outcome.returned false st
        | some value =>
          Outcome.returned true
            { st with memory := Function.update st.memory index.toNat value }
  | _ => Outcome.returned false st

/-- The `exit` entry of `commands`. -/
def commandExit {α : Type} (st : Calculator α) (args : List Str) : Outcome α :=
  if args.length ≠ 0 then Outcome.returned false st else Outcome.exited

/-- `execCommand`: the first word selects the entry of `commands`, the other words are
its arguments. -/
def execCommand {α : Type} (A : DoubleOps α) (st : Calculator α) (line : Str) : Outcome α :=
  match tokens line with
  | [] => Outcome.returned false st
  | command :: arguments =>
    if command = ['e', 'x', 'i', 't'] then commandExit st arguments
    else if command = ['s', 'e', 't'] then commandSet A st arguments
    else Outcome.returned false st

/-- `execLine`: a blank line is accepted; otherwise the line is tried as a command and
then as an expression, whose value is printed and stored in `lastResult`. -/
def execLine {α : Type} (A : DoubleOps α) (st : Calculator α) (line : Str) : Outcome α :=
  let trimmed := trim line
  if trimmed = [] then Outcome.returned true st
  else
    match execCommand A st trimmed with
    | Outcome.exited => Outcome.exited
    | Outcome.returned true st1 => Outcome.returned true st1
    | Outcome.returned false st1 =>
      match readExpression A st1 trimmed with
      | some lineVal =>
        Outcome.returned true { st1 with cout := st1.cout ++ [lineVal], lastResult := lineVal }
      | none => Outcome.returned false st1

/-! ## Two interpretations of the arithmetic, used to run the evaluator on examples -/

/-- Expression trees over the operations of `DoubleOps`: `lit` is a numeral kept as its
text, `num` an integer value. -/
inductive Term where
  | lit (text : Str)
  | num (n : Int)
  | pi
  | add (x y : Term)
  | sub (x y : Term)
  | mul (x y : Term)
  | div (x y : Term)
  | pow (x y : Term)
  | neg (x : Term)
  | sin (x : Term)
  | cos (x : Term)
  | tan (x : Term)
  | log (x : Term)
  | exp (x : Term)
  | abs (x : Term)
  deriving DecidableEq, Repr

/-- Whether a buffer is wholly a decimal floating-point numeral: an optional sign, digits
with at most one point and at least one digit, and optionally `e`, an optional sign and at
least one digit. -/
def isDecimalNumeral (buf : Str) : Bool :=
  let unsign : Str → Str := fun s =>
    if s.head? = some '-' ∨ s.head? = some '+' then s.tail else s
  let s := unsign buf
  let mantissa := s.takeWhile (fun c => c ≠ 'e')
  let exponent := s.dropWhile (fun c => c ≠ 'e')
  let intPart := mantissa.takeWhile (fun c => c ≠ '.')
  let fracPart := (mantissa.dropWhile (fun c => c ≠ '.')).tail
  let mantissaOk := intPart.all isdigit && fracPart.all isdigit
    && !(intPart.isEmpty && fracPart.isEmpty)
  let exponentOk := exponent.isEmpty
    || ((unsign exponent.tail).all isdigit && !(unsign exponent.tail).isEmpty)
  mantissaOk && exponentOk

/-- The free interpretation: every operation builds the tree of its application and a
numeral is kept as its text.  Running the evaluator on it shows how a string was grouped. -/
def symbolic : DoubleOps Term where
  fadd := Term.add
  fsub := Term.sub
  fmul := Term.mul
  fdiv := Term.div
  pow := Term.pow
  fneg := Term.neg
  sin := Term.sin
  cos := Term.cos
  tan := Term.tan
  log := Term.log
  exp := Term.exp
  abs := Term.abs
  M_PI := Term.pi
  strtod := fun buf => if isDecimalNumeral buf then some (Term.lit buf) else none

/-- A register state over `Term`: `lastResult` and every memory cell hold `0`. -/
def symbolicZero : Calculator Term where
  lastResult := Term.lit ['0']
  memory := fun _ => Term.lit ['0']
  cout := []

/-- The folding interpretation: integers are computed exactly (`num`) wherever the result
of an operation on integers is an integer; everything else stays a tree as in `symbolic`. -/
def folding : DoubleOps Term where
  fadd := fun x y =>
    match x, y with
    | Term.num m, Term.num n => Term.num (m + n)
    | _, _ => Term.add x y
  fsub := fun x y =>
    match x, y with
    | Term.num m, Term.num n => Term.num (m - n)
    | _, _ => Term.sub x y
  fmul := fun x y =>
    match x, y with
    | Term.num m, Term.num n => Term.num (m * n)
    | _, _ => Term.mul x y
  fdiv := fun x y =>
    match x, y with
    | Term.num m, Term.num n =>
      if n ≠ 0 ∧ m % n = 0 then Term.num (m / n) else Term.div x y
    | _, _ => Term.div x y
  pow := fun x y =>
    match x, y with
    | Term.num m, Term.num n => if 0 ≤ n then Term.num (m ^ n.toNat) else Term.pow x y
    | _, _ => Term.pow x y
  fneg := fun x =>
    match x with
    | Term.num m => if m ≠ 0 then Term.num (-m) else Term.neg x
    | _ => Term.neg x
  sin := Term.sin
  cos := Term.cos
  tan := Term.tan
  log := Term.log
  exp := Term.exp
  abs := Term.abs
  M_PI := Term.pi
  strtod := fun buf =>
    if buf ≠ [] ∧ buf.all isdigit then some (Term.num (digitsValue buf))
    else if isDecimalNumeral buf then some (Term.lit buf) else none

/-- A register state for `folding`: `lastResult` and every memory cell hold `0`. -/
def foldingZero : Calculator Term where
  lastResult := Term.num 0
  memory := fun _ => Term.num 0
  cout := []

/-- An integer of magnitude below `2^53`, the range in which binary64 holds every integer
exactly. -/
def Small (m : Int) : Prop :=
  -(2 ^ 53 : Int) < m ∧ m < 2 ^ 53

/-- `ExactOnInt A ι`: `ι` names the values of the small integers in the arithmetic `A`, and
on them `A` computes exactly, as IEEE-754 binary64 does: a digit string converts to its
value, and sums, differences, products, natural powers and negations of small integers are
the exact results when these are small (a zero product of a negative factor and the
negation of zero are left out: they are the negative zero). -/
structure ExactOnInt {α : Type} (A : DoubleOps α) (ι : Int → α) : Prop where
  lit : ∀ ds : Str, ds ≠ [] → Digits ds → Small (digitsValue ds) →
    A.strtod ds = some (ι (digitsValue ds))
  add : ∀ m n : Int, Small m → Small n → Small (m + n) → A.fadd (ι m) (ι n) = ι (m + n)
  sub : ∀ m n : Int, Small m → Small n → Small (m - n) → A.fsub (ι m) (ι n) = ι (m - n)
  mul : ∀ m n : Int, Small m → Small n → Small (m * n) → (m * n ≠ 0 ∨ (0 ≤ m ∧ 0 ≤ n)) →
    A.fmul (ι m) (ι n) = ι (m * n)
  pow : ∀ (m : Int) (n : Nat), Small m → Small n → Small (m ^ n) →
    A.pow (ι m) (ι n) = ι (m ^ n)
  neg : ∀ m : Int, Small m → m ≠ 0 → A.fneg (ι m) = ι (-m)

/-! ## Auxiliary notions used to state the facts below -/

/-- What a split at the character `ch`, with `pre` before it and `post` after it, yields in
a tier whose symbols have one character: the operator with symbol `ch`, if any, applied to
the values of the two trimmed sides, if both evaluate. -/
def splitAtChar {α : Type} (rec : Str → Option α) (ops : List (BinaryOperation α))
    (pre : Str) (ch : Char) (post : Str) : Option α :=
  match ops.find? (fun op => op.str = [ch]) with
  | none => none
  | some operation =>
    match rec (trim pre) with
    | none => none
    | some operand1 =>
      match rec (trim post) with
      | none => none
      | some operand2 => some (operation.func operand1 operand2)

/-- The tier (index in `binaryOperations`) whose symbol a character is. -/
def level (ch : Char) : Option Nat :=
  if ch = '+' ∨ ch = '-' then some 0
  else if ch = '*' ∨ ch = '/' then some 1
  else if ch = '^' then some 2
  else none

/-- The function that `binaryOperations` attaches to a symbol. -/
def opFunc {α : Type} (A : DoubleOps α) (ch : Char) : α → α → α :=
  if ch = '+' then A.fadd
  else if ch = '-' then A.fsub
  else if ch = '*' then A.fmul
  else if ch = '/' then A.fdiv
  else A.pow

/-- The tier of index `k`, the empty tier past the end of the table. -/
def tierAt {α : Type} (A : DoubleOps α) (k : Nat) : PrecedenceSet α :=
  (binaryOperations A).getD k ⟨[], Assoc.LeftAssoc⟩

/-- `Avoids k s`: no character of `s` is a symbol of tier `k`. -/
def Avoids (k : Nat) (s : Str) : Prop :=
  ∀ c ∈ s, level c ≠ some k

/-- The first characters of the unary symbols `+ - sin cos tan log exp abs`. -/
def unaryHeads : List Char := ['+', '-', 's', 'c', 't', 'l', 'e', 'a']

/-- `Plain s`: every character of `s` is a decimal digit or a binary operator symbol. -/
def Plain (s : Str) : Prop :=
  ∀ c ∈ s, isdigit c = true ∨ level c ≠ none

/-- `StartsDigit s`: `s` is not empty and its first character is a decimal digit. -/
def StartsDigit (s : Str) : Prop :=
  ∃ (d : Char) (r : Str), s = d :: r ∧ isdigit d = true

/-- `ValidSplit rec T s pre op post v`: `s` is `pre`, the symbol of the operator `op` of
the tier `T`, then `post`; both trimmed sides evaluate by `rec`; and `v` is `op` applied
to their values.  The position of the split is `pre.length`. -/
def ValidSplit {α : Type} (rec : Str → Option α) (T : PrecedenceSet α) (s pre : Str)
    (op : BinaryOperation α) (post : Str) (v : α) : Prop :=
  s = pre ++ op.str ++ post ∧ op ∈ T.operations
    ∧ ∃ x y : α, rec (trim pre) = some x ∧ rec (trim post) = some y ∧ v = op.func x y

/-- `Balanced s`: `s` has as many `(` as `)`, and no prefix of `s` has more `)`
than `(`. -/
def Balanced (s : Str) : Prop :=
  s.count '(' = s.count ')' ∧ ∀ p : Str, p <+: s → p.count ')' ≤ p.count '('

/-- `NoParen s`: neither `(` nor `)` occurs in `s`. -/
def NoParen (s : Str) : Prop :=
  '(' ∉ s ∧ ')' ∉ s

/-! ## Basic facts on the string helpers -/

theorem trim_length_le (s : Str) : (trim s).length ≤ s.length := by
  unfold trim
  simp only
  split
  · simp
  · calc (List.rdropWhile isspace (List.dropWhile isspace s)).length
        ≤ (List.dropWhile isspace s).length :=
          (List.rdropWhile_prefix _ _).length_le
      _ ≤ s.length := (List.dropWhile_suffix _).length_le

theorem findSome_congr {β γ : Type} (l : List β) (f g : β → Option γ)
    (h : ∀ x ∈ l, f x = g x) : l.findSome? f = l.findSome? g := by
  induction l with
  | nil => rfl
  | cons x xs ih =>
    have hx : f x = g x := h x (List.mem_cons_self _ _)
    have hxs : ∀ y ∈ xs, f y = g y := fun y hy => h y (List.mem_cons_of_mem _ hy)
    simp only [List.findSome?, hx, ih hxs]

/-! ## Every recursive call is on a strictly shorter string -/

theorem readParantheses_local {α : Type} (r1 r2 : Str → Option α) (str : Str)
    (h : ∀ t : Str, t.length < str.length → r1 t = r2 t) :
    readParantheses r1 str = readParantheses r2 str := by
  unfold readParantheses
  split
  · rename_i hc
    apply h
    have hne : str ≠ [] := hc.1
    have hpos : 0 < str.length := List.length_pos.mpr hne
    calc (trim (substr str 1 (str.length - 2))).length
        ≤ (substr str 1 (str.length - 2)).length := trim_length_le _
      _ ≤ str.length - 2 := by unfold substr; exact List.length_take_le _ _
      _ < str.length := by omega
  · rfl

theorem splitLeft_local {α : Type} (r1 r2 : Str → Option α) (str : Str) (i : Nat)
    (ops : List (BinaryOperation α)) (hops : ∀ op ∈ ops, op.str ≠ [])
    (h : ∀ t : Str, t.length < str.length → r1 t = r2 t) :
    splitLeft r1 str i ops = splitLeft r2 str i ops := by
  induction ops with
  | nil => rfl
  | cons op rest ih =>
    have hrest : ∀ o ∈ rest, o.str ≠ [] := fun o ho => hops o (List.mem_cons_of_mem _ ho)
    unfold splitLeft
    split
    · rename_i hm
      have hL : 0 < op.str.length := List.length_pos.mpr (hops op (List.mem_cons_self _ _))
      have hlen : (substr str (i + 1 - op.str.length) op.str.length).length = op.str.length := by
        rw [hm]
      unfold substr at hlen
      rw [List.length_take, List.length_drop] at hlen
      have h1 : (trim (substr str 0 (i + 1 - op.str.length))).length < str.length := by
        have := trim_length_le (substr str 0 (i + 1 - op.str.length))
        have h2 : (substr str 0 (i + 1 - op.str.length)).length ≤ i + 1 - op.str.length := by
          unfold substr; exact List.length_take_le _ _
        have h3 : (substr str 0 (i + 1 - op.str.length)).length ≤ str.length := by
          unfold substr; simp
        omega
      have h2 : (trim (substrFrom str (i + 1))).length < str.length := by
        have := trim_length_le (substrFrom str (i + 1))
        have h3 : (substrFrom str (i + 1)).length = str.length - (i + 1) := by
          unfold substrFrom; simp
        omega
      simp only [h _ h1, h _ h2]
    · exact ih hrest

theorem splitRight_local {α : Type} (r1 r2 : Str → Option α) (str : Str) (i : Nat)
    (ops : List (BinaryOperation α)) (hops : ∀ op ∈ ops, op.str ≠ [])
    (h : ∀ t : Str, t.length < str.length → r1 t = r2 t) :
    splitRight r1 str i ops = splitRight r2 str i ops := by
  induction ops with
  | nil => rfl
  | cons op rest ih =>
    have hrest : ∀ o ∈ rest, o.str ≠ [] := fun o ho => hops o (List.mem_cons_of_mem _ ho)
    unfold splitRight
    split
    · rename_i hm
      have hL : 0 < op.str.length := List.length_pos.mpr (hops op (List.mem_cons_self _ _))
      have hlen : (substr str i op.str.length).length = op.str.length := by rw [hm]
      unfold substr at hlen
      rw [List.length_take, List.length_drop] at hlen
      have h1 : (trim (substr str 0 i)).length < str.length := by
        have := trim_length_le (substr str 0 i)
        have h2 : (substr str 0 i).length ≤ i := by
          unfold substr; exact List.length_take_le _ _
        omega
      have h2 : (trim (substrFrom str (i + op.str.length))).length < str.length := by
        have := trim_length_le (substrFrom str (i + op.str.length))
        have h3 : (substrFrom str (i + op.str.length)).length
            = str.length - (i + op.str.length) := by
          unfold substrFrom; simp
        omega
      simp only [h _ h1, h _ h2]
    · exact ih hrest

theorem readTier_local {α : Type} (r1 r2 : Str → Option α) (str : Str)
    (tier : PrecedenceSet α) (hops : ∀ op ∈ tier.operations, op.str ≠ [])
    (h : ∀ t : Str, t.length < str.length → r1 t = r2 t) :
    readTier r1 str tier = readTier r2 str tier := by
  unfold readTier
  split
  · exact findSome_congr _ _ _ (fun i _ => splitLeft_local r1 r2 str i _ hops h)
  · exact findSome_congr _ _ _ (fun i _ => splitRight_local r1 r2 str i _ hops h)

theorem binaryOperations_nonempty_symbols {α : Type} (A : DoubleOps α) :
    ∀ tier ∈ binaryOperations A, ∀ op ∈ tier.operations, op.str ≠ [] := by
  intro tier ht op hop
  simp only [binaryOperations, List.mem_cons, List.mem_singleton, List.not_mem_nil,
    or_false] at ht
  rcases ht with rfl | rfl | rfl <;>
    simp only [List.mem_cons, List.mem_singleton, List.not_mem_nil, or_false] at hop
  · rcases hop with rfl | rfl <;> simp
  · rcases hop with rfl | rfl <;> simp
  · subst hop; simp

theorem readBinaryOp_local {α : Type} (A : DoubleOps α) (r1 r2 : Str → Option α) (str : Str)
    (h : ∀ t : Str, t.length < str.length → r1 t = r2 t) :
    readBinaryOp A r1 str = readBinaryOp A r2 str := by
  unfold readBinaryOp
  exact findSome_congr _ _ _
    (fun tier ht => readTier_local r1 r2 str tier
      (binaryOperations_nonempty_symbols A tier ht) h)

theorem readUnaryOpLoop_local {α : Type} (r1 r2 : Str → Option α) (str : Str)
    (ops : List (UnaryOperation α)) (hops : ∀ op ∈ ops, op.str ≠ [])
    (h : ∀ t : Str, t.length < str.length → r1 t = r2 t) :
    readUnaryOpLoop r1 str ops = readUnaryOpLoop r2 str ops := by
  induction ops with
  | nil => rfl
  | cons op rest ih =>
    have hrest : ∀ o ∈ rest, o.str ≠ [] := fun o ho => hops o (List.mem_cons_of_mem _ ho)
    unfold readUnaryOpLoop
    split
    · rename_i hm
      have hL : 0 < op.str.length := List.length_pos.mpr (hops op (List.mem_cons_self _ _))
      have hpre : op.str <+: str := List.isPrefixOf_iff_prefix.mp hm
      have hle : op.str.length ≤ str.length := hpre.length_le
      have h1 : (trim (substrFrom str op.str.length)).length < str.length := by
        have := trim_length_le (substrFrom str op.str.length)
        have h3 : (substrFrom str op.str.length).length = str.length - op.str.length := by
          unfold substrFrom; simp
        omega
      simp only [h _ h1]
    · exact ih hrest

theorem unaryOperations_nonempty_symbols {α : Type} (A : DoubleOps α) :
    ∀ op ∈ unaryOperations A, op.str ≠ [] := by
  intro op hop
  simp only [unaryOperations, List.mem_cons, List.mem_singleton, List.not_mem_nil,
    or_false] at hop
  rcases hop with rfl | rfl | rfl | rfl | rfl | rfl | rfl | rfl <;> simp

theorem readUnaryOp_local {α : Type} (A : DoubleOps α) (r1 r2 : Str → Option α) (str : Str)
    (h : ∀ t : Str, t.length < str.length → r1 t = r2 t) :
    readUnaryOp A r1 str = readUnaryOp A r2 str :=
  readUnaryOpLoop_local r1 r2 str _ (unaryOperations_nonempty_symbols A) h

theorem readExpressionStep_local {α : Type} (A : DoubleOps α) (st : Calculator α)
    (r1 r2 : Str → Option α) (str : Str)
    (h : ∀ t : Str, t.length < str.length → r1 t = r2 t) :
    readExpressionStep A st r1 str = readExpressionStep A st r2 str := by
  unfold readExpressionStep
  rw [readParantheses_local r1 r2 str h, readBinaryOp_local A r1 r2 str h,
    readUnaryOp_local A r1 r2 str h]

theorem readExpressionFuel_stable {α : Type} (A : DoubleOps α) (st : Calculator α) :
    ∀ (n m : Nat) (str : Str), str.length < n → str.length < m →
      readExpressionFuel A st n str = readExpressionFuel A st m str := by
  intro n
  induction n with
  | zero => intro m str hn; omega
  | succ n ih =>
    intro m str hn hm
    cases m with
    | zero => omega
    | succ m =>
      show readExpressionStep A st (readExpressionFuel A st n) str
        = readExpressionStep A st (readExpressionFuel A st m) str
      apply readExpressionStep_local
      intro t ht
      exact ih m t (by omega) (by omega)

/-- The recursion equation of `readExpression`: the body of the source function with the
recursive calls going to `readExpression` itself. -/
theorem readExpression_eq {α : Type} (A : DoubleOps α) (st : Calculator α) (str : Str) :
    readExpression A st str = readExpressionStep A st (readExpression A st) str := by
  show readExpressionStep A st (readExpressionFuel A st str.length) str = _
  apply readExpressionStep_local
  intro t ht
  exact readExpressionFuel_stable A st _ _ t ht (by omega)

/-! ## Scanning a tier, in terms of the ways to cut the string at one character -/

theorem splitLeft_ge {α : Type} (rec : Str → Option α) (str : Str) (i : Nat)
    (ops : List (BinaryOperation α)) (hops : ∀ op ∈ ops, op.str.length = 1)
    (hi : str.length ≤ i) : splitLeft rec str i ops = none := by
  induction ops with
  | nil => rfl
  | cons op rest ih =>
    have hL : op.str.length = 1 := hops op (List.mem_cons_self _ _)
    unfold splitLeft
    rw [if_neg]
    · exact ih (fun o ho => hops o (List.mem_cons_of_mem _ ho))
    · intro hm
      have hlen := congrArg List.length hm
      unfold substr at hlen
      rw [List.length_take, List.length_drop, hL] at hlen
      omega

theorem splitRight_eq_splitLeft {α : Type} (rec : Str → Option α) (str : Str) (i : Nat)
    (ops : List (BinaryOperation α)) (hops : ∀ op ∈ ops, op.str.length = 1) :
    splitRight rec str i ops = splitLeft rec str i ops := by
  induction ops with
  | nil => rfl
  | cons op rest ih =>
    have hL : op.str.length = 1 := hops op (List.mem_cons_self _ _)
    unfold splitRight splitLeft
    rw [ih (fun o ho => hops o (List.mem_cons_of_mem _ ho)), hL]
    simp only [Nat.add_sub_cancel]

theorem splitLeft_at {α : Type} (rec : Str → Option α) (pre : Str) (ch : Char) (post : Str)
    (ops : List (BinaryOperation α)) (hops : ∀ op ∈ ops, op.str.length = 1) :
    splitLeft rec (pre ++ ch :: post) pre.length ops = splitAtChar rec ops pre ch post := by
  induction ops with
  | nil => rfl
  | cons op rest ih =>
    have hL : op.str.length = 1 := hops op (List.mem_cons_self _ _)
    have ih1 := ih (fun o ho => hops o (List.mem_cons_of_mem _ ho))
    unfold splitLeft
    unfold splitAtChar at ih1 ⊢
    have e1 : substr (pre ++ ch :: post) (pre.length + 1 - op.str.length) op.str.length
        = [ch] := by
      rw [hL]; simp [substr]
    have e2 : substr (pre ++ ch :: post) 0 (pre.length + 1 - op.str.length) = pre := by
      rw [hL]; simp [substr]
    have e3 : substrFrom (pre ++ ch :: post) (pre.length + 1) = post := by
      simp [substrFrom]
    rw [e1, e2, e3, List.find?_cons]
    by_cases hc : op.str = [ch]
    · have hd : decide (op.str = [ch]) = true := by simpa using hc
      rw [if_pos hc.symm, hd]
    · have hd : decide (op.str = [ch]) = false := by simpa using hc
      rw [if_neg (fun h => hc h.symm), hd]
      exact ih1

theorem splitLeft_lt {α : Type} (rec : Str → Option α) (str : Str) (i : Nat)
    (ops : List (BinaryOperation α)) (hops : ∀ op ∈ ops, op.str.length = 1)
    (hi : i < str.length) :
    splitLeft rec str i ops
      = splitAtChar rec ops (str.take i) (str.get ⟨i, hi⟩) (str.drop (i + 1)) := by
  have hd : str = str.take i ++ str.get ⟨i, hi⟩ :: str.drop (i + 1) := by
    simp
  have hl : (str.take i).length = i := by
    rw [List.length_take]; omega
  have := splitLeft_at rec (str.take i) (str.get ⟨i, hi⟩) (str.drop (i + 1)) ops hops
  rw [← hd, hl] at this
  exact this

theorem decomp_mem_post {pre post pre1 post1 : Str} {ch ch1 : Char}
    (h : pre ++ ch :: post = pre1 ++ ch1 :: post1) (hlt : pre.length < pre1.length) :
    ch1 ∈ post := by
  rcases List.append_eq_append_iff.mp h with ⟨a, ha, hb⟩ | ⟨c, hc, _⟩
  · cases a with
    | nil => simp at ha; rw [ha] at hlt; omega
    | cons z zs =>
      simp only [List.cons_append, List.cons.injEq] at hb
      rw [hb.2]; simp
  · have := congrArg List.length hc
    simp at this
    omega

theorem decomp_mem_pre {pre post pre1 post1 : Str} {ch ch1 : Char}
    (h : pre ++ ch :: post = pre1 ++ ch1 :: post1) (hlt : pre1.length < pre.length) :
    ch1 ∈ pre := by
  rcases List.append_eq_append_iff.mp h with ⟨a, ha, _⟩ | ⟨c, hc, hb⟩
  · have := congrArg List.length ha
    simp at this
    omega
  · cases c with
    | nil => simp at hc; rw [hc] at hlt; omega
    | cons z zs =>
      simp only [List.cons_append, List.cons.injEq] at hb
      rw [hc, hb.1]; simp

theorem decomp_unique {pre post pre1 post1 : Str} {ch ch1 : Char}
    (h : pre ++ ch :: post = pre1 ++ ch1 :: post1)
    (h1 : ch1 ∉ pre) (h2 : ch1 ∉ post) : pre1 = pre ∧ ch1 = ch ∧ post1 = post := by
  rcases Nat.lt_trichotomy pre.length pre1.length with hlt | heq | hgt
  · exact absurd (decomp_mem_post h hlt) h2
  · have := List.append_inj h heq
    simp only [List.cons.injEq] at this
    exact ⟨this.1.symm, this.2.1.symm, this.2.2.symm⟩
  · exact absurd (decomp_mem_pre h hgt) h1

theorem findSome_range_rev {γ : Type} (f : Nat → Option γ) (n p : Nat) (v : γ)
    (hp : p < n) (hv : f p = some v) (hgt : ∀ j, p < j → j < n → f j = none) :
    (List.range n).reverse.findSome? f = some v := by
  induction n with
  | zero => omega
  | succ n ih =>
    rw [List.range_succ, List.reverse_append, List.reverse_singleton, List.singleton_append,
      List.findSome?_cons]
    by_cases hpn : p = n
    · subst hpn; rw [hv]
    · rw [hgt n (by omega) (by omega)]
      exact ih (by omega) (fun j h1 h2 => hgt j h1 (by omega))

theorem findSome_none {β γ : Type} (f : β → Option γ) (l : List β)
    (h : ∀ x ∈ l, f x = none) : l.findSome? f = none := by
  induction l with
  | nil => rfl
  | cons x xs ih =>
    rw [List.findSome?_cons, h x (List.mem_cons_self _ _)]
    exact ih (fun y hy => h y (List.mem_cons_of_mem _ hy))

theorem findSome_range {γ : Type} (f : Nat → Option γ) (n p : Nat) (v : γ)
    (hp : p < n) (hv : f p = some v) (hlt : ∀ j, j < p → f j = none) :
    (List.range n).findSome? f = some v := by
  have hsplit : List.range n = List.range p ++ (p :: (List.range' (p + 1) (n - (p + 1)))) := by
    apply List.ext_getElem
    · simp; omega
    · intro i h1 h2
      simp only [List.getElem_range]
      rw [List.getElem_append]
      split
      · simp
      · rename_i hge
        simp only [List.length_range, not_lt] at hge
        rcases Nat.eq_or_lt_of_le hge with he | hl
        · simp [← he]
        · have : i - (List.range p).length = (i - p - 1) + 1 := by simp; omega
          simp only [this, List.getElem_cons_succ, List.getElem_range']
          omega
  rw [hsplit, List.findSome?_append,
    findSome_none f (List.range p) (fun x hx => hlt x (List.mem_range.mp hx))]
  simp [List.findSome?_cons, hv]

theorem readTier_none {α : Type} (rec : Str → Option α) (str : Str) (tier : PrecedenceSet α)
    (hops : ∀ op ∈ tier.operations, op.str.length = 1)
    (h : ∀ (pre : Str) (ch : Char) (post : Str), str = pre ++ ch :: post →
      splitAtChar rec tier.operations pre ch post = none) :
    readTier rec str tier = none := by
  have key : ∀ i, splitLeft rec str i tier.operations = none := by
    intro i
    by_cases hi : i < str.length
    · rw [splitLeft_lt rec str i _ hops hi]
      exact h _ _ _ (by simp)
    · exact splitLeft_ge rec str i _ hops (by omega)
  unfold readTier
  split
  · exact findSome_none _ _ (fun i _ => key i)
  · exact findSome_none _ _
      (fun i _ => by rw [splitRight_eq_splitLeft rec str i _ hops]; exact key i)

theorem readTier_left {α : Type} (rec : Str → Option α) (tier : PrecedenceSet α)
    (pre : Str) (ch : Char) (post : Str) (v : α)
    (hassoc : tier.assoc = Assoc.LeftAssoc)
    (hops : ∀ op ∈ tier.operations, op.str.length = 1)
    (hv : splitAtChar rec tier.operations pre ch post = some v)
    (h : ∀ (pre1 : Str) (ch1 : Char) (post1 : Str), pre ++ ch :: post = pre1 ++ ch1 :: post1 →
      pre.length < pre1.length → splitAtChar rec tier.operations pre1 ch1 post1 = none) :
    readTier rec (pre ++ ch :: post) tier = some v := by
  unfold readTier
  rw [hassoc]
  apply findSome_range_rev _ _ pre.length v
  · simp; omega
  · rw [splitLeft_at rec pre ch post _ hops]; exact hv
  · intro j hj1 hj2
    by_cases hi : j < (pre ++ ch :: post).length
    · rw [splitLeft_lt rec _ j _ hops hi]
      apply h
      · simp
      · rw [List.length_take]; omega
    · exact splitLeft_ge rec _ j _ hops (by omega)

theorem readTier_right {α : Type} (rec : Str → Option α) (tier : PrecedenceSet α)
    (pre : Str) (ch : Char) (post : Str) (v : α)
    (hassoc : tier.assoc = Assoc.RightAssoc)
    (hops : ∀ op ∈ tier.operations, op.str.length = 1)
    (hv : splitAtChar rec tier.operations pre ch post = some v)
    (h : ∀ (pre1 : Str) (ch1 : Char) (post1 : Str), pre ++ ch :: post = pre1 ++ ch1 :: post1 →
      pre1.length < pre.length → splitAtChar rec tier.operations pre1 ch1 post1 = none) :
    readTier rec (pre ++ ch :: post) tier = some v := by
  unfold readTier
  rw [hassoc]
  apply findSome_range _ _ pre.length v
  · simp
  · rw [splitRight_eq_splitLeft rec _ _ _ hops, splitLeft_at rec pre ch post _ hops]; exact hv
  · intro j hj
    have hi : j < (pre ++ ch :: post).length := by simp; omega
    rw [splitRight_eq_splitLeft rec _ _ _ hops, splitLeft_lt rec _ j _ hops hi]
    apply h
    · simp
    · rw [List.length_take]; omega

/-! ## The operator table seen through its symbols -/

theorem tierAt_length_one {α : Type} (A : DoubleOps α) (k : Nat) :
    ∀ op ∈ (tierAt A k).operations, op.str.length = 1 := by
  intro op hop
  match k with
  | 0 =>
    simp only [tierAt, binaryOperations, List.getD_cons_zero, List.mem_cons,
      List.mem_singleton, List.not_mem_nil, or_false] at hop
    rcases hop with rfl | rfl <;> rfl
  | 1 =>
    simp only [tierAt, binaryOperations, List.getD_cons_succ, List.getD_cons_zero,
      List.mem_cons, List.mem_singleton, List.not_mem_nil, or_false] at hop
    rcases hop with rfl | rfl <;> rfl
  | 2 =>
    simp only [tierAt, binaryOperations, List.getD_cons_succ, List.getD_cons_zero,
      List.mem_cons, List.mem_singleton, List.not_mem_nil, or_false] at hop
    subst hop; rfl
  | k + 3 =>
    simp [tierAt, binaryOperations] at hop

theorem level_zero (ch : Char) : level ch = some 0 ↔ ch = '+' ∨ ch = '-' := by
  unfold level
  constructor
  · intro h; split_ifs at h with h1 h2 h3 <;> simp_all
  · intro h; rw [if_pos h]

theorem level_one (ch : Char) : level ch = some 1 ↔ ch = '*' ∨ ch = '/' := by
  constructor
  · intro h; unfold level at h; split_ifs at h with h1 h2 h3 <;> simp_all
  · intro h; rcases h with rfl | rfl <;> decide

theorem level_two (ch : Char) : level ch = some 2 ↔ ch = '^' := by
  constructor
  · intro h; unfold level at h; split_ifs at h with h1 h2 h3 <;> simp_all
  · intro h; subst h; decide

theorem level_lt_three (ch : Char) (k : Nat) (h : level ch = some k) : k < 3 := by
  unfold level at h; split_ifs at h with h1 h2 h3 <;> simp_all <;> omega

theorem tierAt_find {α : Type} (A : DoubleOps α) (k : Nat) (ch : Char) :
    (tierAt A k).operations.find? (fun op => op.str = [ch])
      = if level ch = some k then some ⟨[ch], opFunc A ch⟩ else none := by
  match k with
  | 0 =>
    simp only [tierAt, binaryOperations, List.getD_cons_zero, List.find?_cons,
      List.find?_nil]
    by_cases h1 : ch = '+'
    · subst h1; simp [level, opFunc]
    · by_cases h2 : ch = '-'
      · subst h2; simp [level, opFunc]
      · have e1 : ¬ ('+' = ch) := fun h => h1 h.symm
        have e2 : ¬ ('-' = ch) := fun h => h2 h.symm
        have e3 : level ch ≠ some 0 := by rw [Ne, level_zero]; simp [h1, h2]
        simp [e1, e2, e3]
  | 1 =>
    simp only [tierAt, binaryOperations, List.getD_cons_succ, List.getD_cons_zero,
      List.find?_cons, List.find?_nil]
    by_cases h1 : ch = '*'
    · subst h1; simp [level, opFunc]
    · by_cases h2 : ch = '/'
      · subst h2; simp [level, opFunc]
      · have e1 : ¬ ('*' = ch) := fun h => h1 h.symm
        have e2 : ¬ ('/' = ch) := fun h => h2 h.symm
        have e3 : level ch ≠ some 1 := by rw [Ne, level_one]; simp [h1, h2]
        simp [e1, e2, e3]
  | 2 =>
    simp only [tierAt, binaryOperations, List.getD_cons_succ, List.getD_cons_zero,
      List.find?_cons, List.find?_nil]
    by_cases h1 : ch = '^'
    · subst h1; simp [level, opFunc]
    · have e1 : ¬ ('^' = ch) := fun h => h1 h.symm
      have e3 : level ch ≠ some 2 := by rw [Ne, level_two]; simp [h1]
      simp [e1, e3]
  | k + 3 =>
    have e3 : level ch ≠ some (k + 3) := fun h => by
      have := level_lt_three ch _ h
      omega
    simp [tierAt, binaryOperations, e3]

theorem splitAtChar_tier {α : Type} (A : DoubleOps α) (rec : Str → Option α) (k : Nat)
    (pre : Str) (ch : Char) (post : Str) :
    splitAtChar rec (tierAt A k).operations pre ch post
      = if level ch = some k then
          (match rec (trim pre) with
           | none => none
           | some operand1 =>
             match rec (trim post) with
             | none => none
             | some operand2 => some (opFunc A ch operand1 operand2))
        else none := by
  unfold splitAtChar
  rw [tierAt_find]
  split_ifs <;> rfl

theorem tierAt_assoc {α : Type} (A : DoubleOps α) (k : Nat) :
    (tierAt A k).assoc = if k = 2 then Assoc.RightAssoc else Assoc.LeftAssoc := by
  match k with
  | 0 => rfl
  | 1 => rfl
  | 2 => rfl
  | k + 3 => simp [tierAt, binaryOperations]

theorem readBinaryOp_eq {α : Type} (A : DoubleOps α) (rec : Str → Option α) (str : Str) :
    readBinaryOp A rec str
      = match readTier rec str (tierAt A 0) with
        | some v => some v
        | none =>
          match readTier rec str (tierAt A 1) with
          | some v => some v
          | none => readTier rec str (tierAt A 2) := by
  unfold readBinaryOp
  have e : binaryOperations A = [tierAt A 0, tierAt A 1, tierAt A 2] := rfl
  rw [e]
  simp only [List.findSome?_cons, List.findSome?_nil]
  cases readTier rec str (tierAt A 0) <;> simp only []
  cases readTier rec str (tierAt A 1) <;> simp only []
  cases readTier rec str (tierAt A 2) <;> simp only []

theorem avoids_nil (k : Nat) : Avoids k [] := by
  intro c hc; simp at hc

theorem avoids_cons (k : Nat) (c : Char) (s : Str) :
    Avoids k (c :: s) ↔ level c ≠ some k ∧ Avoids k s := by
  simp [Avoids]

theorem avoids_append (k : Nat) (s t : Str) :
    Avoids k (s ++ t) ↔ Avoids k s ∧ Avoids k t := by
  simp only [Avoids, List.mem_append]
  constructor
  · intro h; exact ⟨fun c hc => h c (Or.inl hc), fun c hc => h c (Or.inr hc)⟩
  · rintro ⟨h1, h2⟩ c (hc | hc)
    · exact h1 c hc
    · exact h2 c hc

theorem isdigit_ne {c d : Char} (h : isdigit c = true) (hd : isdigit d = false) : c ≠ d := by
  rintro rfl; rw [h] at hd; exact absurd hd (by simp)

theorem isdigit_not_space {c : Char} (h : isdigit c = true) : isspace c = false := by
  unfold isdigit at h
  unfold isspace
  simp only [Bool.and_eq_true, decide_eq_true_eq] at h
  simp only [Bool.or_eq_false_iff, decide_eq_false_iff_not, Bool.and_eq_false_iff]
  omega

theorem isdigit_level {c : Char} (h : isdigit c = true) : level c = none := by
  have h1 : c ≠ '+' := isdigit_ne h (by decide)
  have h2 : c ≠ '-' := isdigit_ne h (by decide)
  have h3 : c ≠ '*' := isdigit_ne h (by decide)
  have h4 : c ≠ '/' := isdigit_ne h (by decide)
  have h5 : c ≠ '^' := isdigit_ne h (by decide)
  simp [level, h1, h2, h3, h4, h5]

theorem digits_avoids {s : Str} (h : Digits s) (k : Nat) : Avoids k s := by
  intro c hc
  rw [isdigit_level (h c hc)]
  simp

theorem trim_eq_self (s : Str) (h : ∀ c ∈ s, isspace c = false) : trim s = s := by
  unfold trim
  have h1 : s.dropWhile isspace = s := by
    cases s with
    | nil => rfl
    | cons x xs => rw [List.dropWhile_cons_of_neg]; simp [h x (List.mem_cons_self _ _)]
  simp only [h1]
  split
  · rename_i hs; exact hs.symm
  · rename_i hs
    rw [List.rdropWhile_eq_self_iff]
    intro hne
    simp [h _ (List.getLast_mem hne)]

theorem digits_trim {s : Str} (h : Digits s) : trim s = s :=
  trim_eq_self s (fun c hc => isdigit_not_space (h c hc))

/-! ## When the recognisers other than `readBinaryOp` fail -/

theorem readPercent_none {α : Type} (st : Calculator α) (str : Str)
    (h : str.head? ≠ some '%') : readPercent st str = none := by
  unfold readPercent
  rw [if_pos h]

theorem readParantheses_none_head {α : Type} (rec : Str → Option α) (str : Str)
    (h : str.head? ≠ some '(') : readParantheses rec str = none := by
  unfold readParantheses
  rw [if_neg]
  intro hc; exact h hc.2.1

theorem readParantheses_none_last {α : Type} (rec : Str → Option α) (str : Str)
    (h : str.getLast? ≠ some ')') : readParantheses rec str = none := by
  unfold readParantheses
  rw [if_neg]
  intro hc; exact h hc.2.2

theorem readUnaryOpLoop_none {α : Type} (rec : Str → Option α) (str : Str)
    (ops : List (UnaryOperation α)) (h : ∀ op ∈ ops, op.str.isPrefixOf str = false) :
    readUnaryOpLoop rec str ops = none := by
  induction ops with
  | nil => rfl
  | cons op rest ih =>
    unfold readUnaryOpLoop
    rw [h op (List.mem_cons_self _ _)]
    simp only [Bool.false_eq_true, if_false]
    exact ih (fun o ho => h o (List.mem_cons_of_mem _ ho))

theorem readUnaryOp_none_head {α : Type} (A : DoubleOps α) (rec : Str → Option α)
    (str : Str) (h : ∀ c ∈ unaryHeads, str.head? ≠ some c) :
    readUnaryOp A rec str = none := by
  unfold readUnaryOp
  apply readUnaryOpLoop_none
  intro op hop
  cases str with
  | nil =>
    simp only [unaryOperations, List.mem_cons, List.mem_singleton, List.not_mem_nil,
      or_false] at hop
    rcases hop with rfl | rfl | rfl | rfl | rfl | rfl | rfl | rfl <;> rfl
  | cons x xs =>
    simp only [unaryHeads, List.head?_cons, ne_eq, Option.some.injEq, List.mem_cons,
      List.mem_singleton, List.not_mem_nil, or_false, forall_eq_or_imp, forall_eq] at h
    simp only [unaryOperations, List.mem_cons, List.mem_singleton, List.not_mem_nil,
      or_false] at hop
    rcases hop with rfl | rfl | rfl | rfl | rfl | rfl | rfl | rfl <;>
      simp only [List.isPrefixOf, Bool.and_eq_false_imp, beq_iff_eq] <;>
      intro e <;> subst e <;> simp at h

theorem readAlias_eq {α : Type} (A : DoubleOps α) (str : Str) :
    readAlias A str = if str = ['p', 'i'] then some A.M_PI else none := by
  unfold readAlias aliases
  by_cases h : str = ['p', 'i']
  · subst h; simp
  · have h1 : ¬ (['p', 'i'] = str) := fun e => h e.symm
    simp [List.find?_cons, h, h1]

/-! ## The literal recogniser -/

theorem floatLoop_digits_stop (a : Str) (c : Char) (r : Str) (ha : Digits a)
    (hc : isdigit c = false) (h1 : c ≠ '.') (h2 : c ≠ 'e') (h3 : c ≠ 'E') :
    ∀ mant dec sci : Bool, (floatLoop mant dec sci false (a ++ c :: r)).2 = c :: r := by
  induction a with
  | nil =>
    intro mant dec sci
    simp [floatLoop, hc, h1, h2, h3]
  | cons d ds ih =>
    intro mant dec sci
    have hd : isdigit d = true := ha d (List.mem_cons_self _ _)
    have hds : Digits ds := fun x hx => ha x (List.mem_cons_of_mem _ hx)
    simp only [List.cons_append, floatLoop, Bool.false_eq_true, false_and, if_false, hd,
      if_true]
    exact ih hds true dec sci

theorem dropWhile_append_stop (p : Char → Bool) (a : Str) (c : Char) (r : Str)
    (hc : p c = false) :
    (a ++ c :: r).dropWhile p = a.dropWhile p ++ c :: r := by
  induction a with
  | nil => simp [List.dropWhile, hc]
  | cons d ds ih =>
    simp only [List.cons_append, List.dropWhile]
    cases p d
    · rfl
    · exact ih

theorem scanFloat_digits_stop (a : Str) (c : Char) (r : Str) (ha : Digits a)
    (hc : isdigit c = false) (h1 : c ≠ '.') (h2 : c ≠ 'e') (h3 : c ≠ 'E')
    (hm : (a ++ c :: r).head? ≠ some '-') (hp : (a ++ c :: r).head? ≠ some '+') :
    (scanFloat (a ++ c :: r)).2 = c :: r := by
  have h0 : c ≠ '0' := by rintro rfl; exact absurd hc (by decide)
  unfold scanFloat
  simp only [hm, hp, or_self, if_false]
  rw [dropWhile_append_stop _ a c r (by simpa using h0)]
  apply floatLoop_digits_stop _ c r _ hc h1 h2 h3
  intro x hx
  exact ha x ((List.dropWhile_suffix _).subset hx)

theorem scanFloat_head_stop (c : Char) (r : Str)
    (hc : isdigit c = false) (h1 : c ≠ '.') (hm : c ≠ '-') (hp : c ≠ '+') :
    (scanFloat (c :: r)).2 = c :: r := by
  have h0 : c ≠ '0' := by rintro rfl; exact absurd hc (by decide)
  unfold scanFloat
  simp [hm, hp, h0, List.takeWhile, List.dropWhile, floatLoop, hc, h1]

theorem readDouble_some {α : Type} (A : DoubleOps α) (s : Str) (v : α)
    (h : readDouble A s = some v) :
    ∃ (c : Char) (r : Str), s = c :: r ∧ c ≠ '-' ∧ c ≠ '+' ∧ isspace c = false
      ∧ (scanFloat s).2 = [] ∧ A.strtod (scanFloat s).1 = some v := by
  unfold readDouble at h
  split at h
  · exact absurd h (by simp)
  · rename_i hsign
    simp only at h
    split at h
    · rename_i hcond
      simp only [Bool.and_eq_true, Bool.not_eq_true', decide_eq_true_eq] at hcond
      obtain ⟨⟨hsp, -⟩, heof⟩ := hcond
      cases s with
      | nil =>
        simp [extractDouble] at h
      | cons c r =>
        simp only [char0, List.headD_cons] at hsign hsp
        have hdw : (c :: r).dropWhile isspace = c :: r := by
          rw [List.dropWhile_cons_of_neg]; simp [hsp]
        simp only [extractDouble, hdw, List.cons_ne_nil, reduceCtorEq, if_false,
          decide_eq_true_eq] at h heof
        exact ⟨c, r, rfl, fun e => hsign (Or.inl e), fun e => hsign (Or.inr e), hsp, heof, h⟩
    · exact absurd h (by simp)

theorem readDouble_head {α : Type} (A : DoubleOps α) (s : Str) (v : α)
    (h : readDouble A s = some v) :
    ∃ (c : Char) (r : Str), s = c :: r ∧ (isdigit c = true ∨ c = '.') := by
  obtain ⟨c, r, hs, hm, hp, -, hrest, -⟩ := readDouble_some A s v h
  refine ⟨c, r, hs, ?_⟩
  by_contra hcon
  push_neg at hcon
  have hd : isdigit c = false := by simpa using hcon.1
  rw [hs, scanFloat_head_stop c r hd hcon.2 hm hp] at hrest
  exact absurd hrest (by simp)

theorem readDouble_none_of_stop {α : Type} (A : DoubleOps α) (a : Str) (c : Char) (r : Str)
    (ha : Digits a) (hc : isdigit c = false) (h1 : c ≠ '.') (h2 : c ≠ 'e') (h3 : c ≠ 'E') :
    readDouble A (a ++ c :: r) = none := by
  cases hv : readDouble A (a ++ c :: r) with
  | none => rfl
  | some v =>
    exfalso
    obtain ⟨x, xs, hs, hm, hp, -, hrest, -⟩ := readDouble_some A _ v hv
    have hm1 : (a ++ c :: r).head? ≠ some '-' := by rw [hs]; simpa using hm
    have hp1 : (a ++ c :: r).head? ≠ some '+' := by rw [hs]; simpa using hp
    rw [scanFloat_digits_stop a c r ha hc h1 h2 h3 hm1 hp1] at hrest
    exact absurd hrest (by simp)

/-! ## Evaluating an expression cut at one operator -/

theorem readExpression_of_readDouble {α : Type} (A : DoubleOps α) (st : Calculator α)
    (s : Str) (v : α) (h : readDouble A s = some v) : readExpression A st s = some v := by
  obtain ⟨c, r, hs, hc⟩ := readDouble_head A s v h
  have hP : readPercent st s = none := by
    apply readPercent_none
    rw [hs]
    simp only [List.head?_cons, ne_eq, Option.some.injEq]
    rcases hc with hc | hc
    · exact isdigit_ne hc (by decide)
    · rw [hc]; decide
  rw [readExpression_eq]
  unfold readExpressionStep
  rw [hP, h]
  rfl

theorem readTier_none_absent {α : Type} (A : DoubleOps α) (rec : Str → Option α) (str : Str)
    (k : Nat) (h : Avoids k str) : readTier rec str (tierAt A k) = none := by
  apply readTier_none rec str _ (tierAt_length_one A k)
  intro pre ch post hs
  rw [splitAtChar_tier, if_neg]
  apply h
  rw [hs]; simp

theorem readTier_none_unique {α : Type} (A : DoubleOps α) (rec : Str → Option α) (k : Nat)
    (pre : Str) (ch : Char) (post : Str) (h1 : Avoids k pre) (h2 : Avoids k post)
    (hfail : rec (trim pre) = none ∨ rec (trim post) = none) :
    readTier rec (pre ++ ch :: post) (tierAt A k) = none := by
  apply readTier_none rec _ _ (tierAt_length_one A k)
  intro pre1 ch1 post1 hs
  rw [splitAtChar_tier]
  split
  · rename_i hl
    have hu := decomp_unique hs (fun hm => h1 _ hm hl) (fun hm => h2 _ hm hl)
    rw [hu.1, hu.2.2]
    rcases hfail with hf | hf
    · rw [hf]
    · rw [hf]; cases rec (trim pre) <;> rfl
  · rfl

theorem readTier_split {α : Type} (A : DoubleOps α) (rec : Str → Option α) (k : Nat)
    (pre : Str) (ch : Char) (post : Str) (x y : α) (hk : level ch = some k)
    (hside : if k = 2 then Avoids k pre else Avoids k post)
    (hx : rec (trim pre) = some x) (hy : rec (trim post) = some y) :
    readTier rec (pre ++ ch :: post) (tierAt A k) = some (opFunc A ch x y) := by
  have hv : splitAtChar rec (tierAt A k).operations pre ch post = some (opFunc A ch x y) := by
    rw [splitAtChar_tier, if_pos hk, hx, hy]
  by_cases h2 : k = 2
  · rw [if_pos h2] at hside
    apply readTier_right rec _ pre ch post _ (by rw [tierAt_assoc, if_pos h2])
      (tierAt_length_one A k) hv
    intro pre1 ch1 post1 hs hlt
    rw [splitAtChar_tier, if_neg]
    exact hside _ (decomp_mem_pre hs hlt)
  · rw [if_neg h2] at hside
    apply readTier_left rec _ pre ch post _ (by rw [tierAt_assoc, if_neg h2])
      (tierAt_length_one A k) hv
    intro pre1 ch1 post1 hs hlt
    rw [splitAtChar_tier, if_neg]
    exact hside _ (decomp_mem_post hs hlt)

theorem readBinaryOp_at {α : Type} (A : DoubleOps α) (rec : Str → Option α) (str : Str)
    (k : Nat) (v : α) (hk : k < 3)
    (hlow : ∀ j, j < k → readTier rec str (tierAt A j) = none)
    (hv : readTier rec str (tierAt A k) = some v) : readBinaryOp A rec str = some v := by
  rw [readBinaryOp_eq]
  match k, hk with
  | 0, _ => rw [hv]
  | 1, _ => rw [hlow 0 (by omega), hv]
  | 2, _ => rw [hlow 0 (by omega), hlow 1 (by omega), hv]

theorem readBinaryOp_none {α : Type} (A : DoubleOps α) (rec : Str → Option α) (str : Str)
    (h : ∀ k, readTier rec str (tierAt A k) = none) : readBinaryOp A rec str = none := by
  rw [readBinaryOp_eq, h 0, h 1, h 2]

theorem readExpression_split {α : Type} (A : DoubleOps α) (st : Calculator α) (k : Nat)
    (pre : Str) (ch : Char) (post : Str) (x y : α) (hk : level ch = some k)
    (hP : (pre ++ ch :: post).head? ≠ some '%')
    (hD : readDouble A (pre ++ ch :: post) = none)
    (hPar : readParantheses (readExpression A st) (pre ++ ch :: post) = none)
    (hlow : ∀ j, j < k →
      readTier (readExpression A st) (pre ++ ch :: post) (tierAt A j) = none)
    (hside : if k = 2 then Avoids k pre else Avoids k post)
    (hx : readExpression A st (trim pre) = some x)
    (hy : readExpression A st (trim post) = some y) :
    readExpression A st (pre ++ ch :: post) = some (opFunc A ch x y) := by
  have hB := readBinaryOp_at A (readExpression A st) (pre ++ ch :: post) k _
    (level_lt_three ch k hk) hlow (readTier_split A _ k pre ch post x y hk hside hx hy)
  rw [readExpression_eq]
  unfold readExpressionStep
  rw [readPercent_none st _ hP, hD, hPar, hB]
  rfl

theorem readExpression_none {α : Type} (A : DoubleOps α) (st : Calculator α) (str : Str)
    (hP : str.head? ≠ some '%')
    (hD : readDouble A str = none)
    (hPar : readParantheses (readExpression A st) str = none)
    (hB : ∀ k, readTier (readExpression A st) str (tierAt A k) = none)
    (hU : ∀ c ∈ unaryHeads, str.head? ≠ some c)
    (hA : str ≠ ['p', 'i']) :
    readExpression A st str = none := by
  rw [readExpression_eq]
  unfold readExpressionStep
  rw [readPercent_none st _ hP, hD, hPar, readBinaryOp_none A _ _ hB,
    readUnaryOp_none_head A _ _ hU, readAlias_eq, if_neg hA]
  rfl

/-! ## Strings made of digits and binary operator symbols only -/

theorem digits_plain {s : Str} (h : Digits s) : Plain s :=
  fun c hc => Or.inl (h c hc)

theorem plain_append {s t : Str} (hs : Plain s) (ht : Plain t) : Plain (s ++ t) := by
  intro c hc
  rcases List.mem_append.mp hc with h | h
  · exact hs c h
  · exact ht c h

theorem plain_cons {c : Char} {s : Str} (hc : level c ≠ none) (hs : Plain s) :
    Plain (c :: s) := by
  intro x hx
  rcases List.mem_cons.mp hx with h | h
  · rw [h]; exact Or.inr hc
  · exact hs x h

theorem startsDigit_append {s : Str} (h : StartsDigit s) (t : Str) : StartsDigit (s ++ t) := by
  obtain ⟨d, r, hs, hd⟩ := h
  exact ⟨d, r ++ t, by rw [hs]; rfl, hd⟩

theorem level_cases {c : Char} (h : level c ≠ none) :
    c = '+' ∨ c = '-' ∨ c = '*' ∨ c = '/' ∨ c = '^' := by
  unfold level at h
  split_ifs at h with h1 h2 h3
  · rcases h1 with h1 | h1
    · exact Or.inl h1
    · exact Or.inr (Or.inl h1)
  · rcases h2 with h2 | h2
    · exact Or.inr (Or.inr (Or.inl h2))
    · exact Or.inr (Or.inr (Or.inr (Or.inl h2)))
  · exact Or.inr (Or.inr (Or.inr (Or.inr h3)))
  · exact absurd rfl h

theorem level_not_digit {c : Char} (h : level c ≠ none) :
    isdigit c = false ∧ c ≠ '.' ∧ c ≠ 'e' ∧ c ≠ 'E' ∧ isspace c = false ∧ c ≠ '('
      ∧ c ≠ ')' ∧ c ≠ '%' := by
  rcases level_cases h with rfl | rfl | rfl | rfl | rfl <;> decide

theorem plain_trim {s : Str} (h : Plain s) : trim s = s := by
  apply trim_eq_self
  intro c hc
  rcases h c hc with hd | hl
  · exact isdigit_not_space hd
  · exact (level_not_digit hl).2.2.2.2.1

theorem readDouble_none_plain {α : Type} (A : DoubleOps α) (s : Str) (hs : Plain s)
    (c : Char) (hc : c ∈ s) (hl : level c ≠ none) : readDouble A s = none := by
  have hsplit : s = s.takeWhile isdigit ++ s.dropWhile isdigit :=
    (List.takeWhile_append_dropWhile _ _).symm
  have hne : s.dropWhile isdigit ≠ [] := by
    intro he
    rw [List.dropWhile_eq_nil_iff] at he
    have := he c hc
    rw [(level_not_digit hl).1] at this
    exact absurd this (by simp)
  obtain ⟨x, xs, hx⟩ := List.exists_cons_of_ne_nil hne
  have hxd : isdigit x = false := by
    have := List.head_dropWhile_not isdigit s hne
    simp only [hx, List.head_cons] at this
    simpa using this
  have hxs : x ∈ s := by
    have : x ∈ s.dropWhile isdigit := by rw [hx]; simp
    exact (List.dropWhile_suffix _).subset this
  have hxl : level x ≠ none := by
    rcases hs x hxs with h | h
    · rw [h] at hxd; exact absurd hxd (by simp)
    · exact h
  have hp := level_not_digit hxl
  rw [hsplit, hx]
  apply readDouble_none_of_stop A _ x xs _ hxd hp.2.1 hp.2.2.1 hp.2.2.2.1
  intro y hy
  exact List.mem_takeWhile_imp hy

theorem readExpression_plain_split {α : Type} (A : DoubleOps α) (st : Calculator α)
    (k : Nat) (pre : Str) (ch : Char) (post : Str) (x y : α) (hk : level ch = some k)
    (hpre : Plain pre) (hpost : Plain post) (hhead : StartsDigit pre)
    (hlow : ∀ j, j < k → Avoids j pre ∧ Avoids j post)
    (hside : if k = 2 then Avoids k pre else Avoids k post)
    (hx : readExpression A st pre = some x) (hy : readExpression A st post = some y) :
    readExpression A st (pre ++ ch :: post) = some (opFunc A ch x y) := by
  have hch : level ch ≠ none := by rw [hk]; simp
  have hplain : Plain (pre ++ ch :: post) := plain_append hpre (plain_cons hch hpost)
  obtain ⟨d, r, hd, hdig⟩ := hhead
  have hhd : (pre ++ ch :: post).head? = some d := by rw [hd]; rfl
  apply readExpression_split A st k pre ch post x y hk
  · rw [hhd]
    simp only [ne_eq, Option.some.injEq]
    exact isdigit_ne hdig (by decide)
  · exact readDouble_none_plain A _ hplain ch (by simp) hch
  · apply readParantheses_none_head
    rw [hhd]
    simp only [ne_eq, Option.some.injEq]
    exact isdigit_ne hdig (by decide)
  · intro j hj
    apply readTier_none_absent
    rw [avoids_append, avoids_cons]
    refine ⟨(hlow j hj).1, ?_, (hlow j hj).2⟩
    rw [hk]
    simp only [ne_eq, Option.some.injEq]
    omega
  · exact hside
  · rw [plain_trim hpre]; exact hx
  · rw [plain_trim hpost]; exact hy

/-- An entry of tier `i` of the table is a one-character symbol with its function. -/
theorem table_entry {α : Type} (A : DoubleOps α) (i : Nat) (T : PrecedenceSet α)
    (o : BinaryOperation α) (hT : (binaryOperations A)[i]? = some T)
    (ho : o ∈ T.operations) :
    ∃ ch : Char, o.str = [ch] ∧ o.func = opFunc A ch ∧ level ch = some i := by
  match i with
  | 0 =>
    simp only [binaryOperations, List.getElem?_cons_zero, Option.some.injEq] at hT
    subst hT
    simp only [List.mem_cons, List.mem_singleton, List.not_mem_nil, or_false] at ho
    rcases ho with rfl | rfl
    · exact ⟨'+', rfl, rfl, rfl⟩
    · exact ⟨'-', rfl, rfl, rfl⟩
  | 1 =>
    simp only [binaryOperations, List.getElem?_cons_succ, List.getElem?_cons_zero,
      Option.some.injEq] at hT
    subst hT
    simp only [List.mem_cons, List.mem_singleton, List.not_mem_nil, or_false] at ho
    rcases ho with rfl | rfl
    · exact ⟨'*', rfl, rfl, rfl⟩
    · exact ⟨'/', rfl, rfl, rfl⟩
  | 2 =>
    simp only [binaryOperations, List.getElem?_cons_succ, List.getElem?_cons_zero,
      Option.some.injEq] at hT
    subst hT
    simp only [List.mem_cons, List.mem_singleton, List.not_mem_nil, or_false] at ho
    subst ho
    exact ⟨'^', rfl, rfl, rfl⟩
  | k + 3 =>
    simp [binaryOperations] at hT

/-- A digit string accepted by `readDouble` starts with a digit and evaluates to its
value. -/
theorem digits_atom {α : Type} (A : DoubleOps α) (st : Calculator α) (a : Str) (va : α)
    (ha : Digits a) (hva : readDouble A a = some va) :
    Plain a ∧ StartsDigit a ∧ (∀ k, Avoids k a) ∧ readExpression A st a = some va := by
  refine ⟨digits_plain ha, ?_, digits_avoids ha, readExpression_of_readDouble A st a va hva⟩
  obtain ⟨c, r, hs, -⟩ := readDouble_head A a va hva
  exact ⟨c, r, hs, ha c (by rw [hs]; simp)⟩

theorem folding_exact : ExactOnInt folding (fun n => Term.num n) where
  lit := by
    intro ds hne hd _
    have hall : ds.all isdigit = true := by
      rw [List.all_eq_true]; exact hd
    have hcond : ds ≠ [] ∧ ds.all isdigit = true := ⟨hne, hall⟩
    show (if ds ≠ [] ∧ ds.all isdigit = true then some (Term.num (digitsValue ds))
      else if isDecimalNumeral ds = true then some (Term.lit ds) else none) = _
    rw [if_pos hcond]
  add := by intro m n _ _ _; rfl
  sub := by intro m n _ _ _; rfl
  mul := by intro m n _ _ _ _; rfl
  pow := by
    intro m n _ _ _
    simp [folding]
  neg := by
    intro m _ h0
    simp [folding, h0]

theorem eval_right_nested {α : Type} (A : DoubleOps α) (st : Calculator α)
    (a b c : Str) (va vb vc : α) (ha : Digits a) (hb : Digits b) (hc : Digits c)
    (hva : readDouble A a = some va) (hvb : readDouble A b = some vb)
    (hvc : readDouble A c = some vc) (ch1 ch2 : Char) (k1 k2 : Nat)
    (h1 : level ch1 = some k1) (h2 : level ch2 = some k2)
    (h : k1 < k2 ∨ (k1 = k2 ∧ k1 = 2)) :
    readExpression A st (a ++ ch1 :: (b ++ ch2 :: c))
      = some (opFunc A ch1 va (opFunc A ch2 vb vc)) := by
  obtain ⟨pa, sa, aa, ea⟩ := digits_atom A st a va ha hva
  obtain ⟨pb, sb, ab, eb⟩ := digits_atom A st b vb hb hvb
  obtain ⟨pc, _, ac, ec⟩ := digits_atom A st c vc hc hvc
  have hl2 : level ch2 ≠ none := by rw [h2]; simp
  have inner : readExpression A st (b ++ ch2 :: c) = some (opFunc A ch2 vb vc) := by
    apply readExpression_plain_split A st k2 b ch2 c vb vc h2 pb pc sb
      (fun j _ => ⟨ab j, ac j⟩) _ eb ec
    split
    · exact ab k2
    · exact ac k2
  apply readExpression_plain_split A st k1 a ch1 (b ++ ch2 :: c) va _ h1 pa
    (plain_append pb (plain_cons hl2 pc)) sa _ _ ea inner
  · intro j hj
    refine ⟨aa j, ?_⟩
    rw [avoids_append, avoids_cons]
    refine ⟨ab j, ?_, ac j⟩
    rw [h2]; simp only [ne_eq, Option.some.injEq]; omega
  · split
    · exact aa k1
    · rename_i hne
      rw [avoids_append, avoids_cons]
      refine ⟨ab k1, ?_, ac k1⟩
      rw [h2]; simp only [ne_eq, Option.some.injEq]; omega

theorem eval_left_nested {α : Type} (A : DoubleOps α) (st : Calculator α)
    (a b c : Str) (va vb vc : α) (ha : Digits a) (hb : Digits b) (hc : Digits c)
    (hva : readDouble A a = some va) (hvb : readDouble A b = some vb)
    (hvc : readDouble A c = some vc) (ch1 ch2 : Char) (k1 k2 : Nat)
    (h1 : level ch1 = some k1) (h2 : level ch2 = some k2)
    (h : k2 < k1 ∨ (k1 = k2 ∧ k1 ≠ 2)) :
    readExpression A st ((a ++ ch1 :: b) ++ ch2 :: c)
      = some (opFunc A ch2 (opFunc A ch1 va vb) vc) := by
  obtain ⟨pa, sa, aa, ea⟩ := digits_atom A st a va ha hva
  obtain ⟨pb, _, ab, eb⟩ := digits_atom A st b vb hb hvb
  obtain ⟨pc, _, ac, ec⟩ := digits_atom A st c vc hc hvc
  have hl1 : level ch1 ≠ none := by rw [h1]; simp
  have hk1 : k1 < 3 := level_lt_three ch1 k1 h1
  have inner : readExpression A st (a ++ ch1 :: b) = some (opFunc A ch1 va vb) := by
    apply readExpression_plain_split A st k1 a ch1 b va vb h1 pa pb sa
      (fun j _ => ⟨aa j, ab j⟩) _ ea eb
    split
    · exact aa k1
    · exact ab k1
  apply readExpression_plain_split A st k2 (a ++ ch1 :: b) ch2 c _ vc h2
    (plain_append pa (plain_cons hl1 pb)) pc (startsDigit_append sa _) _ _ inner ec
  · intro j hj
    refine ⟨?_, ac j⟩
    rw [avoids_append, avoids_cons]
    refine ⟨aa j, ?_, ab j⟩
    rw [h1]; simp only [ne_eq, Option.some.injEq]; omega
  · split
    · omega
    · exact ac k2

theorem floatLoop_digits (a : Str) (ha : Digits a) :
    ∀ mant dec sci : Bool, floatLoop mant dec sci false a = (a, []) := by
  induction a with
  | nil => intro mant dec sci; rfl
  | cons d ds ih =>
    intro mant dec sci
    have hd : isdigit d = true := ha d (List.mem_cons_self _ _)
    have hds : Digits ds := fun x hx => ha x (List.mem_cons_of_mem _ hx)
    simp only [floatLoop, Bool.false_eq_true, false_and, if_false, hd, if_true,
      ih hds true dec sci]

theorem digitsValue_dropZeros (ds : Str) :
    digitsValue (ds.dropWhile (fun c => decide (c = '0'))) = digitsValue ds := by
  induction ds with
  | nil => rfl
  | cons d t ih =>
    by_cases h : d = '0'
    · subst h
      rw [List.dropWhile_cons_of_pos (by simp), ih]
      rfl
    · rw [List.dropWhile_cons_of_neg (by simpa using h)]

theorem scanFloat_digits (ds : Str) (hd : Digits ds) (hne : ds ≠ []) :
    (scanFloat ds).2 = [] ∧ Digits (scanFloat ds).1 ∧ (scanFloat ds).1 ≠ []
      ∧ digitsValue (scanFloat ds).1 = digitsValue ds := by
  obtain ⟨c, r, hs⟩ := List.exists_cons_of_ne_nil hne
  have hc : isdigit c = true := hd c (by rw [hs]; simp)
  have hm : ds.head? ≠ some '-' := by
    rw [hs]; simp only [List.head?_cons, ne_eq, Option.some.injEq]
    exact isdigit_ne hc (by decide)
  have hp : ds.head? ≠ some '+' := by
    rw [hs]; simp only [List.head?_cons, ne_eq, Option.some.injEq]
    exact isdigit_ne hc (by decide)
  have hdz : Digits (ds.dropWhile (fun c => decide (c = '0'))) :=
    fun x hx => hd x ((List.dropWhile_suffix _).subset hx)
  unfold scanFloat
  simp only [hm, hp, or_self, if_false, floatLoop_digits _ hdz, List.nil_append]
  refine ⟨trivial, ?_, ?_, ?_⟩
  · intro x hx
    rcases List.mem_append.mp hx with h | h
    · split at h
      · simp only [List.mem_singleton] at h; rw [h]; decide
      · simp at h
    · exact hdz x h
  · by_cases hz : c = '0'
    · subst hz
      simp [hs, List.takeWhile]
    · have : ds.dropWhile (fun c => decide (c = '0')) = ds := by
        rw [hs, List.dropWhile_cons_of_neg (by simpa using hz)]
      rw [this]
      simp [hne]
  · have e : ∀ t : Str, digitsValue ((if (!(List.takeWhile (fun c => decide (c = '0'))
        ds).isEmpty) = true then ['0'] else []) ++ t) = digitsValue t := by
      intro t
      split <;> rfl
    rw [e, digitsValue_dropZeros]

theorem readDouble_digits {α : Type} (A : DoubleOps α) (ds : Str) (hd : Digits ds)
    (hne : ds ≠ []) : readDouble A ds = A.strtod (scanFloat ds).1 := by
  obtain ⟨c, r, hs⟩ := List.exists_cons_of_ne_nil hne
  have hc : isdigit c = true := hd c (by rw [hs]; simp)
  have h1 : c ≠ '-' := isdigit_ne hc (by decide)
  have h2 : c ≠ '+' := isdigit_ne hc (by decide)
  have h3 : isspace c = false := isdigit_not_space hc
  have hrest := (scanFloat_digits ds hd hne).1
  have hdw : (c :: r).dropWhile isspace = c :: r := by
    rw [List.dropWhile_cons_of_neg]; simp [h3]
  unfold readDouble extractDouble
  rw [hs] at hrest ⊢
  simp only [char0, List.headD_cons, h1, h2, or_self, if_false, h3, hdw, hrest]
  cases A.strtod (scanFloat (c :: r)).1 <;> simp

/-- A digit string of value below `2^53` is read as its exact value by an arithmetic that
is exact on the integers. -/
theorem readDouble_exact {α : Type} (A : DoubleOps α) (ι : Int → α) (hE : ExactOnInt A ι)
    (ds : Str) (n : Nat) (hne : ds ≠ []) (hd : Digits ds) (hv : digitsValue ds = n)
    (hn : n < 2 ^ 53) : readDouble A ds = some (ι n) := by
  obtain ⟨-, h2, h3, h4⟩ := scanFloat_digits ds hd hne
  rw [readDouble_digits A ds hd hne, hE.lit _ h3 h2, h4, hv]
  rw [h4, hv]
  constructor <;> omega

/-! ## Precedence and associativity -/

/-- C1 (precedence): for digit strings `a`, `b`, `c` accepted by `readDouble`, an operator
`o1` of a lower tier and an operator `o2` of a higher tier of `binaryOperations`,
`a o1 b o2 c` evaluates to `o1(a, o2(b, c))` and `a o2 b o1 c` to `o1(o2(a, b), c)`; and
`2+3*4` evaluates to 14 in every arithmetic that is exact on the integers. -/
theorem precedence_lower_tier_splits_first {α : Type} (A : DoubleOps α) (st : Calculator α)
    (a b c : Str) (va vb vc : α) (ha : Digits a) (hb : Digits b) (hc : Digits c)
    (hva : readDouble A a = some va) (hvb : readDouble A b = some vb)
    (hvc : readDouble A c = some vc)
    (i j : Nat) (T1 T2 : PrecedenceSet α)
    (hT1 : (binaryOperations A)[i]? = some T1) (hT2 : (binaryOperations A)[j]? = some T2)
    (hij : i < j) (o1 o2 : BinaryOperation α)
    (ho1 : o1 ∈ T1.operations) (ho2 : o2 ∈ T2.operations) :
    readExpression A st (a ++ o1.str ++ b ++ o2.str ++ c)
        = some (o1.func va (o2.func vb vc))
      ∧ readExpression A st (a ++ o2.str ++ b ++ o1.str ++ c)
        = some (o1.func (o2.func va vb) vc)
      ∧ ∀ ι : Int → α, ExactOnInt A ι →
          readExpression A st ['2', '+', '3', '*', '4'] = some (ι 14) := by
  obtain ⟨ch1, hs1, hf1, hl1⟩ := table_entry A i T1 o1 hT1 ho1
  obtain ⟨ch2, hs2, hf2, hl2⟩ := table_entry A j T2 o2 hT2 ho2
  rw [hs1, hs2, hf1, hf2]
  refine ⟨?_, ?_, ?_⟩
  · have e : a ++ [ch1] ++ b ++ [ch2] ++ c = a ++ ch1 :: (b ++ ch2 :: c) := by simp
    rw [e]
    exact eval_right_nested A st a b c va vb vc ha hb hc hva hvb hvc ch1 ch2 i j hl1 hl2
      (Or.inl hij)
  · have e : a ++ [ch2] ++ b ++ [ch1] ++ c = (a ++ ch2 :: b) ++ ch1 :: c := by simp
    rw [e]
    exact eval_left_nested A st a b c va vb vc ha hb hc hva hvb hvc ch2 ch1 j i hl2 hl1
      (Or.inl hij)
  · intro ι hE
    have r2 : readDouble A ['2'] = some (ι 2) :=
      readDouble_exact A ι hE ['2'] 2 (by simp) (by decide) (by decide) (by norm_num)
    have r3 : readDouble A ['3'] = some (ι 3) :=
      readDouble_exact A ι hE ['3'] 3 (by simp) (by decide) (by decide) (by norm_num)
    have r4 : readDouble A ['4'] = some (ι 4) :=
      readDouble_exact A ι hE ['4'] 4 (by simp) (by decide) (by decide) (by norm_num)
    have key := eval_right_nested A st ['2'] ['3'] ['4'] _ _ _ (by decide) (by decide)
      (by decide) r2 r3 r4 '+' '*' 0 1 (by decide) (by decide) (Or.inl (by omega))
    have m : A.fmul (ι 3) (ι 4) = ι 12 :=
      hE.mul 3 4 (by constructor <;> norm_num) (by constructor <;> norm_num)
        (by constructor <;> norm_num) (Or.inl (by norm_num))
    have p : A.fadd (ι 2) (ι 12) = ι 14 :=
      hE.add 2 12 (by constructor <;> norm_num) (by constructor <;> norm_num)
        (by constructor <;> norm_num)
    have f1 : opFunc A '+' = A.fadd := rfl
    have f2 : opFunc A '*' = A.fmul := rfl
    rw [f1, f2, m, p] at key
    exact key

/-- C1 at `a = 2`, `b = 3`, `c = 4`, `o1 = +`, `o2 = *` in the folding interpretation:
`2+3*4` is 14 and `2*3+4` is 10. -/
theorem precedence_lower_tier_splits_first_witness :
    readExpression folding foldingZero ['2', '+', '3', '*', '4'] = some (Term.num 14)
      ∧ readExpression folding foldingZero ['2', '*', '3', '+', '4'] = some (Term.num 10)
      ∧ readExpression folding foldingZero ['2', '+', '3', '*', '4']
        = some ((fun n => Term.num n) 14) :=
  have h := precedence_lower_tier_splits_first folding foldingZero ['2'] ['3'] ['4']
    (Term.num 2) (Term.num 3) (Term.num 4) (by decide) (by decide) (by decide)
    (by decide) (by decide) (by decide) 0 1 _ _ rfl rfl (by decide)
    ⟨['+'], folding.fadd⟩ ⟨['*'], folding.fmul⟩
    (List.mem_cons_self _ _) (List.mem_cons_self _ _)
  ⟨h.1, h.2.1, h.2.2 _ folding_exact⟩

theorem table_assoc {α : Type} (A : DoubleOps α) (i : Nat) (T : PrecedenceSet α)
    (hT : (binaryOperations A)[i]? = some T) :
    T.assoc = if i = 2 then Assoc.RightAssoc else Assoc.LeftAssoc := by
  match i with
  | 0 =>
    simp only [binaryOperations, List.getElem?_cons_zero, Option.some.injEq] at hT
    subst hT; rfl
  | 1 =>
    simp only [binaryOperations, List.getElem?_cons_succ, List.getElem?_cons_zero,
      Option.some.injEq] at hT
    subst hT; rfl
  | 2 =>
    simp only [binaryOperations, List.getElem?_cons_succ, List.getElem?_cons_zero,
      Option.some.injEq] at hT
    subst hT; rfl
  | k + 3 =>
    simp [binaryOperations] at hT

/-- C2 (left-associativity): for digit strings `a`, `b`, `c` accepted by `readDouble` and
operators `o1`, `o2` of one left-associative tier of `binaryOperations`, `a o1 b o2 c`
evaluates to `o2(o1(a, b), c)`; and `10-3-2` evaluates to 5 in every arithmetic that is
exact on the integers. -/
theorem left_assoc_tier_groups_left {α : Type} (A : DoubleOps α) (st : Calculator α)
    (a b c : Str) (va vb vc : α) (ha : Digits a) (hb : Digits b) (hc : Digits c)
    (hva : readDouble A a = some va) (hvb : readDouble A b = some vb)
    (hvc : readDouble A c = some vc)
    (i : Nat) (T : PrecedenceSet α) (hT : (binaryOperations A)[i]? = some T)
    (hassoc : T.assoc = Assoc.LeftAssoc) (o1 o2 : BinaryOperation α)
    (ho1 : o1 ∈ T.operations) (ho2 : o2 ∈ T.operations) :
    readExpression A st (a ++ o1.str ++ b ++ o2.str ++ c)
        = some (o2.func (o1.func va vb) vc)
      ∧ ∀ ι : Int → α, ExactOnInt A ι →
          readExpression A st ['1', '0', '-', '3', '-', '2'] = some (ι 5) := by
  obtain ⟨ch1, hs1, hf1, hl1⟩ := table_entry A i T o1 hT ho1
  obtain ⟨ch2, hs2, hf2, hl2⟩ := table_entry A i T o2 hT ho2
  have hi : i ≠ 2 := by
    intro h2
    rw [table_assoc A i T hT, if_pos h2] at hassoc
    exact absurd hassoc (by decide)
  rw [hs1, hs2, hf1, hf2]
  refine ⟨?_, ?_⟩
  · have e : a ++ [ch1] ++ b ++ [ch2] ++ c = (a ++ ch1 :: b) ++ ch2 :: c := by simp
    rw [e]
    exact eval_left_nested A st a b c va vb vc ha hb hc hva hvb hvc ch1 ch2 i i hl1 hl2
      (Or.inr ⟨rfl, hi⟩)
  · intro ι hE
    have r10 : readDouble A ['1', '0'] = some (ι 10) :=
      readDouble_exact A ι hE ['1', '0'] 10 (by simp) (by decide) (by decide) (by norm_num)
    have r3 : readDouble A ['3'] = some (ι 3) :=
      readDouble_exact A ι hE ['3'] 3 (by simp) (by decide) (by decide) (by norm_num)
    have r2 : readDouble A ['2'] = some (ι 2) :=
      readDouble_exact A ι hE ['2'] 2 (by simp) (by decide) (by decide) (by norm_num)
    have key := eval_left_nested A st ['1', '0'] ['3'] ['2'] _ _ _ (by decide) (by decide)
      (by decide) r10 r3 r2 '-' '-' 0 0 (by decide) (by decide) (Or.inr ⟨rfl, by omega⟩)
    have m : A.fsub (ι 10) (ι 3) = ι 7 :=
      hE.sub 10 3 (by constructor <;> norm_num) (by constructor <;> norm_num)
        (by constructor <;> norm_num)
    have q : A.fsub (ι 7) (ι 2) = ι 5 :=
      hE.sub 7 2 (by constructor <;> norm_num) (by constructor <;> norm_num)
        (by constructor <;> norm_num)
    have f1 : opFunc A '-' = A.fsub := rfl
    rw [f1, m, q] at key
    exact key

/-- C2 at `a = 10`, `b = 3`, `c = 2`, `o1 = o2 = -` in the folding interpretation:
`10-3-2` is `(10-3)-2 = 5`. -/
theorem left_assoc_tier_groups_left_witness :
    readExpression folding foldingZero ['1', '0', '-', '3', '-', '2'] = some (Term.num 5)
      ∧ readExpression folding foldingZero ['1', '0', '-', '3', '-', '2']
        = some ((fun n => Term.num n) 5) :=
  have h := left_assoc_tier_groups_left folding foldingZero ['1', '0'] ['3'] ['2']
    (Term.num 10) (Term.num 3) (Term.num 2) (by decide) (by decide) (by decide)
    (by decide) (by decide) (by decide) 0 _ rfl rfl
    ⟨['-'], folding.fsub⟩ ⟨['-'], folding.fsub⟩
    (List.mem_cons_of_mem _ (List.mem_cons_self _ _))
    (List.mem_cons_of_mem _ (List.mem_cons_self _ _))
  ⟨h.1, h.2 _ folding_exact⟩

/-- C3 (right-associativity): for digit strings `a`, `b`, `c` accepted by `readDouble`,
`a^b^c` evaluates to `pow(a, pow(b, c))`; and `2^3^2` evaluates to 512 in every arithmetic
that is exact on the integers. -/
theorem power_groups_right {α : Type} (A : DoubleOps α) (st : Calculator α)
    (a b c : Str) (va vb vc : α) (ha : Digits a) (hb : Digits b) (hc : Digits c)
    (hva : readDouble A a = some va) (hvb : readDouble A b = some vb)
    (hvc : readDouble A c = some vc) :
    readExpression A st (a ++ ['^'] ++ b ++ ['^'] ++ c) = some (A.pow va (A.pow vb vc))
      ∧ ∀ ι : Int → α, ExactOnInt A ι →
          readExpression A st ['2', '^', '3', '^', '2'] = some (ι 512) := by
  have f1 : opFunc A '^' = A.pow := rfl
  refine ⟨?_, ?_⟩
  · have e : a ++ ['^'] ++ b ++ ['^'] ++ c = a ++ '^' :: (b ++ '^' :: c) := by simp
    rw [e, ← f1]
    exact eval_right_nested A st a b c va vb vc ha hb hc hva hvb hvc '^' '^' 2 2
      (by decide) (by decide) (Or.inr ⟨rfl, rfl⟩)
  · intro ι hE
    have r3 : readDouble A ['3'] = some (ι 3) :=
      readDouble_exact A ι hE ['3'] 3 (by simp) (by decide) (by decide) (by norm_num)
    have r2 : readDouble A ['2'] = some (ι 2) :=
      readDouble_exact A ι hE ['2'] 2 (by simp) (by decide) (by decide) (by norm_num)
    have key := eval_right_nested A st ['2'] ['3'] ['2'] _ _ _ (by decide) (by decide)
      (by decide) r2 r3 r2 '^' '^' 2 2 (by decide) (by decide) (Or.inr ⟨rfl, rfl⟩)
    have m : A.pow (ι 3) (ι 2) = ι 9 := by
      have := hE.pow 3 2 (by constructor <;> norm_num) (by constructor <;> norm_num)
        (by constructor <;> norm_num)
      simpa using this
    have q : A.pow (ι 2) (ι 9) = ι 512 := by
      have := hE.pow 2 9 (by constructor <;> norm_num) (by constructor <;> norm_num)
        (by constructor <;> norm_num)
      simpa using this
    rw [f1, m, q] at key
    exact key

/-- C3 at `a = 2`, `b = 3`, `c = 2` in the folding interpretation: `2^3^2` is
`2^(3^2) = 512`. -/
theorem power_groups_right_witness :
    readExpression folding foldingZero ['2', '^', '3', '^', '2'] = some (Term.num 512)
      ∧ readExpression folding foldingZero ['2', '^', '3', '^', '2']
        = some ((fun n => Term.num n) 512) :=
  have h := power_groups_right folding foldingZero ['2'] ['3'] ['2']
    (Term.num 2) (Term.num 3) (Term.num 2) (by decide) (by decide) (by decide)
    (by decide) (by decide) (by decide)
  ⟨h.1, h.2 _ folding_exact⟩

/-! ## Parentheses -/

theorem getLast_append_digits (s c : Str) (hc : Digits c) (hne : c ≠ []) (x : Char)
    (hx : isdigit x = false) : (s ++ c).getLast? ≠ some x := by
  rw [List.getLast?_append_of_ne_nil _ hne, List.getLast?_eq_getLast _ hne]
  simp only [ne_eq, Option.some.injEq]
  exact isdigit_ne (hc _ (List.getLast_mem hne)) hx

theorem head_digits_append (c s : Str) (hc : Digits c) (hne : c ≠ []) (x : Char)
    (hx : isdigit x = false) : (c ++ s).head? ≠ some x := by
  obtain ⟨d, r, hs⟩ := List.exists_cons_of_ne_nil hne
  rw [hs]
  simp only [List.cons_append, List.head?_cons, ne_eq, Option.some.injEq]
  exact isdigit_ne (hc d (by rw [hs]; simp)) hx

theorem avoids_paren (k : Nat) : level '(' ≠ some k ∧ level ')' ≠ some k := by
  constructor <;> simp [level]

theorem open_paren_fails {α : Type} (A : DoubleOps α) (st : Calculator α) (a : Str)
    (ha : Digits a) : readExpression A st ('(' :: a) = none := by
  apply readExpression_none
  · simp
  · exact readDouble_none_of_stop A [] '(' a (fun _ h => by simp at h) (by decide)
      (by decide) (by decide) (by decide)
  · apply readParantheses_none_last
    by_cases hne : a = []
    · subst hne; simp
    · exact getLast_append_digits ['('] a ha hne ')' (by decide)
  · intro k
    apply readTier_none_absent
    rw [avoids_cons]
    exact ⟨(avoids_paren k).1, digits_avoids ha k⟩
  · intro c hc
    simp only [unaryHeads, List.mem_cons, List.mem_singleton, List.not_mem_nil,
      or_false] at hc
    rcases hc with rfl | rfl | rfl | rfl | rfl | rfl | rfl | rfl <;> simp
  · simp

theorem close_paren_fails {α : Type} (A : DoubleOps α) (st : Calculator α) (b : Str)
    (hb : Digits b) (hne : b ≠ []) : readExpression A st (b ++ [')']) = none := by
  apply readExpression_none
  · exact head_digits_append b _ hb hne '%' (by decide)
  · exact readDouble_none_of_stop A b ')' [] hb (by decide) (by decide) (by decide)
      (by decide)
  · apply readParantheses_none_head
    exact head_digits_append b _ hb hne '(' (by decide)
  · intro k
    apply readTier_none_absent
    rw [avoids_append, avoids_cons]
    exact ⟨digits_avoids hb k, (avoids_paren k).2, avoids_nil k⟩
  · intro c hc
    simp only [unaryHeads, List.mem_cons, List.mem_singleton, List.not_mem_nil,
      or_false] at hc
    rcases hc with rfl | rfl | rfl | rfl | rfl | rfl | rfl | rfl <;>
      exact head_digits_append b _ hb hne _ (by decide)
  · intro h
    have := head_digits_append b [')'] hb hne 'p' (by decide)
    rw [h] at this
    exact this rfl

theorem paren_trim (s : Str) (hs : Plain s) :
    trim ('(' :: (s ++ [')'])) = '(' :: (s ++ [')']) := by
  apply trim_eq_self
  intro c hc
  simp only [List.mem_cons, List.mem_append, List.mem_singleton, List.not_mem_nil,
    or_false] at hc
  rcases hc with rfl | hc | rfl
  · decide
  · rcases hs c hc with hd | hl
    · exact isdigit_not_space hd
    · exact (level_not_digit hl).2.2.2.2.1
  · decide

theorem paren_eval {α : Type} (A : DoubleOps α) (st : Calculator α) (s : Str) (v : α)
    (hs : Plain s) (hv : readExpression A st s = some v) :
    readExpression A st ('(' :: (s ++ [')'])) = some v := by
  have hP : readPercent st ('(' :: (s ++ [')'])) = none :=
    readPercent_none st _ (by simp)
  have hD : readDouble A ('(' :: (s ++ [')'])) = none :=
    readDouble_none_of_stop A [] '(' _ (fun _ h => by simp at h) (by decide)
      (by decide) (by decide) (by decide)
  have hsub : substr ('(' :: (s ++ [')'])) 1 (('(' :: (s ++ [')'])).length - 2) = s := by
    simp [substr]
  have hPar : readParantheses (readExpression A st) ('(' :: (s ++ [')'])) = some v := by
    unfold readParantheses
    rw [if_pos, hsub, plain_trim hs, hv]
    refine ⟨by simp, by simp, ?_⟩
    have e : '(' :: (s ++ [')']) = ('(' :: s) ++ [')'] := rfl
    rw [e, List.getLast?_append_of_ne_nil _ (by simp)]
    rfl
  rw [readExpression_eq]
  unfold readExpressionStep
  rw [hP, hD, hPar]
  rfl

theorem level_ne_of_eq {ch : Char} {k j : Nat} (h : level ch = some k) (hne : k ≠ j) :
    level ch ≠ some j := by
  rw [h]; simp only [ne_eq, Option.some.injEq]; exact hne

theorem digits_sum_eval {α : Type} (A : DoubleOps α) (st : Calculator α)
    (a b : Str) (va vb : α) (ha : Digits a) (hb : Digits b)
    (hva : readDouble A a = some va) (hvb : readDouble A b = some vb)
    (ch : Char) (k : Nat) (h : level ch = some k) :
    readExpression A st (a ++ ch :: b) = some (opFunc A ch va vb) := by
  obtain ⟨pa, sa, aa, ea⟩ := digits_atom A st a va ha hva
  obtain ⟨pb, _, ab, eb⟩ := digits_atom A st b vb hb hvb
  apply readExpression_plain_split A st k a ch b va vb h pa pb sa
    (fun j _ => ⟨aa j, ab j⟩) _ ea eb
  split
  · exact aa k
  · exact ab k

theorem paren_left_eval {α : Type} (A : DoubleOps α) (st : Calculator α)
    (a b c : Str) (va vb vc : α) (ha : Digits a) (hb : Digits b) (hc : Digits c)
    (hva : readDouble A a = some va) (hvb : readDouble A b = some vb)
    (hvc : readDouble A c = some vc) (ch1 ch2 : Char) (k2 : Nat)
    (h1 : level ch1 = some 0) (h2 : level ch2 = some k2) (hk : 0 < k2) :
    readExpression A st (('(' :: ((a ++ ch1 :: b) ++ [')'])) ++ ch2 :: c)
      = some (opFunc A ch2 (opFunc A ch1 va vb) vc) := by
  obtain ⟨pa, _, aa, _⟩ := digits_atom A st a va ha hva
  obtain ⟨pb, _, ab, _⟩ := digits_atom A st b vb hb hvb
  obtain ⟨_, ⟨d, r, hcd, _⟩, ac, ec⟩ := digits_atom A st c vc hc hvc
  have hcne : c ≠ [] := by rw [hcd]; simp
  have hl1 : level ch1 ≠ none := by rw [h1]; simp
  have pin : Plain (a ++ ch1 :: b) := plain_append pa (plain_cons hl1 pb)
  have inner := digits_sum_eval A st a b va vb ha hb hva hvb ch1 0 h1
  have av : ∀ j, j ≠ 0 → Avoids j ('(' :: ((a ++ ch1 :: b) ++ [')'])) := by
    intro j hj
    rw [avoids_cons, avoids_append, avoids_append, avoids_cons, avoids_cons]
    exact ⟨(avoids_paren j).1, ⟨aa j, level_ne_of_eq h1 (Ne.symm hj), ab j⟩,
      (avoids_paren j).2, avoids_nil j⟩
  apply readExpression_split A st k2 _ ch2 c _ vc h2
  · simp
  · exact readDouble_none_of_stop A [] '(' _ (fun _ h => by simp at h) (by decide)
      (by decide) (by decide) (by decide)
  · apply readParantheses_none_last
    have e : ('(' :: ((a ++ ch1 :: b) ++ [')'])) ++ ch2 :: c
        = (('(' :: ((a ++ ch1 :: b) ++ [')'])) ++ [ch2]) ++ c := by simp
    rw [e]
    exact getLast_append_digits _ c hc hcne ')' (by decide)
  · intro j hj
    by_cases hj0 : j = 0
    · subst hj0
      have e : ('(' :: ((a ++ ch1 :: b) ++ [')'])) ++ ch2 :: c
          = ('(' :: a) ++ ch1 :: (b ++ ')' :: ch2 :: c) := by simp
      rw [e]
      apply readTier_none_unique
      · rw [avoids_cons]; exact ⟨(avoids_paren 0).1, aa 0⟩
      · rw [avoids_append, avoids_cons, avoids_cons]
        exact ⟨ab 0, (avoids_paren 0).2, level_ne_of_eq h2 (by omega), ac 0⟩
      · left
        rw [trim_eq_self]
        · exact open_paren_fails A st a ha
        · intro x hx
          rcases List.mem_cons.mp hx with rfl | hx
          · decide
          · exact isdigit_not_space (ha x hx)
    · apply readTier_none_absent
      exact (avoids_append _ _ _).mpr
        ⟨av j hj0, (avoids_cons _ _ _).mpr ⟨level_ne_of_eq h2 (by omega), ac j⟩⟩
  · split
    · exact av k2 (by omega)
    · exact ac k2
  · rw [paren_trim _ pin]
    exact paren_eval A st _ _ pin inner
  · rw [digits_trim hc]; exact ec

theorem paren_right_eval {α : Type} (A : DoubleOps α) (st : Calculator α)
    (a b c : Str) (va vb vc : α) (ha : Digits a) (hb : Digits b) (hc : Digits c)
    (hva : readDouble A a = some va) (hvb : readDouble A b = some vb)
    (hvc : readDouble A c = some vc) (ch1 ch2 : Char) (k2 : Nat)
    (h1 : level ch1 = some 0) (h2 : level ch2 = some k2) (hk : 0 < k2) :
    readExpression A st (c ++ ch2 :: ('(' :: ((a ++ ch1 :: b) ++ [')'])))
      = some (opFunc A ch2 vc (opFunc A ch1 va vb)) := by
  obtain ⟨pa, _, aa, _⟩ := digits_atom A st a va ha hva
  obtain ⟨pb, ⟨db, rb, hbd, _⟩, ab, _⟩ := digits_atom A st b vb hb hvb
  obtain ⟨_, ⟨d, r, hcd, _⟩, ac, ec⟩ := digits_atom A st c vc hc hvc
  have hcne : c ≠ [] := by rw [hcd]; simp
  have hbne : b ≠ [] := by rw [hbd]; simp
  have hl1 : level ch1 ≠ none := by rw [h1]; simp
  have hl2 : level ch2 ≠ none := by rw [h2]; simp
  have pin : Plain (a ++ ch1 :: b) := plain_append pa (plain_cons hl1 pb)
  have inner := digits_sum_eval A st a b va vb ha hb hva hvb ch1 0 h1
  have av : ∀ j, j ≠ 0 → Avoids j ('(' :: ((a ++ ch1 :: b) ++ [')'])) := by
    intro j hj
    rw [avoids_cons, avoids_append, avoids_append, avoids_cons, avoids_cons]
    exact ⟨(avoids_paren j).1, ⟨aa j, level_ne_of_eq h1 (Ne.symm hj), ab j⟩,
      (avoids_paren j).2, avoids_nil j⟩
  have hp2 := level_not_digit hl2
  apply readExpression_split A st k2 c ch2 _ vc _ h2
  · exact head_digits_append c _ hc hcne '%' (by decide)
  · exact readDouble_none_of_stop A c ch2 _ hc hp2.1 hp2.2.1 hp2.2.2.1 hp2.2.2.2.1
  · apply readParantheses_none_head
    exact head_digits_append c _ hc hcne '(' (by decide)
  · intro j hj
    by_cases hj0 : j = 0
    · subst hj0
      have e : c ++ ch2 :: ('(' :: ((a ++ ch1 :: b) ++ [')']))
          = (c ++ ch2 :: '(' :: a) ++ ch1 :: (b ++ [')']) := by simp
      rw [e]
      apply readTier_none_unique
      · rw [avoids_append, avoids_cons, avoids_cons]
        exact ⟨ac 0, level_ne_of_eq h2 (by omega), (avoids_paren 0).1, aa 0⟩
      · rw [avoids_append, avoids_cons]
        exact ⟨ab 0, (avoids_paren 0).2, avoids_nil 0⟩
      · right
        rw [trim_eq_self]
        · exact close_paren_fails A st b hb hbne
        · intro x hx
          rcases List.mem_append.mp hx with hx | hx
          · exact isdigit_not_space (hb x hx)
          · simp only [List.mem_singleton] at hx; rw [hx]; decide
    · apply readTier_none_absent
      rw [avoids_append, avoids_cons]
      exact ⟨ac j, level_ne_of_eq h2 (by omega), av j hj0⟩
  · split
    · exact ac k2
    · exact av k2 (by omega)
  · rw [digits_trim hc]; exact ec
  · rw [paren_trim _ pin]
    exact paren_eval A st _ _ pin inner

/-- C4 (parentheses override precedence): for digit strings `a`, `b`, `c` accepted by
`readDouble`, an operator `o1` of tier 0 (`+ -`) and an operator `o2` of a higher tier
(`* / ^`), `(a o1 b) o2 c` evaluates to `o2(o1(a, b), c)` and `c o2 (a o1 b)` to
`o2(c, o1(a, b))`; and `(1+2)*3` evaluates to 9 in every arithmetic that is exact on the
integers. -/
theorem parentheses_override_precedence {α : Type} (A : DoubleOps α) (st : Calculator α)
    (a b c : Str) (va vb vc : α) (ha : Digits a) (hb : Digits b) (hc : Digits c)
    (hva : readDouble A a = some va) (hvb : readDouble A b = some vb)
    (hvc : readDouble A c = some vc)
    (j : Nat) (T1 T2 : PrecedenceSet α)
    (hT1 : (binaryOperations A)[0]? = some T1) (hT2 : (binaryOperations A)[j]? = some T2)
    (hj : 0 < j) (o1 o2 : BinaryOperation α)
    (ho1 : o1 ∈ T1.operations) (ho2 : o2 ∈ T2.operations) :
    readExpression A st (['('] ++ a ++ o1.str ++ b ++ [')'] ++ o2.str ++ c)
        = some (o2.func (o1.func va vb) vc)
      ∧ readExpression A st (c ++ o2.str ++ ['('] ++ a ++ o1.str ++ b ++ [')'])
        = some (o2.func vc (o1.func va vb))
      ∧ ∀ ι : Int → α, ExactOnInt A ι →
          readExpression A st ['(', '1', '+', '2', ')', '*', '3'] = some (ι 9) := by
  obtain ⟨ch1, hs1, hf1, hl1⟩ := table_entry A 0 T1 o1 hT1 ho1
  obtain ⟨ch2, hs2, hf2, hl2⟩ := table_entry A j T2 o2 hT2 ho2
  rw [hs1, hs2, hf1, hf2]
  refine ⟨?_, ?_, ?_⟩
  · have e : ['('] ++ a ++ [ch1] ++ b ++ [')'] ++ [ch2] ++ c
        = ('(' :: ((a ++ ch1 :: b) ++ [')'])) ++ ch2 :: c := by simp
    rw [e]
    exact paren_left_eval A st a b c va vb vc ha hb hc hva hvb hvc ch1 ch2 j hl1 hl2 hj
  · have e : c ++ [ch2] ++ ['('] ++ a ++ [ch1] ++ b ++ [')']
        = c ++ ch2 :: ('(' :: ((a ++ ch1 :: b) ++ [')'])) := by simp
    rw [e]
    exact paren_right_eval A st a b c va vb vc ha hb hc hva hvb hvc ch1 ch2 j hl1 hl2 hj
  · intro ι hE
    have r1 : readDouble A ['1'] = some (ι 1) :=
      readDouble_exact A ι hE ['1'] 1 (by simp) (by decide) (by decide) (by norm_num)
    have r2 : readDouble A ['2'] = some (ι 2) :=
      readDouble_exact A ι hE ['2'] 2 (by simp) (by decide) (by decide) (by norm_num)
    have r3 : readDouble A ['3'] = some (ι 3) :=
      readDouble_exact A ι hE ['3'] 3 (by simp) (by decide) (by decide) (by norm_num)
    have key := paren_left_eval A st ['1'] ['2'] ['3'] _ _ _ (by decide) (by decide)
      (by decide) r1 r2 r3 '+' '*' 1 (by decide) (by decide) (by omega)
    have m : A.fadd (ι 1) (ι 2) = ι 3 :=
      hE.add 1 2 (by constructor <;> norm_num) (by constructor <;> norm_num)
        (by constructor <;> norm_num)
    have q : A.fmul (ι 3) (ι 3) = ι 9 :=
      hE.mul 3 3 (by constructor <;> norm_num) (by constructor <;> norm_num)
        (by constructor <;> norm_num) (Or.inl (by norm_num))
    have f1 : opFunc A '+' = A.fadd := rfl
    have f2 : opFunc A '*' = A.fmul := rfl
    rw [f1, f2, m, q] at key
    exact key

/-- C4 at `a = 1`, `b = 2`, `c = 3`, `o1 = +`, `o2 = *` in the folding interpretation:
`(1+2)*3` is 9 and `3*(1+2)` is 9. -/
theorem parentheses_override_precedence_witness :
    readExpression folding foldingZero ['(', '1', '+', '2', ')', '*', '3']
        = some (Term.num 9)
      ∧ readExpression folding foldingZero ['3', '*', '(', '1', '+', '2', ')']
        = some (Term.num 9)
      ∧ readExpression folding foldingZero ['(', '1', '+', '2', ')', '*', '3']
        = some ((fun n => Term.num n) 9) :=
  have h := parentheses_override_precedence folding foldingZero ['1'] ['2'] ['3']
    (Term.num 1) (Term.num 2) (Term.num 3) (by decide) (by decide) (by decide)
    (by decide) (by decide) (by decide) 1 _ _ rfl rfl (by decide)
    ⟨['+'], folding.fadd⟩ ⟨['*'], folding.fmul⟩
    (List.mem_cons_self _ _) (List.mem_cons_self _ _)
  ⟨h.1, h.2.1, h.2.2 _ folding_exact⟩

/-! ## Literals and signed numerals -/

theorem readDouble_nil {α : Type} (A : DoubleOps α) : readDouble A [] = none := rfl

theorem readDouble_sign {α : Type} (A : DoubleOps α) (c : Char) (s : Str)
    (hc : c = '-' ∨ c = '+') : readDouble A (c :: s) = none := by
  unfold readDouble
  rw [if_pos]
  simpa [char0] using hc

theorem readExpression_nil {α : Type} (A : DoubleOps α) (st : Calculator α) :
    readExpression A st [] = none := by
  apply readExpression_none
  · simp
  · exact readDouble_nil A
  · exact readParantheses_none_head _ _ (by simp)
  · intro k; exact readTier_none_absent A _ _ k (avoids_nil k)
  · intro c _; simp
  · simp

theorem trim_nil : trim [] = [] := rfl

theorem minus_digits_binary_none {α : Type} (A : DoubleOps α) (st : Calculator α) (a : Str)
    (ha : Digits a) : readBinaryOp A (readExpression A st) ('-' :: a) = none := by
  apply readBinaryOp_none
  intro k
  by_cases hk : k = 0
  · subst hk
    have e : '-' :: a = [] ++ '-' :: a := rfl
    rw [e]
    apply readTier_none_unique A _ 0 [] '-' a (avoids_nil 0) (digits_avoids ha 0)
    left
    rw [trim_nil]
    exact readExpression_nil A st
  · apply readTier_none_absent
    rw [avoids_cons]
    exact ⟨level_ne_of_eq (k := 0) (by decide) (Ne.symm hk), digits_avoids ha k⟩

theorem minus_digits_unary {α : Type} (A : DoubleOps α) (st : Calculator α) (a : Str)
    (va : α) (ha : Digits a) (hva : readDouble A a = some va) :
    readUnaryOp A (readExpression A st) ('-' :: a) = some (A.fneg va) := by
  have he : readExpression A st (trim (substrFrom ('-' :: a) 1)) = some va := by
    have e : substrFrom ('-' :: a) 1 = a := rfl
    rw [e, digits_trim ha]
    exact readExpression_of_readDouble A st a va hva
  unfold readUnaryOp unaryOperations
  unfold readUnaryOpLoop
  rw [if_neg (by simp [List.isPrefixOf])]
  unfold readUnaryOpLoop
  rw [if_pos (by simp [List.isPrefixOf])]
  simp only [List.length_singleton]
  rw [he]

/-- C5: a string on which `readDouble` succeeds with `v` is not intercepted by `readPercent`
and `readExpression` returns exactly `v`, in every register state; a digit string `a`
prefixed with `-` is rejected by `readDouble` (as by `readPercent`, `readParantheses` and
`readBinaryOp`) and gets its value, the negated value of `a`, from `readUnaryOp`. -/
theorem literal_evaluates_to_its_value {α : Type} (A : DoubleOps α) (st : Calculator α)
    (s : Str) (v : α) (h : readDouble A s = some v)
    (a : Str) (va : α) (ha : Digits a) (hva : readDouble A a = some va) :
    (readPercent st s = none ∧ readExpression A st s = some v)
      ∧ readDouble A ('-' :: a) = none
      ∧ readPercent st ('-' :: a) = none
      ∧ readParantheses (readExpression A st) ('-' :: a) = none
      ∧ readBinaryOp A (readExpression A st) ('-' :: a) = none
      ∧ readUnaryOp A (readExpression A st) ('-' :: a) = some (A.fneg va)
      ∧ readExpression A st ('-' :: a) = some (A.fneg va) := by
  have hP : readPercent st s = none := by
    obtain ⟨c, r, hs, hc⟩ := readDouble_head A s v h
    apply readPercent_none
    rw [hs]
    simp only [List.head?_cons, ne_eq, Option.some.injEq]
    rcases hc with hc | hc
    · exact isdigit_ne hc (by decide)
    · rw [hc]; decide
  have hD : readDouble A ('-' :: a) = none := readDouble_sign A '-' a (Or.inl rfl)
  have hP2 : readPercent st ('-' :: a) = none := readPercent_none st _ (by simp)
  have hPar : readParantheses (readExpression A st) ('-' :: a) = none :=
    readParantheses_none_head _ _ (by simp)
  have hB := minus_digits_binary_none A st a ha
  have hU := minus_digits_unary A st a va ha hva
  refine ⟨⟨hP, readExpression_of_readDouble A st s v h⟩, hD, hP2, hPar, hB, hU, ?_⟩
  rw [readExpression_eq]
  unfold readExpressionStep
  rw [hP2, hD, hPar, hB, hU]
  rfl

/-- C5 at `s = 3.5` and `a = 2` in the symbolic interpretation: `3.5` evaluates to the
literal `3.5` and `-2` to the negation of the literal `2`. -/
theorem literal_evaluates_to_its_value_witness :
    readExpression symbolic symbolicZero ['3', '.', '5'] = some (Term.lit ['3', '.', '5'])
      ∧ readDouble symbolic ['-', '2'] = none
      ∧ readExpression symbolic symbolicZero ['-', '2']
        = some (Term.neg (Term.lit ['2'])) :=
  have h := literal_evaluates_to_its_value symbolic symbolicZero ['3', '.', '5']
    (Term.lit ['3', '.', '5']) (by decide) ['2'] (Term.lit ['2']) (by decide) (by decide)
  ⟨h.1.2, h.2.1, h.2.2.2.2.2.2⟩

/-! ## Memory references -/

theorem readInteger_digits (ds : Str) (hd : Digits ds) (hne : ds ≠ []) :
    readInteger ds
      = if digitsValue ds ≤ 2147483647 then some (digitsValue ds : Int) else none := by
  obtain ⟨c, r, hs⟩ := List.exists_cons_of_ne_nil hne
  have hc : isdigit c = true := hd c (by rw [hs]; simp)
  have h1 : c ≠ '-' := isdigit_ne hc (by decide)
  have h2 : c ≠ '+' := isdigit_ne hc (by decide)
  have h3 : isspace c = false := isdigit_not_space hc
  have hdw : (c :: r).dropWhile isspace = c :: r := by
    rw [List.dropWhile_cons_of_neg]; simp [h3]
  have htw : (c :: r).takeWhile isdigit = c :: r := by
    rw [List.takeWhile_eq_self_iff]; rw [← hs]; exact hd
  have hdd : (c :: r).dropWhile isdigit = [] := by
    rw [List.dropWhile_eq_nil_iff]; rw [← hs]; exact hd
  unfold readInteger extractInt
  rw [hs]
  simp only [char0, List.headD_cons, h1, h2, or_self, if_false, h3, hdw, List.head?_cons,
    Option.some.injEq, htw, hdd, List.cons_ne_nil, reduceCtorEq]
  by_cases hv : digitsValue (c :: r) ≤ 2147483647
  · have hv1 : ¬ ((digitsValue (c :: r) : Int) < -2147483648) := by omega
    have hv2 : ¬ (2147483647 < digitsValue (c :: r)) := by omega
    simp [hv, hv1, hv2]
  · have hv2 : 2147483647 < digitsValue (c :: r) := by omega
    simp [hv, hv2]

theorem readPercent_digits {α : Type} (st : Calculator α) (ds : Str) (hd : Digits ds)
    (hne : ds ≠ []) :
    readPercent st ('%' :: ds)
      = if digitsValue ds ≤ 10 then some (st.memory (digitsValue ds)) else none := by
  obtain ⟨c, r, hs⟩ := List.exists_cons_of_ne_nil hne
  have hlen : ('%' :: ds).length ≠ 1 := by rw [hs]; simp
  have hsub : substrFrom ('%' :: ds) 1 = ds := rfl
  unfold readPercent
  rw [if_neg (by simp), if_neg hlen, hsub, readInteger_digits ds hd hne]
  by_cases hv : digitsValue ds ≤ 2147483647
  · rw [if_pos hv]
    simp only [Int.toNat_ofNat]
    have hmod : ((digitsValue ds : Int) % 2 ^ 64).toNat = digitsValue ds := by
      rw [Int.emod_eq_of_lt (by omega) (by omega)]
      simp
    rw [hmod]
    by_cases h10 : digitsValue ds ≤ 10
    · rw [if_neg (by omega), if_pos h10]
    · rw [if_pos (by omega), if_neg h10]
  · rw [if_neg hv, if_neg (by omega)]

theorem readExpression_of_readPercent {α : Type} (A : DoubleOps α) (st : Calculator α)
    (s : Str) (v : α) (h : readPercent st s = some v) : readExpression A st s = some v := by
  rw [readExpression_eq]
  unfold readExpressionStep
  rw [h]
  rfl

/-- C6: for every register state and every slot index `n` from 0 to 9, `%` followed by the
decimal numeral of `n` evaluates to the value stored in memory slot `n`. -/
theorem percent_reads_slot {α : Type} (A : DoubleOps α) (st : Calculator α) (n : Nat)
    (hn : n ≤ 9) : readExpression A st ('%' :: Nat.toDigits 10 n) = some (st.memory n) := by
  apply readExpression_of_readPercent
  interval_cases n <;> rfl

/-- C6 at slot 2 holding the literal `7.0`: `%2` evaluates to that literal. -/
theorem percent_reads_slot_witness :
    readExpression symbolic
        { symbolicZero with
          memory := Function.update symbolicZero.memory 2 (Term.lit ['7', '.', '0']) }
        ['%', '2']
      = some (Term.lit ['7', '.', '0']) :=
  percent_reads_slot symbolic
    { symbolicZero with
      memory := Function.update symbolicZero.memory 2 (Term.lit ['7', '.', '0']) }
    2 (by decide)

/-- C7 (what the code does): the guard `*index > Calculator::memory.size()` of
`readPercent` lets index 10 through, so `%10` does not fail but returns the word past the
end of the 10-slot array; every digit string of value 11 or more after `%` is rejected, in
particular `%99`. -/
theorem percent_index_ten_passes_guard {α : Type} (A : DoubleOps α) (st : Calculator α) :
    readPercent st ['%', '1', '0'] = some (st.memory 10)
      ∧ readExpression A st ['%', '1', '0'] = some (st.memory 10)
      ∧ (∀ ds : Str, ds ≠ [] → Digits ds → 11 ≤ digitsValue ds →
          readPercent st ('%' :: ds) = none)
      ∧ readPercent st ['%', '9', '9'] = none := by
  refine ⟨rfl, readExpression_of_readPercent A st _ _ rfl, ?_, rfl⟩
  intro ds hne hd hv
  rw [readPercent_digits st ds hd hne, if_neg (by omega)]

/-! ## The line layer -/

theorem commandSet_false {α : Type} (A : DoubleOps α) (st st1 : Calculator α)
    (args : List Str) (h : commandSet A st args = Outcome.returned false st1) : st1 = st := by
  unfold commandSet at h
  split at h
  · split at h
    · injection h with _ h2; exact h2.symm
    · split at h
      · injection h with _ h2; exact h2.symm
      · split at h
        · injection h with _ h2; exact h2.symm
        · injection h with h1 _; exact absurd h1 (by decide)
  · injection h with _ h2; exact h2.symm

theorem execCommand_false {α : Type} (A : DoubleOps α) (st st1 : Calculator α) (line : Str)
    (h : execCommand A st line = Outcome.returned false st1) : st1 = st := by
  unfold execCommand at h
  split at h
  · injection h with _ h2; exact h2.symm
  · split at h
    · unfold commandExit at h
      split at h
      · injection h with _ h2; exact h2.symm
      · exact absurd h (by simp)
    · split at h
      · exact commandSet_false A st st1 _ h
      · injection h with _ h2; exact h2.symm

/-- C8: when the trimmed line is not executed as a command (`execCommand` returns `false`)
and `readExpression` yields `v` on it, `execLine` returns `true`, prints `v`, sets
`lastResult` to `v`, leaves every memory cell unchanged, and `%` then evaluates to `v`. -/
theorem execLine_expression_sets_lastResult {α : Type} (A : DoubleOps α)
    (st st1 : Calculator α) (line : Str) (v : α)
    (hcmd : execCommand A st (trim line) = Outcome.returned false st1)
    (hv : readExpression A st (trim line) = some v) :
    ∃ st2 : Calculator α, execLine A st line = Outcome.returned true st2
      ∧ st2.lastResult = v
      ∧ (∀ i, st2.memory i = st.memory i)
      ∧ st2.cout = st.cout ++ [v]
      ∧ readExpression A st2 ['%'] = some v := by
  have hst : st1 = st := execCommand_false A st st1 _ hcmd
  subst hst
  have hne : trim line ≠ [] := by
    intro he
    rw [he, readExpression_nil] at hv
    exact absurd hv (by simp)
  refine ⟨{ st1 with cout := st1.cout ++ [v], lastResult := v }, ?_, rfl, fun _ => rfl, rfl,
    readExpression_of_readPercent A _ _ _ rfl⟩
  unfold execLine
  simp only [hne, if_false, hcmd, hv]

/-- C8 on the line ` 2+3 ` in the symbolic interpretation: the line is accepted and the
register then holds the sum of the literals `2` and `3`. -/
theorem execLine_expression_sets_lastResult_witness :
    ∃ st2 : Calculator Term,
      execLine symbolic symbolicZero [' ', '2', '+', '3', ' '] = Outcome.returned true st2
      ∧ st2.lastResult = Term.add (Term.lit ['2']) (Term.lit ['3'])
      ∧ (∀ i, st2.memory i = symbolicZero.memory i)
      ∧ st2.cout = symbolicZero.cout ++ [Term.add (Term.lit ['2']) (Term.lit ['3'])]
      ∧ readExpression symbolic st2 ['%']
        = some (Term.add (Term.lit ['2']) (Term.lit ['3'])) :=
  execLine_expression_sets_lastResult symbolic symbolicZero symbolicZero
    [' ', '2', '+', '3', ' '] (Term.add (Term.lit ['2']) (Term.lit ['3'])) rfl (by decide)

/-! ## Named constants -/

theorem isalpha_props {c : Char} (h : isalpha c = true) :
    isdigit c = false ∧ c ≠ '.' ∧ c ≠ '%' ∧ c ≠ '(' ∧ level c = none := by
  have hd : isdigit c = false := by
    unfold isalpha at h
    unfold isdigit
    simp only [Bool.or_eq_true, Bool.and_eq_true, decide_eq_true_eq] at h
    simp only [Bool.and_eq_false_iff, decide_eq_false_iff_not]
    omega
  have hn : ∀ d : Char, isalpha d = false → c ≠ d := by
    intro d hdd e
    rw [e, hdd] at h
    exact absurd h (by simp)
  refine ⟨hd, hn _ (by decide), hn _ (by decide), hn _ (by decide), ?_⟩
  simp [level, hn '+' (by decide), hn '-' (by decide), hn '*' (by decide),
    hn '/' (by decide), hn '^' (by decide)]

theorem letters_eval {α : Type} (A : DoubleOps α) (st : Calculator α) (s : Str)
    (hne : s ≠ []) (hs : ∀ c ∈ s, isalpha c = true)
    (hu : ∀ op ∈ unaryOperations A, op.str.isPrefixOf s = false) :
    readExpression A st s = if s = ['p', 'i'] then some A.M_PI else none := by
  obtain ⟨c, r, hcr⟩ := List.exists_cons_of_ne_nil hne
  have hc := isalpha_props (hs c (by rw [hcr]; simp))
  have hP : readPercent st s = none := by
    apply readPercent_none
    rw [hcr]; simpa using hc.2.2.1
  have hD : readDouble A s = none := by
    cases hv : readDouble A s with
    | none => rfl
    | some v =>
      obtain ⟨d, t, hdt, hd⟩ := readDouble_head A s v hv
      rw [hcr] at hdt
      injection hdt with h1 _
      subst h1
      rcases hd with hd | hd
      · rw [hc.1] at hd; exact absurd hd (by simp)
      · exact absurd hd hc.2.1
  have hPar : readParantheses (readExpression A st) s = none := by
    apply readParantheses_none_head
    rw [hcr]; simpa using hc.2.2.2.1
  have hB : readBinaryOp A (readExpression A st) s = none := by
    apply readBinaryOp_none
    intro k
    apply readTier_none_absent
    intro x hx
    rw [(isalpha_props (hs x hx)).2.2.2.2]
    simp
  have hU : readUnaryOp A (readExpression A st) s = none :=
    readUnaryOpLoop_none _ _ _ hu
  rw [readExpression_eq]
  unfold readExpressionStep
  rw [hP, hD, hPar, hB, hU, readAlias_eq]
  rfl

/-- C9: for a non-empty string `s` of ASCII letters of which no unary operator symbol is a
prefix, `readExpression` succeeds if and only if `s` is `pi`, and then returns `M_PI`;
`unknownsymbol`, `pix` and `PI` fail. -/
theorem alias_exact_match_only {α : Type} (A : DoubleOps α) (st : Calculator α) (s : Str)
    (hne : s ≠ []) (hs : ∀ c ∈ s, isalpha c = true)
    (hu : ∀ op ∈ unaryOperations A, op.str.isPrefixOf s = false) :
    ((readExpression A st s).isSome = true ↔ s = ['p', 'i'])
      ∧ (s = ['p', 'i'] → readExpression A st s = some A.M_PI)
      ∧ readExpression A st
          ['u', 'n', 'k', 'n', 'o', 'w', 'n', 's', 'y', 'm', 'b', 'o', 'l'] = none
      ∧ readExpression A st ['p', 'i', 'x'] = none
      ∧ readExpression A st ['P', 'I'] = none := by
  have key := letters_eval A st s hne hs hu
  have hall : ∀ t : Str, t ≠ [] → (∀ c ∈ t, isalpha c = true) →
      (∀ p ∈ unaryHeads, t.head? ≠ some p) → t ≠ ['p', 'i'] →
      readExpression A st t = none := by
    intro t h1 h2 h3 h4
    rw [letters_eval A st t h1 h2, if_neg h4]
    intro op hop
    cases t with
    | nil => exact absurd rfl h1
    | cons x xs =>
      simp only [unaryHeads, List.head?_cons, ne_eq, Option.some.injEq, List.mem_cons,
        List.mem_singleton, List.not_mem_nil, or_false, forall_eq_or_imp, forall_eq] at h3
      simp only [unaryOperations, List.mem_cons, List.mem_singleton, List.not_mem_nil,
        or_false] at hop
      rcases hop with rfl | rfl | rfl | rfl | rfl | rfl | rfl | rfl <;>
        simp only [List.isPrefixOf, Bool.and_eq_false_imp, beq_iff_eq] <;>
        intro e <;> subst e <;> simp at h3
  refine ⟨?_, ?_, ?_, ?_, ?_⟩
  · rw [key]
    by_cases h : s = ['p', 'i']
    · simp [h]
    · simp [h]
  · intro h; rw [key, if_pos h]
  · exact hall _ (by simp) (by decide) (by decide) (by decide)
  · exact hall _ (by simp) (by decide) (by decide) (by decide)
  · exact hall _ (by simp) (by decide) (by decide) (by decide)

/-- C9 at `s = pi` in the symbolic interpretation: `pi` evaluates to the constant, while
`pix` does not evaluate. -/
theorem alias_exact_match_only_witness :
    readExpression symbolic symbolicZero ['p', 'i'] = some Term.pi
      ∧ readExpression symbolic symbolicZero ['p', 'i', 'x'] = none :=
  have h := alias_exact_match_only symbolic symbolicZero ['p', 'i'] (by simp) (by decide)
    (by decide)
  ⟨h.2.1 rfl, h.2.2.2.1⟩

/-! ## Termination -/

theorem readExpression_unique {α : Type} (A : DoubleOps α) (st : Calculator α)
    (f : Str → Option α) (hf : ∀ s, f s = readExpressionStep A st f s) :
    ∀ (n : Nat) (s : Str), s.length < n → f s = readExpression A st s := by
  intro n
  induction n with
  | zero => intro s hs; omega
  | succ n ih =>
    intro s hs
    rw [hf s, readExpression_eq]
    apply readExpressionStep_local
    intro t ht
    exact ih t (by omega)

/-- C10: each of `readParantheses`, `readBinaryOp` and `readUnaryOp` calls `readExpression`
only on strings strictly shorter than its argument (its result is the same for any two
functions that agree on the shorter strings); hence unrolling `readExpression` more than
`str.length` times always gives the same result, `readExpression` satisfies the recursion
equation of the source, and it is the only function that does. -/
theorem readExpression_terminates {α : Type} (A : DoubleOps α) (st : Calculator α) :
    (∀ (r1 r2 : Str → Option α) (str : Str),
        (∀ t : Str, t.length < str.length → r1 t = r2 t) →
          readParantheses r1 str = readParantheses r2 str
            ∧ readBinaryOp A r1 str = readBinaryOp A r2 str
            ∧ readUnaryOp A r1 str = readUnaryOp A r2 str)
      ∧ (∀ (n : Nat) (str : Str), str.length < n →
          readExpressionFuel A st n str = readExpression A st str)
      ∧ (∀ str : Str,
          readExpression A st str = readExpressionStep A st (readExpression A st) str)
      ∧ (∀ f : Str → Option α, (∀ s, f s = readExpressionStep A st f s) →
          ∀ s, f s = readExpression A st s) := by
  refine ⟨?_, ?_, readExpression_eq A st, ?_⟩
  · intro r1 r2 str h
    exact ⟨readParantheses_local r1 r2 str h, readBinaryOp_local A r1 r2 str h,
      readUnaryOp_local A r1 r2 str h⟩
  · intro n str hn
    exact readExpressionFuel_stable A st n (str.length + 1) str hn (by omega)
  · intro f hf s
    exact readExpression_unique A st f hf (s.length + 1) s (by omega)

/-- C10 on `2^(3-1)` in the symbolic interpretation: 100 rounds of unrolling give the
value that `readExpression` gives. -/
theorem readExpression_terminates_witness :
    readExpressionFuel symbolic symbolicZero 100 ['2', '^', '(', '3', '-', '1', ')']
      = some (Term.pow (Term.lit ['2']) (Term.sub (Term.lit ['3']) (Term.lit ['1']))) :=
  ((readExpression_terminates symbolic symbolicZero).2.1 100
    ['2', '^', '(', '3', '-', '1', ')'] (by decide)).trans (by decide)

/-! ## Commands -/

theorem trim_eq_self_of_ends (s : Str)
    (h1 : ∀ c, s.head? = some c → isspace c = false)
    (h2 : ∀ c, s.getLast? = some c → isspace c = false) : trim s = s := by
  unfold trim
  have hd : s.dropWhile isspace = s := by
    cases s with
    | nil => rfl
    | cons x xs => rw [List.dropWhile_cons_of_neg]; simp [h1 x rfl]
  simp only [hd]
  split
  · rename_i hs; exact hs.symm
  · rename_i hs
    rw [List.rdropWhile_eq_self_iff]
    intro hne
    simp [h2 _ (List.getLast?_eq_getLast _ hne)]

theorem tokensAux_word (w : Str) (hw : ∀ c ∈ w, isspace c = false) :
    ∀ (rest cur : Str), tokensAux (w ++ rest) cur = tokensAux rest (w.reverse ++ cur) := by
  induction w with
  | nil => intro rest cur; rfl
  | cons c w ih =>
    intro rest cur
    have hc : isspace c = false := hw c (List.mem_cons_self _ _)
    have hw1 : ∀ x ∈ w, isspace x = false := fun x hx => hw x (List.mem_cons_of_mem _ hx)
    have e : (c :: w).reverse ++ cur = w.reverse ++ (c :: cur) := by simp
    rw [e, ← ih hw1 rest (c :: cur)]
    simp only [List.cons_append, tokensAux, hc, Bool.false_eq_true, if_false]
    rfl

theorem tokens_three (w1 w2 w3 : Str) (h1 : ∀ c ∈ w1, isspace c = false)
    (h2 : ∀ c ∈ w2, isspace c = false) (h3 : ∀ c ∈ w3, isspace c = false)
    (n1 : w1 ≠ []) (n2 : w2 ≠ []) (n3 : w3 ≠ []) :
    tokens (w1 ++ ' ' :: (w2 ++ ' ' :: w3)) = [w1, w2, w3] := by
  have hsp : isspace ' ' = true := by decide
  have r1 : w1.reverse ≠ [] := by simpa using n1
  have r2 : w2.reverse ≠ [] := by simpa using n2
  have r3 : w3.reverse ≠ [] := by simpa using n3
  have e3 : tokensAux w3 [] = [w3] := by
    have := tokensAux_word w3 h3 [] []
    rw [List.append_nil] at this
    rw [this]
    simp only [List.append_nil, tokensAux, r3, if_false, List.reverse_reverse]
  unfold tokens
  rw [tokensAux_word w1 h1]
  simp only [List.append_nil, tokensAux, hsp, if_true, r1, if_false, List.reverse_reverse]
  rw [tokensAux_word w2 h2]
  simp only [List.append_nil, tokensAux, hsp, if_true, r2, if_false, List.reverse_reverse, e3]

theorem execLine_false {α : Type} (A : DoubleOps α) (st st1 : Calculator α) (line : Str)
    (h : execLine A st line = Outcome.returned false st1) : st1 = st := by
  unfold execLine at h
  simp only at h
  split at h
  · injection h with h1 _; exact absurd h1 (by decide)
  · split at h
    · exact absurd h (by simp)
    · injection h with h1 _; exact absurd h1 (by decide)
    · rename_i st2 hc
      have h2 : st2 = st := execCommand_false A st st2 _ hc
      split at h
      · injection h with h1 _; exact absurd h1 (by decide)
      · injection h with _ h3; rw [← h3, h2]

/-- C11 (atomicity of a line): when `execLine` returns `false` the registers and the
output are exactly as before the call; the same holds for every `false` return of the
`set` command, whatever the reason of the rejection. -/
theorem execLine_failure_is_atomic {α : Type} (A : DoubleOps α) (st st1 : Calculator α)
    (line : Str) (h : execLine A st line = Outcome.returned false st1) :
    st1 = st
      ∧ st1.lastResult = st.lastResult
      ∧ (∀ i, st1.memory i = st.memory i)
      ∧ (∀ (args : List Str) (st2 : Calculator α),
          commandSet A st args = Outcome.returned false st2 → st2 = st) := by
  have e := execLine_false A st st1 line h
  subst e
  exact ⟨rfl, rfl, fun _ => rfl, fun args st2 h2 => commandSet_false A st1 st2 args h2⟩

/-- C11 on the line `set 1` (a `set` command with one argument, which is no expression
either) in the symbolic interpretation: the line is refused and the state returned is the
state given. -/
theorem execLine_failure_is_atomic_witness :
    execLine symbolic symbolicZero ['s', 'e', 't', ' ', '1']
        = Outcome.returned false symbolicZero
      ∧ (∀ (args : List Str) (st2 : Calculator Term),
          commandSet symbolic symbolicZero args = Outcome.returned false st2 →
            st2 = symbolicZero) :=
  ⟨rfl, (execLine_failure_is_atomic symbolic symbolicZero symbolicZero
    ['s', 'e', 't', ' ', '1'] rfl).2.2.2⟩

theorem execLine_set {α : Type} (A : DoubleOps α) (st : Calculator α) (ds e : Str) (v : α)
    (index : Int) (hds : Digits ds) (hne : ds ≠ []) (hi : readInteger ds = some index)
    (hg : ¬ (index % 2 ^ 64).toNat > 10)
    (he : ∀ c ∈ e, isspace c = false) (hv : readExpression A st e = some v) :
    execLine A st (['s', 'e', 't'] ++ ' ' :: (ds ++ ' ' :: e))
      = Outcome.returned true
          { st with memory := Function.update st.memory index.toNat v } := by
  have hene : e ≠ [] := by
    intro h0
    rw [h0, readExpression_nil] at hv
    exact absurd hv (by simp)
  have hdsp : ∀ c ∈ ds, isspace c = false := fun c hc => isdigit_not_space (hds c hc)
  have htrim : trim (['s', 'e', 't'] ++ ' ' :: (ds ++ ' ' :: e))
      = ['s', 'e', 't'] ++ ' ' :: (ds ++ ' ' :: e) := by
    apply trim_eq_self_of_ends
    · intro c hc
      simp only [List.cons_append, List.head?_cons, Option.some.injEq] at hc
      rw [← hc]; decide
    · intro c hc
      have e1 : ['s', 'e', 't'] ++ ' ' :: (ds ++ ' ' :: e)
          = (['s', 'e', 't'] ++ ' ' :: (ds ++ [' '])) ++ e := by simp
      rw [e1, List.getLast?_append_of_ne_nil _ hene, List.getLast?_eq_getLast _ hene] at hc
      injection hc with hc
      rw [← hc]
      exact he _ (List.getLast_mem hene)
  have htok : tokens (['s', 'e', 't'] ++ ' ' :: (ds ++ ' ' :: e))
      = [['s', 'e', 't'], ds, e] :=
    tokens_three _ ds e (by decide) hdsp he (by simp) hne hene
  have hcmd : execCommand A st (['s', 'e', 't'] ++ ' ' :: (ds ++ ' ' :: e))
      = Outcome.returned true
          { st with memory := Function.update st.memory index.toNat v } := by
    unfold execCommand
    rw [htok]
    simp only [if_neg (show ¬ (['s', 'e', 't'] : Str) = ['e', 'x', 'i', 't'] by decide),
      if_true]
    unfold commandSet
    simp only [hi, if_neg hg, hv]
  unfold execLine
  simp only [htrim, hcmd]
  rw [if_neg (by simp)]

/-- C12: for a slot index `n` from 0 to 9 written as a decimal numeral and a
whitespace-free string `e` on which `readExpression` yields `v`, the line `set <n> <e>`
is accepted, stores `v` in memory slot `n`, leaves all other cells, `lastResult` and the
output unchanged, and `%<n>` then evaluates to `v`. -/
theorem set_stores_value_in_slot {α : Type} (A : DoubleOps α) (st : Calculator α)
    (n : Nat) (e : Str) (v : α) (hn : n ≤ 9)
    (he : ∀ c ∈ e, isspace c = false) (hv : readExpression A st e = some v) :
    ∃ st2 : Calculator α,
      execLine A st (['s', 'e', 't', ' '] ++ Nat.toDigits 10 n ++ [' '] ++ e)
          = Outcome.returned true st2
        ∧ st2.memory n = v
        ∧ (∀ i, i ≠ n → st2.memory i = st.memory i)
        ∧ st2.lastResult = st.lastResult
        ∧ st2.cout = st.cout
        ∧ readExpression A st2 ('%' :: Nat.toDigits 10 n) = some v := by
  have hline : ['s', 'e', 't', ' '] ++ Nat.toDigits 10 n ++ [' '] ++ e
      = ['s', 'e', 't'] ++ ' ' :: (Nat.toDigits 10 n ++ ' ' :: e) := by simp
  have hd : Digits (Nat.toDigits 10 n) ∧ Nat.toDigits 10 n ≠ []
      ∧ readInteger (Nat.toDigits 10 n) = some (n : Int) := by
    interval_cases n <;> exact ⟨by decide, by decide, rfl⟩
  have hg : ¬ (((n : Int)) % 2 ^ 64).toNat > 10 := by
    rw [Int.emod_eq_of_lt (by omega) (by omega)]
    simp only [Int.toNat_ofNat]
    omega
  refine ⟨{ st with memory := Function.update st.memory n v }, ?_, ?_, ?_, rfl, rfl, ?_⟩
  · rw [hline, execLine_set A st _ e v n hd.1 hd.2.1 hd.2.2 hg he hv]
    simp only [Int.toNat_ofNat]
  · simp
  · intro i hi
    simp [Function.update_noteq hi]
  · apply readExpression_of_readPercent
    rw [readPercent_digits _ _ hd.1 hd.2.1]
    have hval : digitsValue (Nat.toDigits 10 n) = n := by
      interval_cases n <;> rfl
    rw [hval, if_pos (by omega)]
    simp

/-- C12 on the line `set 3 2+5` in the folding interpretation: slot 3 then holds 7. -/
theorem set_stores_value_in_slot_witness :
    ∃ st2 : Calculator Term,
      execLine folding foldingZero ['s', 'e', 't', ' ', '3', ' ', '2', '+', '5']
          = Outcome.returned true st2
        ∧ st2.memory 3 = Term.num 7
        ∧ (∀ i, i ≠ 3 → st2.memory i = foldingZero.memory i)
        ∧ st2.lastResult = foldingZero.lastResult
        ∧ st2.cout = foldingZero.cout
        ∧ readExpression folding st2 ['%', '3'] = some (Term.num 7) :=
  set_stores_value_in_slot folding foldingZero 3 ['2', '+', '5'] (Term.num 7) (by decide)
    (by decide) (by decide)

/-- C13 (what the code does): the guard `*index > Calculator::memory.size()` of the `set`
command lets index 10 through, so `set 10 <e>` is accepted and the write
`Calculator::memory[10] = value` lands one cell past the 10-slot array; every digit string
of value 11 or more is rejected as a slot argument. -/
theorem set_index_ten_passes_guard {α : Type} (A : DoubleOps α) (st : Calculator α) :
    (∀ (e : Str) (v : α), (∀ c ∈ e, isspace c = false) → readExpression A st e = some v →
        commandSet A st [['1', '0'], e]
            = Outcome.returned true { st with memory := Function.update st.memory 10 v }
          ∧ execLine A st (['s', 'e', 't', ' ', '1', '0', ' '] ++ e)
            = Outcome.returned true { st with memory := Function.update st.memory 10 v })
      ∧ (∀ (ds e : Str), ds ≠ [] → Digits ds → 11 ≤ digitsValue ds →
          commandSet A st [ds, e] = Outcome.returned false st) := by
  refine ⟨?_, ?_⟩
  · intro e v he hv
    refine ⟨?_, ?_⟩
    · unfold commandSet
      have hi : readInteger ['1', '0'] = some 10 := rfl
      simp only [hi, hv]
      rfl
    · exact execLine_set A st ['1', '0'] e v 10 (by decide) (by decide) rfl (by decide) he hv
  · intro ds e hne hd hv
    unfold commandSet
    simp only [readInteger_digits ds hd hne]
    by_cases h : digitsValue ds ≤ 2147483647
    · have hg : (((digitsValue ds : Nat) : Int) % 2 ^ 64).toNat > 10 := by
        rw [Int.emod_eq_of_lt (by omega) (by omega)]
        simp only [Int.toNat_ofNat]
        omega
      simp only [h, if_true, hg]
    · simp only [h, if_false]

/-- C13 on the line `set 10 1` in the folding interpretation: the line is accepted and
the cell of index 10, one past the last slot, then holds 1. -/
theorem set_index_ten_written :
    ∃ st2 : Calculator Term,
      execLine folding foldingZero ['s', 'e', 't', ' ', '1', '0', ' ', '1']
          = Outcome.returned true st2
        ∧ st2.memory 10 = Term.num 1 :=
  ⟨_, rfl, rfl⟩

/-! ## Wrapping in parentheses; what the numeral recognisers reject -/

theorem readDouble_open_paren {α : Type} (A : DoubleOps α) (t : Str) :
    readDouble A ('(' :: t) = none :=
  readDouble_none_of_stop A [] '(' t (fun _ h => by simp at h) (by decide)
    (by decide) (by decide) (by decide)

theorem readParantheses_wrap {α : Type} (rec : Str → Option α) (s : Str) :
    readParantheses rec ('(' :: (s ++ [')'])) = rec (trim s) := by
  have hsub : substr ('(' :: (s ++ [')'])) 1 (('(' :: (s ++ [')'])).length - 2) = s := by
    simp [substr]
  unfold readParantheses
  rw [if_pos, hsub]
  refine ⟨by simp, by simp, ?_⟩
  have e : '(' :: (s ++ [')']) = ('(' :: s) ++ [')'] := rfl
  rw [e, List.getLast?_append_of_ne_nil _ (by simp)]
  rfl

/-- C16: for every register state and every string `s` such that `readExpression` yields
`v` on `trim s`, it yields the same `v` on `(` `s` `)`: `readPercent` and `readDouble`
reject every string that starts with `(`, and `readParantheses` evaluates the trimmed
interior. -/
theorem parentheses_preserve_value {α : Type} (A : DoubleOps α) (st : Calculator α)
    (s : Str) (v : α) (h : readExpression A st (trim s) = some v) :
    readExpression A st (['('] ++ s ++ [')']) = some v
      ∧ (∀ t : Str, readPercent st ('(' :: t) = none ∧ readDouble A ('(' :: t) = none)
      ∧ readParantheses (readExpression A st) (['('] ++ s ++ [')'])
        = readExpression A st (trim s) := by
  have e : ['('] ++ s ++ [')'] = '(' :: (s ++ [')']) := by simp
  have hPar := readParantheses_wrap (readExpression A st) s
  refine ⟨?_, fun t => ⟨readPercent_none st _ (by simp), readDouble_open_paren A t⟩, ?_⟩
  · rw [e, readExpression_eq]
    unfold readExpressionStep
    rw [readPercent_none st _ (by simp), readDouble_open_paren, hPar, h]
    rfl
  · rw [e, hPar]

/-- C16 at `s` = ` 2*3 ` (with the blanks) in the folding interpretation: `( 2*3 )`
evaluates to 6, the value of `2*3`. -/
theorem parentheses_preserve_value_witness :
    readExpression folding foldingZero ['(', ' ', '2', '*', '3', ' ', ')']
      = some (Term.num 6) :=
  (parentheses_preserve_value folding foldingZero [' ', '2', '*', '3', ' '] (Term.num 6)
    (by decide)).1

theorem readInteger_some (s : Str) (n : Int) (h : readInteger s = some n) :
    s ≠ [] ∧ Digits s ∧ n = (digitsValue s : Int) := by
  unfold readInteger at h
  split at h
  · exact absurd h (by simp)
  · rename_i hsign
    simp only at h
    split at h
    · rename_i hcond
      simp only [Bool.and_eq_true, Bool.not_eq_true'] at hcond
      obtain ⟨⟨hsp, hsome⟩, heof⟩ := hcond
      cases s with
      | nil => simp [extractInt] at h
      | cons c r =>
        simp only [char0, List.headD_cons] at hsign hsp
        have hdw : (c :: r).dropWhile isspace = c :: r := by
          rw [List.dropWhile_cons_of_neg]; simp [hsp]
        have h1 : c ≠ '-' := fun e => hsign (Or.inl e)
        have h2 : c ≠ '+' := fun e => hsign (Or.inr e)
        simp only [extractInt, hdw, List.cons_ne_nil, reduceCtorEq, if_false,
          List.head?_cons, Option.some.injEq, h1, h2, or_self] at h heof
        split at heof
        · rename_i hempty
          rw [if_pos hempty] at h
          exact absurd h (by simp)
        · rename_i hnonempty
          rw [if_neg hnonempty] at h
          split at heof
          · rename_i hrange
            rw [if_pos hrange] at h
            exact absurd h (by simp)
          · rename_i hrange
            rw [if_neg hrange] at h
            simp only [decide_eq_true_eq] at heof
            have hall : ∀ x ∈ c :: r, isdigit x = true :=
              List.dropWhile_eq_nil_iff.mp heof
            have htw : (c :: r).takeWhile isdigit = c :: r :=
              List.takeWhile_eq_self_iff.mpr hall
            rw [htw] at h
            simp only [Option.some.injEq] at h
            exact ⟨by simp, hall, h.symm⟩
    · exact absurd h (by simp)

/-- C17: `readInteger` and `readDouble` fail on the empty string, on a string whose first
character is `+`, `-` or white space, and whenever the extraction leaves characters unread
(the stream is not at its end); so `readInteger` succeeds only on non-empty strings of
decimal digits, and rejects every string with another character in it, and the value it
returns is the non-negative value of the digits. -/
theorem numeral_recognisers_reject {α : Type} (A : DoubleOps α) :
    (readInteger [] = none ∧ readDouble A [] = none)
      ∧ (∀ (c : Char) (s : Str), (c = '+' ∨ c = '-' ∨ isspace c = true) →
          readInteger (c :: s) = none ∧ readDouble A (c :: s) = none)
      ∧ (∀ s : Str, (extractInt s).eof = false → readInteger s = none)
      ∧ (∀ s : Str, (extractDouble A s).eof = false → readDouble A s = none)
      ∧ (∀ (s : Str) (n : Int), readInteger s = some n →
          s ≠ [] ∧ Digits s ∧ 0 ≤ n ∧ n = (digitsValue s : Int))
      ∧ (∀ s : Str, ¬ Digits s → readInteger s = none) := by
  refine ⟨⟨rfl, rfl⟩, ?_, ?_, ?_, ?_, ?_⟩
  · intro c s hc
    rcases hc with hc | hc | hc
    · subst hc; exact ⟨rfl, readDouble_sign A '+' s (Or.inr rfl)⟩
    · subst hc; exact ⟨rfl, readDouble_sign A '-' s (Or.inl rfl)⟩
    · constructor
      · unfold readInteger
        simp only [char0, List.headD_cons, hc, Bool.not_true, Bool.false_and,
          Bool.false_eq_true, if_false, ite_self]
      · unfold readDouble
        simp only [char0, List.headD_cons, hc, Bool.not_true, Bool.false_and,
          Bool.false_eq_true, if_false, ite_self]
  · intro s h
    unfold readInteger
    simp only [h, Bool.and_false, Bool.false_eq_true, if_false, ite_self]
  · intro s h
    unfold readDouble
    simp only [h, Bool.and_false, Bool.false_eq_true, if_false, ite_self]
  · intro s n h
    obtain ⟨h1, h2, h3⟩ := readInteger_some s n h
    exact ⟨h1, h2, by rw [h3]; exact Int.ofNat_nonneg _, h3⟩
  · intro s hs
    cases h : readInteger s with
    | none => rfl
    | some n => exact absurd (readInteger_some s n h).2.1 hs

/-! ## Unary minus next to a binary operator -/

theorem decomp_right {pre post pre1 post1 : Str} {ch ch1 : Char}
    (h : pre ++ ch :: post = pre1 ++ ch1 :: post1) (hlt : pre.length < pre1.length) :
    ∃ l : Str, pre1 = pre ++ ch :: l ∧ post = l ++ ch1 :: post1 := by
  rcases List.append_eq_append_iff.mp h with ⟨a, ha, hb⟩ | ⟨c, hc, _⟩
  · cases a with
    | nil => simp at ha; rw [ha] at hlt; omega
    | cons z zs =>
      simp only [List.cons_append, List.cons.injEq] at hb
      exact ⟨zs, by rw [ha, hb.1], hb.2⟩
  · have := congrArg List.length hc
    simp at this
    omega

theorem decomp_left {pre post pre1 post1 : Str} {ch ch1 : Char}
    (h : pre ++ ch :: post = pre1 ++ ch1 :: post1) (hlt : pre1.length < pre.length) :
    ∃ l : Str, pre = pre1 ++ ch1 :: l ∧ post1 = l ++ ch :: post := by
  obtain ⟨l, h1, h2⟩ := decomp_right h.symm hlt
  exact ⟨l, h1, h2⟩

theorem readExpression_of_tier {α : Type} (A : DoubleOps α) (st : Calculator α) (k : Nat)
    (str : Str) (v : α) (hk : k < 3)
    (hP : str.head? ≠ some '%')
    (hD : readDouble A str = none)
    (hPar : readParantheses (readExpression A st) str = none)
    (hlow : ∀ j, j < k → readTier (readExpression A st) str (tierAt A j) = none)
    (hv : readTier (readExpression A st) str (tierAt A k) = some v) :
    readExpression A st str = some v := by
  have hB := readBinaryOp_at A (readExpression A st) str k v hk hlow hv
  rw [readExpression_eq]
  unfold readExpressionStep
  rw [readPercent_none st _ hP, hD, hPar, hB]
  rfl

theorem readTier_split_skip {α : Type} (A : DoubleOps α) (rec : Str → Option α) (k : Nat)
    (pre : Str) (ch : Char) (post : Str) (x y : α) (hk : level ch = some k) (h2 : k ≠ 2)
    (hx : rec (trim pre) = some x) (hy : rec (trim post) = some y)
    (hskip : ∀ (l : Str) (ch1 : Char) (post1 : Str), post = l ++ ch1 :: post1 →
      level ch1 = some k → rec (trim (pre ++ ch :: l)) = none ∨ rec (trim post1) = none) :
    readTier rec (pre ++ ch :: post) (tierAt A k) = some (opFunc A ch x y) := by
  have hv : splitAtChar rec (tierAt A k).operations pre ch post = some (opFunc A ch x y) := by
    rw [splitAtChar_tier, if_pos hk, hx, hy]
  apply readTier_left rec _ pre ch post _ (by rw [tierAt_assoc, if_neg h2])
    (tierAt_length_one A k) hv
  intro pre1 ch1 post1 hs hlt
  obtain ⟨l, hl1, hl2⟩ := decomp_right hs hlt
  rw [splitAtChar_tier]
  split
  · rename_i hl
    rcases hskip l ch1 post1 hl2 hl with hf | hf
    · rw [hl1, hf]
    · rw [hf]; cases rec (trim pre1) <;> rfl
  · rfl

theorem minus_digits_eval {α : Type} (A : DoubleOps α) (st : Calculator α) (a : Str)
    (va : α) (ha : Digits a) (hva : readDouble A a = some va) :
    readExpression A st ('-' :: a) = some (A.fneg va) := by
  rw [readExpression_eq]
  unfold readExpressionStep
  rw [readPercent_none st _ (by simp), readDouble_sign A '-' a (Or.inl rfl),
    readParantheses_none_head _ _ (by simp), minus_digits_binary_none A st a ha,
    minus_digits_unary A st a va ha hva]
  rfl

theorem minus_digits_trim (a : Str) (ha : Digits a) : trim ('-' :: a) = '-' :: a := by
  apply trim_eq_self
  intro x hx
  rcases List.mem_cons.mp hx with rfl | hx
  · decide
  · exact isdigit_not_space (ha x hx)

theorem trailing_op_fails {α : Type} (A : DoubleOps α) (st : Calculator α) (a : Str)
    (ch : Char) (k : Nat) (ha : Digits a) (hne : a ≠ []) (hk : level ch = some k) :
    readExpression A st (a ++ [ch]) = none := by
  have hl : level ch ≠ none := by rw [hk]; simp
  have hp := level_not_digit hl
  apply readExpression_none
  · exact head_digits_append a _ ha hne '%' (by decide)
  · exact readDouble_none_of_stop A a ch [] ha hp.1 hp.2.1 hp.2.2.1 hp.2.2.2.1
  · apply readParantheses_none_head
    exact head_digits_append a _ ha hne '(' (by decide)
  · intro j
    by_cases hj : j = k
    · subst hj
      apply readTier_none_unique A _ j a ch [] (digits_avoids ha j) (avoids_nil j)
      right
      rw [trim_nil]
      exact readExpression_nil A st
    · apply readTier_none_absent
      exact (avoids_append _ _ _).mpr
        ⟨digits_avoids ha j, (avoids_cons _ _ _).mpr
          ⟨level_ne_of_eq hk (Ne.symm hj), avoids_nil j⟩⟩
  · intro c hc
    simp only [unaryHeads, List.mem_cons, List.mem_singleton, List.not_mem_nil,
      or_false] at hc
    rcases hc with rfl | rfl | rfl | rfl | rfl | rfl | rfl | rfl <;>
      exact head_digits_append a _ ha hne _ (by decide)
  · intro h
    have := head_digits_append a [ch] ha hne 'p' (by decide)
    rw [h] at this
    exact this rfl

theorem trailing_op_trim (a : Str) (ch : Char) (k : Nat) (ha : Digits a)
    (hk : level ch = some k) : trim (a ++ [ch]) = a ++ [ch] := by
  have hl : level ch ≠ none := by rw [hk]; simp
  exact plain_trim (plain_append (digits_plain ha) (plain_cons hl (fun _ h => by simp at h)))

theorem signed_right_eval {α : Type} (A : DoubleOps α) (st : Calculator α)
    (a b : Str) (va vb : α) (ha : Digits a) (hb : Digits b)
    (hva : readDouble A a = some va) (hvb : readDouble A b = some vb)
    (ch : Char) (k : Nat) (hk : level ch = some k) :
    readExpression A st (a ++ ch :: ('-' :: b)) = some (opFunc A ch va (A.fneg vb)) := by
  obtain ⟨_, ⟨d, r, had, _⟩, aa, ea⟩ := digits_atom A st a va ha hva
  have hane : a ≠ [] := by rw [had]; simp
  have hl : level ch ≠ none := by rw [hk]; simp
  have hp := level_not_digit hl
  have hm : level '-' = some 0 := by decide
  have hx : readExpression A st (trim a) = some va := by rw [digits_trim ha]; exact ea
  have hy : readExpression A st (trim ('-' :: b)) = some (A.fneg vb) := by
    rw [minus_digits_trim b hb]; exact minus_digits_eval A st b vb hb hvb
  have hfail : readExpression A st (trim (a ++ [ch])) = none := by
    rw [trailing_op_trim a ch k ha hk]; exact trailing_op_fails A st a ch k ha hane hk
  have hk3 := level_lt_three ch k hk
  apply readExpression_of_tier A st k _ _ hk3
  · exact head_digits_append a _ ha hane '%' (by decide)
  · exact readDouble_none_of_stop A a ch _ ha hp.1 hp.2.1 hp.2.2.1 hp.2.2.2.1
  · apply readParantheses_none_head
    exact head_digits_append a _ ha hane '(' (by decide)
  · intro j hj
    by_cases hj0 : j = 0
    · subst hj0
      have e : a ++ ch :: ('-' :: b) = (a ++ [ch]) ++ '-' :: b := by simp
      rw [e]
      apply readTier_none_unique A _ 0 _ '-' b _ (digits_avoids hb 0) (Or.inl hfail)
      exact (avoids_append _ _ _).mpr
        ⟨aa 0, (avoids_cons _ _ _).mpr ⟨level_ne_of_eq hk (by omega), avoids_nil 0⟩⟩
    · apply readTier_none_absent
      exact (avoids_append _ _ _).mpr
        ⟨aa j, (avoids_cons _ _ _).mpr
          ⟨level_ne_of_eq hk (by omega), (avoids_cons _ _ _).mpr
            ⟨level_ne_of_eq hm (Ne.symm hj0), digits_avoids hb j⟩⟩⟩
  · by_cases hk0 : k = 0
    · subst hk0
      apply readTier_split_skip A _ 0 a ch ('-' :: b) va _ hk (by omega) hx hy
      intro l ch1 post1 hs hl1
      have hu := @decomp_unique [] b l post1 '-' ch1 hs
        (by simp) (fun hmem => digits_avoids hb 0 _ hmem hl1)
      left
      rw [hu.1]
      exact hfail
    · apply readTier_split A _ k a ch ('-' :: b) va _ hk _ hx hy
      split
      · exact aa k
      · exact (avoids_cons _ _ _).mpr ⟨level_ne_of_eq hm (Ne.symm hk0), digits_avoids hb k⟩

theorem signed_left_eval {α : Type} (A : DoubleOps α) (st : Calculator α)
    (a b : Str) (va vb : α) (ha : Digits a) (hb : Digits b)
    (hva : readDouble A a = some va) (hvb : readDouble A b = some vb)
    (ch : Char) (k : Nat) (hk : level ch = some k) :
    readExpression A st (('-' :: a) ++ ch :: b) = some (opFunc A ch (A.fneg va) vb) := by
  obtain ⟨_, _, ab, eb⟩ := digits_atom A st b vb hb hvb
  have hm : level '-' = some 0 := by decide
  have hx : readExpression A st (trim ('-' :: a)) = some (A.fneg va) := by
    rw [minus_digits_trim a ha]; exact minus_digits_eval A st a va ha hva
  have hy : readExpression A st (trim b) = some vb := by rw [digits_trim hb]; exact eb
  apply readExpression_split A st k ('-' :: a) ch b _ vb hk
  · simp
  · exact readDouble_sign A '-' _ (Or.inl rfl)
  · exact readParantheses_none_head _ _ (by simp)
  · intro j hj
    by_cases hj0 : j = 0
    · subst hj0
      have e : ('-' :: a) ++ ch :: b = [] ++ '-' :: (a ++ ch :: b) := rfl
      rw [e]
      apply readTier_none_unique A _ 0 [] '-' _ (avoids_nil 0) _
        (Or.inl (by rw [trim_nil]; exact readExpression_nil A st))
      exact (avoids_append _ _ _).mpr
        ⟨digits_avoids ha 0, (avoids_cons _ _ _).mpr ⟨level_ne_of_eq hk (by omega), ab 0⟩⟩
    · apply readTier_none_absent
      exact (avoids_append _ _ _).mpr
        ⟨(avoids_cons _ _ _).mpr ⟨level_ne_of_eq hm (Ne.symm hj0), digits_avoids ha j⟩,
          (avoids_cons _ _ _).mpr ⟨level_ne_of_eq hk (by omega), ab j⟩⟩
  · split
    · rename_i h2
      exact (avoids_cons _ _ _).mpr ⟨level_ne_of_eq hm (by omega), digits_avoids ha k⟩
    · exact ab k
  · exact hx
  · exact hy

/-- C15 (signed right operand): for digit strings `a`, `b` accepted by `readDouble` and
every operator `o` of `binaryOperations`, `a o -b` evaluates to `o(a, -b)`; in every
arithmetic that is exact on the integers `2^-3` evaluates to `pow(2, -3)` and `1--2`
to 3. -/
theorem signed_right_operand {α : Type} (A : DoubleOps α) (st : Calculator α)
    (a b : Str) (va vb : α) (ha : Digits a) (hb : Digits b)
    (hva : readDouble A a = some va) (hvb : readDouble A b = some vb)
    (i : Nat) (T : PrecedenceSet α) (hT : (binaryOperations A)[i]? = some T)
    (o : BinaryOperation α) (ho : o ∈ T.operations) :
    readExpression A st (a ++ o.str ++ ['-'] ++ b) = some (o.func va (A.fneg vb))
      ∧ ∀ ι : Int → α, ExactOnInt A ι →
          readExpression A st ['2', '^', '-', '3'] = some (A.pow (ι 2) (ι (-3)))
            ∧ readExpression A st ['1', '-', '-', '2'] = some (ι 3) := by
  obtain ⟨ch, hs, hf, hl⟩ := table_entry A i T o hT ho
  rw [hs, hf]
  refine ⟨?_, ?_⟩
  · have e : a ++ [ch] ++ ['-'] ++ b = a ++ ch :: ('-' :: b) := by simp
    rw [e]
    exact signed_right_eval A st a b va vb ha hb hva hvb ch i hl
  · intro ι hE
    have r1 : readDouble A ['1'] = some (ι 1) :=
      readDouble_exact A ι hE ['1'] 1 (by simp) (by decide) (by decide) (by norm_num)
    have r2 : readDouble A ['2'] = some (ι 2) :=
      readDouble_exact A ι hE ['2'] 2 (by simp) (by decide) (by decide) (by norm_num)
    have r3 : readDouble A ['3'] = some (ι 3) :=
      readDouble_exact A ι hE ['3'] 3 (by simp) (by decide) (by decide) (by norm_num)
    have n2 : A.fneg (ι 2) = ι (-2) :=
      hE.neg 2 (by constructor <;> norm_num) (by norm_num)
    have n3 : A.fneg (ι 3) = ι (-3) :=
      hE.neg 3 (by constructor <;> norm_num) (by norm_num)
    have k1 := signed_right_eval A st ['2'] ['3'] _ _ (by decide) (by decide) r2 r3
      '^' 2 (by decide)
    have k2 := signed_right_eval A st ['1'] ['2'] _ _ (by decide) (by decide) r1 r2
      '-' 0 (by decide)
    have f1 : opFunc A '^' = A.pow := rfl
    have f2 : opFunc A '-' = A.fsub := rfl
    have m : A.fsub (ι 1) (ι (-2)) = ι 3 := by
      have := hE.sub 1 (-2) (by constructor <;> norm_num) (by constructor <;> norm_num)
        (by constructor <;> norm_num)
      simpa using this
    rw [f1, n3] at k1
    rw [f2, n2, m] at k2
    exact ⟨k1, k2⟩

/-- C15 at `a = 1`, `b = 2`, `o = -` in the folding interpretation: `1--2` is 3; and
`2^-3` is the power of 2 and -3. -/
theorem signed_right_operand_witness :
    readExpression folding foldingZero ['1', '-', '-', '2'] = some (Term.num 3)
      ∧ readExpression folding foldingZero ['2', '^', '-', '3']
        = some (folding.pow (Term.num 2) (Term.num (-3))) :=
  have h := signed_right_operand folding foldingZero ['1'] ['2'] (Term.num 1) (Term.num 2)
    (by decide) (by decide) (by decide) (by decide) 0 _ rfl ⟨['-'], folding.fsub⟩
    (List.mem_cons_of_mem _ (List.mem_cons_self _ _))
  ⟨h.1, (h.2 _ folding_exact).1⟩

/-- C19 (a leading sign binds tighter than a binary operator): for digit strings `a`, `b`
accepted by `readDouble` and every operator `o` of `binaryOperations`, `-a o b` evaluates
to `o(-a, b)`; in every arithmetic that is exact on the integers `-2^2` evaluates to
`pow(-2, 2) = 4`. -/
theorem leading_sign_binds_tighter {α : Type} (A : DoubleOps α) (st : Calculator α)
    (a b : Str) (va vb : α) (ha : Digits a) (hb : Digits b)
    (hva : readDouble A a = some va) (hvb : readDouble A b = some vb)
    (i : Nat) (T : PrecedenceSet α) (hT : (binaryOperations A)[i]? = some T)
    (o : BinaryOperation α) (ho : o ∈ T.operations) :
    readExpression A st (['-'] ++ a ++ o.str ++ b) = some (o.func (A.fneg va) vb)
      ∧ ∀ ι : Int → α, ExactOnInt A ι →
          readExpression A st ['-', '2', '^', '2'] = some (A.pow (ι (-2)) (ι 2))
            ∧ readExpression A st ['-', '2', '^', '2'] = some (ι 4) := by
  obtain ⟨ch, hs, hf, hl⟩ := table_entry A i T o hT ho
  rw [hs, hf]
  refine ⟨?_, ?_⟩
  · have e : ['-'] ++ a ++ [ch] ++ b = ('-' :: a) ++ ch :: b := by simp
    rw [e]
    exact signed_left_eval A st a b va vb ha hb hva hvb ch i hl
  · intro ι hE
    have r2 : readDouble A ['2'] = some (ι 2) :=
      readDouble_exact A ι hE ['2'] 2 (by simp) (by decide) (by decide) (by norm_num)
    have n2 : A.fneg (ι 2) = ι (-2) :=
      hE.neg 2 (by constructor <;> norm_num) (by norm_num)
    have k1 := signed_left_eval A st ['2'] ['2'] _ _ (by decide) (by decide) r2 r2
      '^' 2 (by decide)
    have f1 : opFunc A '^' = A.pow := rfl
    have m : A.pow (ι (-2)) (ι 2) = ι 4 := by
      have := hE.pow (-2) 2 (by constructor <;> norm_num) (by constructor <;> norm_num)
        (by constructor <;> norm_num)
      simpa using this
    rw [f1, n2] at k1
    refine ⟨k1, ?_⟩
    rw [← m]
    exact k1

/-- C19 at `a = 2`, `b = 2`, `o = ^` in the folding interpretation: `-2^2` is 4. -/
theorem leading_sign_binds_tighter_witness :
    readExpression folding foldingZero ['-', '2', '^', '2'] = some (Term.num 4) :=
  (leading_sign_binds_tighter folding foldingZero ['2'] ['2'] (Term.num 2) (Term.num 2)
    (by decide) (by decide) (by decide) (by decide) 2 _ rfl ⟨['^'], folding.pow⟩
    (List.mem_cons_self _ _)).1

/-! ## Which split a tier selects -/

theorem findSome_range_rev_some {γ : Type} (f : Nat → Option γ) (n : Nat) (v : γ)
    (h : (List.range n).reverse.findSome? f = some v) :
    ∃ p, p < n ∧ f p = some v ∧ ∀ j, p < j → j < n → f j = none := by
  induction n with
  | zero => simp at h
  | succ n ih =>
    rw [List.range_succ, List.reverse_append, List.reverse_singleton, List.singleton_append,
      List.findSome?_cons] at h
    cases hn : f n with
    | some w =>
      rw [hn] at h
      simp only [Option.some.injEq] at h
      exact ⟨n, by omega, by rw [hn, h], fun j h1 h2 => by omega⟩
    | none =>
      rw [hn] at h
      obtain ⟨p, hp, hv, hgt⟩ := ih h
      refine ⟨p, by omega, hv, ?_⟩
      intro j h1 h2
      by_cases hj : j = n
      · rw [hj]; exact hn
      · exact hgt j h1 (by omega)

theorem findSome_range_some {γ : Type} (f : Nat → Option γ) (n : Nat) (v : γ)
    (h : (List.range n).findSome? f = some v) :
    ∃ p, p < n ∧ f p = some v ∧ ∀ j, j < p → f j = none := by
  induction n with
  | zero => simp at h
  | succ n ih =>
    rw [List.range_succ, List.findSome?_append] at h
    cases hr : (List.range n).findSome? f with
    | some w =>
      rw [hr] at h
      simp only [Option.or_some, Option.some.injEq] at h
      rw [h] at hr
      obtain ⟨p, hp, hv, hlt⟩ := ih hr
      exact ⟨p, by omega, hv, hlt⟩
    | none =>
      rw [hr] at h
      simp only [Option.none_or, List.findSome?_cons, List.findSome?_nil] at h
      have hall := List.findSome?_eq_none_iff.mp hr
      refine ⟨n, by omega, ?_, fun j hj => hall j (List.mem_range.mpr hj)⟩
      cases hn : f n with
      | some w => rw [hn] at h; exact h
      | none => rw [hn] at h; exact absurd h (by simp)

theorem readTier_eq_none {α : Type} (rec : Str → Option α) (str : Str)
    (tier : PrecedenceSet α) (hops : ∀ op ∈ tier.operations, op.str.length = 1)
    (h : readTier rec str tier = none) (pre : Str) (ch : Char) (post : Str)
    (hs : str = pre ++ ch :: post) : splitAtChar rec tier.operations pre ch post = none := by
  have hlt : pre.length < str.length := by rw [hs]; simp
  have key : splitLeft rec str pre.length tier.operations = none := by
    unfold readTier at h
    split at h
    · exact List.findSome?_eq_none_iff.mp h _
        (List.mem_reverse.mpr (List.mem_range.mpr (by omega)))
    · have := List.findSome?_eq_none_iff.mp h _ (List.mem_range.mpr hlt)
      rw [splitRight_eq_splitLeft rec str _ _ hops] at this
      exact this
  rw [hs, splitLeft_at rec pre ch post _ hops] at key
  exact key

theorem readTier_some {α : Type} (rec : Str → Option α) (str : Str)
    (tier : PrecedenceSet α) (hops : ∀ op ∈ tier.operations, op.str.length = 1) (v : α)
    (h : readTier rec str tier = some v) :
    ∃ (pre : Str) (ch : Char) (post : Str), str = pre ++ ch :: post
      ∧ splitAtChar rec tier.operations pre ch post = some v
      ∧ ∀ (pre1 : Str) (ch1 : Char) (post1 : Str), str = pre1 ++ ch1 :: post1 →
          (if tier.assoc = Assoc.LeftAssoc then pre.length < pre1.length
            else pre1.length < pre.length) →
          splitAtChar rec tier.operations pre1 ch1 post1 = none := by
  have hat : ∀ (pre1 : Str) (ch1 : Char) (post1 : Str), str = pre1 ++ ch1 :: post1 →
      splitLeft rec str pre1.length tier.operations
        = splitAtChar rec tier.operations pre1 ch1 post1 := by
    intro pre1 ch1 post1 hs
    rw [hs, splitLeft_at rec pre1 ch1 post1 _ hops]
  unfold readTier at h
  split at h
  · rename_i hassoc
    obtain ⟨p, hp, hv, hgt⟩ := findSome_range_rev_some _ _ v h
    have hlt : p < str.length := by
      by_contra hge
      rw [splitLeft_ge rec str p _ hops (by omega)] at hv
      exact absurd hv (by simp)
    have hd : str = str.take p ++ str.get ⟨p, hlt⟩ :: str.drop (p + 1) := by simp
    have hl : (str.take p).length = p := by rw [List.length_take]; omega
    refine ⟨str.take p, str.get ⟨p, hlt⟩, str.drop (p + 1), hd, ?_, ?_⟩
    · rw [← hat _ _ _ hd, hl]; exact hv
    · intro pre1 ch1 post1 hs hcmp
      rw [if_pos hassoc, hl] at hcmp
      rw [← hat _ _ _ hs]
      apply hgt _ hcmp
      rw [hs]; simp; omega
  · rename_i hassoc
    obtain ⟨p, hp, hv, hbelow⟩ := findSome_range_some _ _ v h
    have hd : str = str.take p ++ str.get ⟨p, hp⟩ :: str.drop (p + 1) := by simp
    have hl : (str.take p).length = p := by rw [List.length_take]; omega
    refine ⟨str.take p, str.get ⟨p, hp⟩, str.drop (p + 1), hd, ?_, ?_⟩
    · rw [← hat _ _ _ hd, hl, ← splitRight_eq_splitLeft rec str _ _ hops]; exact hv
    · intro pre1 ch1 post1 hs hcmp
      rw [if_neg (by rw [hassoc]; decide), hl] at hcmp
      rw [← hat _ _ _ hs, ← splitRight_eq_splitLeft rec str _ _ hops]
      exact hbelow _ hcmp

theorem splitAtChar_some_iff {α : Type} (A : DoubleOps α) (rec : Str → Option α) (k : Nat)
    (pre : Str) (ch : Char) (post : Str) (v : α) :
    splitAtChar rec (tierAt A k).operations pre ch post = some v
      ↔ level ch = some k ∧ ∃ x y : α, rec (trim pre) = some x ∧ rec (trim post) = some y
          ∧ v = opFunc A ch x y := by
  rw [splitAtChar_tier]
  constructor
  · intro h
    split at h
    · rename_i hl
      refine ⟨hl, ?_⟩
      cases hx : rec (trim pre) with
      | none => rw [hx] at h; exact absurd h (by simp)
      | some x =>
        cases hy : rec (trim post) with
        | none => rw [hx, hy] at h; exact absurd h (by simp)
        | some y =>
          rw [hx, hy] at h
          simp only [Option.some.injEq] at h
          exact ⟨x, y, rfl, rfl, h.symm⟩
    · exact absurd h (by simp)
  · rintro ⟨hl, x, y, hx, hy, hv⟩
    rw [if_pos hl, hx, hy, hv]

theorem table_tierAt {α : Type} (A : DoubleOps α) (k : Nat) (T : PrecedenceSet α)
    (hT : (binaryOperations A)[k]? = some T) : T = tierAt A k ∧ k < 3 := by
  match k with
  | 0 => exact ⟨(Option.some.inj hT).symm, by omega⟩
  | 1 => exact ⟨(Option.some.inj hT).symm, by omega⟩
  | 2 => exact ⟨(Option.some.inj hT).symm, by omega⟩
  | k + 3 => simp [binaryOperations] at hT

theorem tierAt_table {α : Type} (A : DoubleOps α) (k : Nat) (hk : k < 3) :
    (binaryOperations A)[k]? = some (tierAt A k) := by
  match k, hk with
  | 0, _ => rfl
  | 1, _ => rfl
  | 2, _ => rfl

theorem tierAt_mem {α : Type} (A : DoubleOps α) (k : Nat) (ch : Char)
    (h : level ch = some k) :
    (⟨[ch], opFunc A ch⟩ : BinaryOperation α) ∈ (tierAt A k).operations := by
  have hf := tierAt_find A k ch
  rw [if_pos h] at hf
  exact List.mem_of_find?_eq_some hf

theorem validSplit_iff {α : Type} (A : DoubleOps α) (rec : Str → Option α) (k : Nat)
    (hk : k < 3) (s pre : Str) (op : BinaryOperation α) (post : Str) (v : α) :
    ValidSplit rec (tierAt A k) s pre op post v
      ↔ ∃ ch : Char, op = ⟨[ch], opFunc A ch⟩ ∧ s = pre ++ ch :: post
          ∧ splitAtChar rec (tierAt A k).operations pre ch post = some v := by
  constructor
  · rintro ⟨hs, hop, x, y, hx, hy, hv⟩
    obtain ⟨ch, h1, h2, h3⟩ := table_entry A k _ op (tierAt_table A k hk) hop
    refine ⟨ch, ?_, ?_, ?_⟩
    · cases op; simp only at h1 h2; rw [h1, h2]
    · rw [hs, h1]; simp
    · rw [splitAtChar_some_iff]
      exact ⟨h3, x, y, hx, hy, by rw [hv, h2]⟩
  · rintro ⟨ch, hop, hs, hv⟩
    obtain ⟨hl, x, y, hx, hy, hv2⟩ := (splitAtChar_some_iff A rec k pre ch post v).mp hv
    refine ⟨?_, ?_, x, y, hx, hy, ?_⟩
    · rw [hs, hop]; simp
    · rw [hop]; exact tierAt_mem A k ch hl
    · rw [hv2, hop]

/-- C14 (split selection): for every string `s` and every tier `T` of `binaryOperations`,
the tier yields a result exactly when `s` has a position holding a symbol of `T` with both
trimmed sides evaluating; the result is the operator applied to the two values at the
rightmost such position when `T` is left-associative and at the leftmost when it is
right-associative; `readBinaryOp` returns the result of the first tier of the table that
yields one, and fails exactly when no tier yields one. -/
theorem split_selection {α : Type} (A : DoubleOps α) (st : Calculator α) (s : Str)
    (k : Nat) (T : PrecedenceSet α) (hT : (binaryOperations A)[k]? = some T) :
    ((readTier (readExpression A st) s T).isSome = true
        ↔ ∃ (pre : Str) (op : BinaryOperation α) (post : Str) (v : α),
            ValidSplit (readExpression A st) T s pre op post v)
      ∧ (∀ v : α, readTier (readExpression A st) s T = some v →
          ∃ (pre : Str) (op : BinaryOperation α) (post : Str),
            ValidSplit (readExpression A st) T s pre op post v
              ∧ ∀ (pre1 : Str) (op1 : BinaryOperation α) (post1 : Str) (v1 : α),
                  ValidSplit (readExpression A st) T s pre1 op1 post1 v1 →
                    (T.assoc = Assoc.LeftAssoc → pre1.length ≤ pre.length)
                      ∧ (T.assoc = Assoc.RightAssoc → pre.length ≤ pre1.length))
      ∧ (∀ v : α, readBinaryOp A (readExpression A st) s = some v
          ↔ ∃ (j : Nat) (Tj : PrecedenceSet α), (binaryOperations A)[j]? = some Tj
              ∧ readTier (readExpression A st) s Tj = some v
              ∧ ∀ (i : Nat) (Ti : PrecedenceSet α), i < j →
                  (binaryOperations A)[i]? = some Ti →
                    readTier (readExpression A st) s Ti = none)
      ∧ (readBinaryOp A (readExpression A st) s = none
          ↔ ∀ Tj ∈ binaryOperations A, readTier (readExpression A st) s Tj = none) := by
  obtain ⟨hTk, hk⟩ := table_tierAt A k T hT
  subst hTk
  have hops := tierAt_length_one A k
  have hsel : ∀ v : α, readTier (readExpression A st) s (tierAt A k) = some v →
      ∃ (pre : Str) (op : BinaryOperation α) (post : Str),
        ValidSplit (readExpression A st) (tierAt A k) s pre op post v
          ∧ ∀ (pre1 : Str) (op1 : BinaryOperation α) (post1 : Str) (v1 : α),
              ValidSplit (readExpression A st) (tierAt A k) s pre1 op1 post1 v1 →
                ((tierAt A k).assoc = Assoc.LeftAssoc → pre1.length ≤ pre.length)
                  ∧ ((tierAt A k).assoc = Assoc.RightAssoc → pre.length ≤ pre1.length) := by
    intro v hv
    obtain ⟨pre, ch, post, hs, hsp, hext⟩ := readTier_some _ s _ hops v hv
    refine ⟨pre, ⟨[ch], opFunc A ch⟩, post,
      (validSplit_iff A _ k hk s pre _ post v).mpr ⟨ch, rfl, hs, hsp⟩, ?_⟩
    intro pre1 op1 post1 v1 hvs
    obtain ⟨ch1, -, hs1, hsp1⟩ := (validSplit_iff A _ k hk s pre1 op1 post1 v1).mp hvs
    constructor
    · intro hassoc
      by_contra hlt
      have := hext pre1 ch1 post1 hs1 (by rw [if_pos hassoc]; omega)
      rw [this] at hsp1
      exact absurd hsp1 (by simp)
    · intro hassoc
      by_contra hlt
      have := hext pre1 ch1 post1 hs1
        (by rw [if_neg (by rw [hassoc]; decide)]; omega)
      rw [this] at hsp1
      exact absurd hsp1 (by simp)
  refine ⟨?_, hsel, ?_, ?_⟩
  · constructor
    · intro h
      obtain ⟨v, hv⟩ := Option.isSome_iff_exists.mp h
      obtain ⟨pre, op, post, hvs, -⟩ := hsel v hv
      exact ⟨pre, op, post, v, hvs⟩
    · rintro ⟨pre, op, post, v, hvs⟩
      obtain ⟨ch, -, hs, hsp⟩ := (validSplit_iff A _ k hk s pre op post v).mp hvs
      cases hr : readTier (readExpression A st) s (tierAt A k) with
      | some w => rfl
      | none =>
        rw [readTier_eq_none _ s _ hops hr pre ch post hs] at hsp
        exact absurd hsp (by simp)
  · intro v
    rw [readBinaryOp_eq]
    constructor
    · intro h
      cases h0 : readTier (readExpression A st) s (tierAt A 0) with
      | some w =>
        rw [h0] at h
        exact ⟨0, tierAt A 0, rfl, by rw [h0]; exact h, fun i Ti hi _ => by omega⟩
      | none =>
        rw [h0] at h
        simp only at h
        cases h1 : readTier (readExpression A st) s (tierAt A 1) with
        | some w =>
          rw [h1] at h
          refine ⟨1, tierAt A 1, rfl, by rw [h1]; exact h, ?_⟩
          intro i Ti hi hTi
          have hi0 : i = 0 := by omega
          subst hi0
          rw [(table_tierAt A 0 Ti hTi).1]; exact h0
        | none =>
          rw [h1] at h
          simp only at h
          refine ⟨2, tierAt A 2, rfl, h, ?_⟩
          intro i Ti hi hTi
          have hi01 : i = 0 ∨ i = 1 := by omega
          rcases hi01 with rfl | rfl
          · rw [(table_tierAt A 0 Ti hTi).1]; exact h0
          · rw [(table_tierAt A 1 Ti hTi).1]; exact h1
    · rintro ⟨j, Tj, hTj, hv, hlow⟩
      obtain ⟨hTj2, hj⟩ := table_tierAt A j Tj hTj
      subst hTj2
      have hlow2 : ∀ i, i < j → readTier (readExpression A st) s (tierAt A i) = none :=
        fun i hi => hlow i _ hi (tierAt_table A i (by omega))
      have := readBinaryOp_at A (readExpression A st) s j v hj hlow2 hv
      rw [readBinaryOp_eq] at this
      exact this
  · constructor
    · intro h Tj hTj
      rw [readBinaryOp_eq] at h
      have e : binaryOperations A = [tierAt A 0, tierAt A 1, tierAt A 2] := rfl
      rw [e] at hTj
      simp only [List.mem_cons, List.mem_singleton, List.not_mem_nil, or_false] at hTj
      cases h0 : readTier (readExpression A st) s (tierAt A 0) with
      | some w => rw [h0] at h; exact absurd h (by simp)
      | none =>
        rw [h0] at h
        simp only at h
        cases h1 : readTier (readExpression A st) s (tierAt A 1) with
        | some w => rw [h1] at h; exact absurd h (by simp)
        | none =>
          rw [h1] at h
          simp only at h
          rcases hTj with rfl | rfl | rfl
          · exact h0
          · exact h1
          · exact h
    · intro h
      apply readBinaryOp_none
      intro j
      by_cases hj : j < 3
      · exact h _ (List.getElem?_mem (tierAt_table A j hj))
      · apply readTier_none_absent
        intro c _ hc
        have := level_lt_three c j hc
        omega

/-- C14 on `1-2-3` in the symbolic interpretation: tier 0 yields `(1-2)-3`, the split at
the rightmost `-`, and so does `readBinaryOp`. -/
theorem split_selection_witness :
    readBinaryOp symbolic (readExpression symbolic symbolicZero) ['1', '-', '2', '-', '3']
      = some (Term.sub (Term.sub (Term.lit ['1']) (Term.lit ['2'])) (Term.lit ['3'])) :=
  ((split_selection symbolic symbolicZero ['1', '-', '2', '-', '3'] 0 _ rfl).2.2.1 _).mpr
    ⟨0, _, rfl, by decide, fun i _ hi _ => absurd hi (by omega)⟩

/-! ## The registers are read only through `%` -/

theorem trim_subset (s : Str) : ∀ c ∈ trim s, c ∈ s := by
  intro c hc
  unfold trim at hc
  simp only at hc
  split at hc
  · simp at hc
  · exact (List.dropWhile_suffix _).subset ((List.rdropWhile_prefix _ _).subset hc)

theorem trim_substr_subset (s : Str) (p n : Nat) : ∀ c ∈ trim (substr s p n), c ∈ s := by
  intro c hc
  have h1 := trim_subset _ c hc
  unfold substr at h1
  exact List.mem_of_mem_drop (List.mem_of_mem_take h1)

theorem trim_substrFrom_subset (s : Str) (p : Nat) :
    ∀ c ∈ trim (substrFrom s p), c ∈ s := by
  intro c hc
  have h1 := trim_subset _ c hc
  unfold substrFrom at h1
  exact List.mem_of_mem_drop h1

theorem readParantheses_local_sub {α : Type} (r1 r2 : Str → Option α) (str : Str)
    (h : ∀ t : Str, t.length < str.length → (∀ c ∈ t, c ∈ str) → r1 t = r2 t) :
    readParantheses r1 str = readParantheses r2 str := by
  unfold readParantheses
  split
  · rename_i hc
    apply h
    · have hpos : 0 < str.length := List.length_pos.mpr hc.1
      calc (trim (substr str 1 (str.length - 2))).length
          ≤ (substr str 1 (str.length - 2)).length := trim_length_le _
        _ ≤ str.length - 2 := by unfold substr; exact List.length_take_le _ _
        _ < str.length := by omega
    · exact trim_substr_subset str _ _
  · rfl

theorem splitLeft_local_sub {α : Type} (r1 r2 : Str → Option α) (str : Str) (i : Nat)
    (ops : List (BinaryOperation α)) (hops : ∀ op ∈ ops, op.str ≠ [])
    (h : ∀ t : Str, t.length < str.length → (∀ c ∈ t, c ∈ str) → r1 t = r2 t) :
    splitLeft r1 str i ops = splitLeft r2 str i ops := by
  induction ops with
  | nil => rfl
  | cons op rest ih =>
    have hrest : ∀ o ∈ rest, o.str ≠ [] := fun o ho => hops o (List.mem_cons_of_mem _ ho)
    unfold splitLeft
    split
    · rename_i hm
      have hL : 0 < op.str.length := List.length_pos.mpr (hops op (List.mem_cons_self _ _))
      have hlen : (substr str (i + 1 - op.str.length) op.str.length).length = op.str.length := by
        rw [hm]
      unfold substr at hlen
      rw [List.length_take, List.length_drop] at hlen
      have h1 : (trim (substr str 0 (i + 1 - op.str.length))).length < str.length := by
        have := trim_length_le (substr str 0 (i + 1 - op.str.length))
        have h2 : (substr str 0 (i + 1 - op.str.length)).length ≤ i + 1 - op.str.length := by
          unfold substr; exact List.length_take_le _ _
        have h3 : (substr str 0 (i + 1 - op.str.length)).length ≤ str.length := by
          unfold substr; simp
        omega
      have h2 : (trim (substrFrom str (i + 1))).length < str.length := by
        have := trim_length_le (substrFrom str (i + 1))
        have h3 : (substrFrom str (i + 1)).length = str.length - (i + 1) := by
          unfold substrFrom; simp
        omega
      simp only [h _ h1 (trim_substr_subset str _ _), h _ h2 (trim_substrFrom_subset str _)]
    · exact ih hrest

theorem splitRight_local_sub {α : Type} (r1 r2 : Str → Option α) (str : Str) (i : Nat)
    (ops : List (BinaryOperation α)) (hops : ∀ op ∈ ops, op.str ≠ [])
    (h : ∀ t : Str, t.length < str.length → (∀ c ∈ t, c ∈ str) → r1 t = r2 t) :
    splitRight r1 str i ops = splitRight r2 str i ops := by
  induction ops with
  | nil => rfl
  | cons op rest ih =>
    have hrest : ∀ o ∈ rest, o.str ≠ [] := fun o ho => hops o (List.mem_cons_of_mem _ ho)
    unfold splitRight
    split
    · rename_i hm
      have hL : 0 < op.str.length := List.length_pos.mpr (hops op (List.mem_cons_self _ _))
      have hlen : (substr str i op.str.length).length = op.str.length := by rw [hm]
      unfold substr at hlen
      rw [List.length_take, List.length_drop] at hlen
      have h1 : (trim (substr str 0 i)).length < str.length := by
        have := trim_length_le (substr str 0 i)
        have h2 : (substr str 0 i).length ≤ i := by
          unfold substr; exact List.length_take_le _ _
        omega
      have h2 : (trim (substrFrom str (i + op.str.length))).length < str.length := by
        have := trim_length_le (substrFrom str (i + op.str.length))
        have h3 : (substrFrom str (i + op.str.length)).length
            = str.length - (i + op.str.length) := by
          unfold substrFrom; simp
        omega
      simp only [h _ h1 (trim_substr_subset str _ _), h _ h2 (trim_substrFrom_subset str _)]
    · exact ih hrest

theorem readUnaryOpLoop_local_sub {α : Type} (r1 r2 : Str → Option α) (str : Str)
    (ops : List (UnaryOperation α)) (hops : ∀ op ∈ ops, op.str ≠ [])
    (h : ∀ t : Str, t.length < str.length → (∀ c ∈ t, c ∈ str) → r1 t = r2 t) :
    readUnaryOpLoop r1 str ops = readUnaryOpLoop r2 str ops := by
  induction ops with
  | nil => rfl
  | cons op rest ih =>
    have hrest : ∀ o ∈ rest, o.str ≠ [] := fun o ho => hops o (List.mem_cons_of_mem _ ho)
    unfold readUnaryOpLoop
    split
    · rename_i hm
      have hL : 0 < op.str.length := List.length_pos.mpr (hops op (List.mem_cons_self _ _))
      have hpre : op.str <+: str := List.isPrefixOf_iff_prefix.mp hm
      have hle : op.str.length ≤ str.length := hpre.length_le
      have h1 : (trim (substrFrom str op.str.length)).length < str.length := by
        have := trim_length_le (substrFrom str op.str.length)
        have h3 : (substrFrom str op.str.length).length = str.length - op.str.length := by
          unfold substrFrom; simp
        omega
      simp only [h _ h1 (trim_substrFrom_subset str _)]
    · exact ih hrest

theorem readExpressionStep_local_sub {α : Type} (A : DoubleOps α) (st1 st2 : Calculator α)
    (r1 r2 : Str → Option α) (str : Str) (hpc : '%' ∉ str)
    (h : ∀ t : Str, t.length < str.length → (∀ c ∈ t, c ∈ str) → r1 t = r2 t) :
    readExpressionStep A st1 r1 str = readExpressionStep A st2 r2 str := by
  have hhead : str.head? ≠ some '%' := by
    intro hh
    cases str with
    | nil => simp at hh
    | cons c r =>
      simp only [List.head?_cons, Option.some.injEq] at hh
      exact hpc (by rw [hh]; simp)
  have hB : readBinaryOp A r1 str = readBinaryOp A r2 str := by
    unfold readBinaryOp
    apply findSome_congr
    intro tier ht
    have hops := binaryOperations_nonempty_symbols A tier ht
    unfold readTier
    split
    · exact findSome_congr _ _ _ (fun i _ => splitLeft_local_sub r1 r2 str i _ hops h)
    · exact findSome_congr _ _ _ (fun i _ => splitRight_local_sub r1 r2 str i _ hops h)
  have hU : readUnaryOp A r1 str = readUnaryOp A r2 str :=
    readUnaryOpLoop_local_sub r1 r2 str _ (unaryOperations_nonempty_symbols A) h
  unfold readExpressionStep
  rw [readPercent_none st1 _ hhead, readPercent_none st2 _ hhead,
    readParantheses_local_sub r1 r2 str h, hB, hU]

theorem readExpression_state_independent {α : Type} (A : DoubleOps α)
    (st1 st2 : Calculator α) :
    ∀ (n : Nat) (s : Str), s.length < n → '%' ∉ s →
      readExpression A st1 s = readExpression A st2 s := by
  intro n
  induction n with
  | zero => intro s hs; omega
  | succ n ih =>
    intro s hs hpc
    rw [readExpression_eq A st1, readExpression_eq A st2]
    apply readExpressionStep_local_sub A st1 st2 _ _ s hpc
    intro t ht hsub
    exact ih t (by omega) (fun hmem => hpc (hsub _ hmem))

/-- C20 (non-interference of the registers): on a string that does not contain `%`,
`readExpression` gives the same outcome in any two register states. -/
theorem registers_do_not_interfere {α : Type} (A : DoubleOps α) (st1 st2 : Calculator α)
    (s : Str) (h : '%' ∉ s) : readExpression A st1 s = readExpression A st2 s :=
  readExpression_state_independent A st1 st2 (s.length + 1) s (by omega) h

/-- C20 on `2*(3+4)` in the folding interpretation, in the zero state and in a state whose
`lastResult` is 5 and whose memory cells all hold 9: the value is 14 in both. -/
theorem registers_do_not_interfere_witness :
    readExpression folding foldingZero ['2', '*', '(', '3', '+', '4', ')']
        = readExpression folding
            { lastResult := Term.num 5, memory := fun _ => Term.num 9, cout := [] }
            ['2', '*', '(', '3', '+', '4', ')']
      ∧ readExpression folding foldingZero ['2', '*', '(', '3', '+', '4', ')']
        = some (Term.num 14) :=
  ⟨registers_do_not_interfere folding foldingZero
    { lastResult := Term.num 5, memory := fun _ => Term.num 9, cout := [] }
    ['2', '*', '(', '3', '+', '4', ')'] (by decide), by decide⟩

/-! ## Accepted strings have balanced parentheses -/

theorem balanced_of_noParen (s : Str) (h : NoParen s) : Balanced s := by
  constructor
  · rw [List.count_eq_zero.mpr h.1, List.count_eq_zero.mpr h.2]
  · intro p hp
    have : p.count ')' = 0 := List.count_eq_zero.mpr (fun hm => h.2 (hp.subset hm))
    omega

theorem balanced_append (x y : Str) (hx : Balanced x) (hy : Balanced y) :
    Balanced (x ++ y) := by
  constructor
  · rw [List.count_append, List.count_append, hx.1, hy.1]
  · intro p hp
    have e : p = x.take p.length ++ y.take (p.length - x.length) := by
      rw [← List.take_append_eq_append_take]
      exact List.prefix_iff_eq_take.mp hp
    have h1 := hx.2 _ (List.take_prefix p.length x)
    have h2 := hy.2 _ (List.take_prefix (p.length - x.length) y)
    by_cases hle : p.length ≤ x.length
    · have e2 : y.take (p.length - x.length) = [] := by
        rw [Nat.sub_eq_zero_of_le hle]; rfl
      rw [e2, List.append_nil] at e
      rw [e]; exact h1
    · have e1 : x.take p.length = x := List.take_of_length_le (by omega)
      rw [e1] at e
      rw [e, List.count_append, List.count_append, hx.1]
      omega

theorem balanced_wrap (t : Str) (ht : Balanced t) : Balanced ('(' :: (t ++ [')'])) := by
  constructor
  · simp only [List.count_cons, List.count_append, List.count_nil, beq_self_eq_true,
      if_true, ht.1]
    simp
  · intro p hp
    rcases List.prefix_cons_iff.mp hp with h | ⟨q, hq, hqp⟩
    · rw [h]; simp
    · rw [hq]
      have e : q = t.take q.length ++ [')'].take (q.length - t.length) := by
        rw [← List.take_append_eq_append_take]
        exact List.prefix_iff_eq_take.mp hqp
      have h1 := ht.2 _ (List.take_prefix q.length t)
      have hc : ('(' :: q).count ')' = q.count ')' := by simp [List.count_cons]
      have ho : ('(' :: q).count '(' = q.count '(' + 1 := by simp [List.count_cons]
      rw [hc, ho]
      by_cases hle : q.length ≤ t.length
      · have e2 : [')'].take (q.length - t.length) = [] := by
          rw [Nat.sub_eq_zero_of_le hle]; rfl
        rw [e2, List.append_nil] at e
        rw [e]; omega
      · have e1 : t.take q.length = t := List.take_of_length_le (by omega)
        have e2 : ([')'].take (q.length - t.length)).count ')' ≤ 1 := by
          have := (List.take_prefix (q.length - t.length) [')']).count_le ')'
          simpa using this
        have e3 : ([')'].take (q.length - t.length)).count '(' = 0 := by
          apply List.count_eq_zero.mpr
          intro hm
          have := (List.take_prefix (q.length - t.length) [')']).subset hm
          simp at this
        rw [e1] at e
        rw [e, List.count_append, List.count_append, e3, ht.1]
        omega

theorem isspace_not_paren {c : Char} (h : isspace c = true) : c ≠ '(' ∧ c ≠ ')' := by
  constructor <;> (rintro rfl; exact absurd h (by decide))

theorem rdropWhile_append_rtakeWhile_eq (p : Char → Bool) (l : Str) :
    l.rdropWhile p ++ l.rtakeWhile p = l := by
  unfold List.rdropWhile List.rtakeWhile
  rw [← List.reverse_append, List.takeWhile_append_dropWhile, List.reverse_reverse]

theorem trim_decomp (t : Str) :
    ∃ l r : Str, t = l ++ trim t ++ r ∧ (∀ c ∈ l, isspace c = true)
      ∧ (∀ c ∈ r, isspace c = true) := by
  have h1 : t = t.takeWhile isspace ++ t.dropWhile isspace :=
    (List.takeWhile_append_dropWhile _ _).symm
  have hl : ∀ c ∈ t.takeWhile isspace, isspace c = true :=
    fun c hc => List.mem_takeWhile_imp hc
  unfold trim
  simp only
  split
  · rename_i hnil
    refine ⟨t.takeWhile isspace, [], ?_, hl, fun _ h => by simp at h⟩
    rw [List.append_nil, List.append_nil]
    rw [hnil, List.append_nil] at h1
    exact h1
  · refine ⟨t.takeWhile isspace, (t.dropWhile isspace).rtakeWhile isspace, ?_, hl, ?_⟩
    · rw [List.append_assoc, rdropWhile_append_rtakeWhile_eq]
      exact h1
    · intro c hc
      unfold List.rtakeWhile at hc
      rw [List.mem_reverse] at hc
      exact List.mem_takeWhile_imp hc

theorem balanced_of_spaces (l : Str) (h : ∀ c ∈ l, isspace c = true) : Balanced l :=
  balanced_of_noParen l
    ⟨fun hm => (isspace_not_paren (h _ hm)).1 rfl, fun hm => (isspace_not_paren (h _ hm)).2 rfl⟩

theorem balanced_of_trim (t : Str) (h : Balanced (trim t)) : Balanced t := by
  obtain ⟨l, r, e, hl, hr⟩ := trim_decomp t
  rw [e]
  exact balanced_append _ _ (balanced_append _ _ (balanced_of_spaces l hl) h)
    (balanced_of_spaces r hr)

theorem digits_noParen (ds : Str) (h : Digits ds) : NoParen ds :=
  ⟨fun hm => absurd (h _ hm) (by decide), fun hm => absurd (h _ hm) (by decide)⟩

theorem readPercent_some_noParen {α : Type} (st : Calculator α) (s : Str) (v : α)
    (h : readPercent st s = some v) : NoParen s := by
  unfold readPercent at h
  split at h
  · exact absurd h (by simp)
  · rename_i hhead
    cases s with
    | nil => simp at hhead
    | cons c r =>
      simp only [List.head?_cons, ne_eq, Option.some.injEq, not_not] at hhead
      subst hhead
      split at h
      · rename_i hlen
        have hr : r = [] := by
          simp only [List.length_cons, add_left_eq_self] at hlen
          exact List.length_eq_zero.mp hlen
        subst hr
        exact ⟨by decide, by decide⟩
      · split at h
        · exact absurd h (by simp)
        · rename_i index hi
          have hd := (readInteger_some _ _ hi).2.1
          have e : substrFrom ('%' :: r) 1 = r := rfl
          rw [e] at hd
          have := digits_noParen r hd
          exact ⟨by simpa using this.1, by simpa using this.2⟩

theorem floatLoop_rest_nil :
    ∀ (s : Str) (mant dec sci esign : Bool), (floatLoop mant dec sci esign s).2 = [] →
      ∀ c ∈ s, c ≠ '(' ∧ c ≠ ')' := by
  intro s
  induction s with
  | nil => intro _ _ _ _ _ c hc; simp at hc
  | cons x xs ih =>
    intro mant dec sci esign h c hc
    unfold floatLoop at h
    split at h
    · rename_i h1
      have hx : x ≠ '(' ∧ x ≠ ')' := by
        rcases h1.2 with e | e <;> (rw [e]; decide)
      rcases List.mem_cons.mp hc with rfl | hm
      · exact hx
      · exact ih _ _ _ _ h c hm
    · split at h
      · rename_i h2
        have hx : x ≠ '(' ∧ x ≠ ')' :=
          ⟨isdigit_ne h2 (by decide), isdigit_ne h2 (by decide)⟩
        rcases List.mem_cons.mp hc with rfl | hm
        · exact hx
        · exact ih _ _ _ _ h c hm
      · split at h
        · rename_i h3
          have hx : x ≠ '(' ∧ x ≠ ')' := by rw [h3.1]; decide
          rcases List.mem_cons.mp hc with rfl | hm
          · exact hx
          · exact ih _ _ _ _ h c hm
        · split at h
          · rename_i h4
            have hx : x ≠ '(' ∧ x ≠ ')' := by
              rcases h4.1 with e | e <;> (rw [e]; decide)
            rcases List.mem_cons.mp hc with rfl | hm
            · exact hx
            · exact ih _ _ _ _ h c hm
          · exact absurd h (by simp)

theorem readDouble_some_noParen {α : Type} (A : DoubleOps α) (s : Str) (v : α)
    (h : readDouble A s = some v) : NoParen s := by
  obtain ⟨c, r, hs, hm, hp, -, hrest, -⟩ := readDouble_some A s v h
  have hm1 : s.head? ≠ some '-' := by rw [hs]; simpa using hm
  have hp1 : s.head? ≠ some '+' := by rw [hs]; simpa using hp
  unfold scanFloat at hrest
  simp only [hm1, hp1, or_self, if_false] at hrest
  have h2 := floatLoop_rest_nil _ _ _ _ _ hrest
  have hall : ∀ x ∈ s, x ≠ '(' ∧ x ≠ ')' := by
    intro x hx
    rw [← List.takeWhile_append_dropWhile (fun c => decide (c = '0')) s] at hx
    rcases List.mem_append.mp hx with hx | hx
    · have := List.mem_takeWhile_imp hx
      simp only [decide_eq_true_eq] at this
      rw [this]; decide
    · exact h2 x hx
  exact ⟨fun hmem => (hall _ hmem).1 rfl, fun hmem => (hall _ hmem).2 rfl⟩

theorem readParantheses_some {α : Type} (rec : Str → Option α) (s : Str) (v : α)
    (h : readParantheses rec s = some v) :
    ∃ t : Str, s = '(' :: (t ++ [')']) ∧ rec (trim t) = some v := by
  unfold readParantheses at h
  split at h
  · rename_i hc
    obtain ⟨hne, hhead, hlast⟩ := hc
    cases s with
    | nil => exact absurd rfl hne
    | cons c r =>
      simp only [List.head?_cons, Option.some.injEq] at hhead
      subst hhead
      have hr : r ≠ [] := by
        intro hr
        rw [hr] at hlast
        simp at hlast
      obtain ⟨t, x, hx⟩ : ∃ t x, r = t ++ [x] :=
        ⟨r.dropLast, r.getLast hr, (List.dropLast_append_getLast hr).symm⟩
      have e : ('(' :: r) = ('(' :: t) ++ [x] := by rw [hx]; rfl
      rw [e, List.getLast?_append_of_ne_nil _ (by simp)] at hlast
      simp only [List.getLast?_singleton, Option.some.injEq] at hlast
      subst hlast
      refine ⟨t, by rw [hx], ?_⟩
      have hsub : substr ('(' :: r) 1 (('(' :: r).length - 2) = t := by
        rw [hx]; simp [substr]
      rw [hsub] at h
      exact h
  · exact absurd h (by simp)

theorem readUnaryOpLoop_some {α : Type} (rec : Str → Option α) (s : Str)
    (ops : List (UnaryOperation α)) (v : α) (h : readUnaryOpLoop rec s ops = some v) :
    ∃ op ∈ ops, ∃ (rest : Str) (x : α), s = op.str ++ rest ∧ rec (trim rest) = some x := by
  induction ops with
  | nil => exact absurd h (by simp [readUnaryOpLoop])
  | cons op rest ih =>
    unfold readUnaryOpLoop at h
    split at h
    · rename_i hm
      have hpre : op.str <+: s := List.isPrefixOf_iff_prefix.mp hm
      obtain ⟨tail, htail⟩ := hpre
      have hd : substrFrom s op.str.length = tail := by
        unfold substrFrom; rw [← htail]; simp
      rw [hd] at h
      simp only at h
      cases hx : rec (trim tail) with
      | none => rw [hx] at h; exact absurd h (by simp)
      | some x => exact ⟨op, List.mem_cons_self _ _, tail, x, htail.symm, hx⟩
    · obtain ⟨o, ho, r, x, hs, hx⟩ := ih h
      exact ⟨o, List.mem_cons_of_mem _ ho, r, x, hs, hx⟩

theorem readBinaryOp_some {α : Type} (A : DoubleOps α) (rec : Str → Option α) (s : Str)
    (v : α) (h : readBinaryOp A rec s = some v) :
    ∃ (k : Nat) (pre : Str) (ch : Char) (post : Str) (x y : α), s = pre ++ ch :: post
      ∧ level ch = some k ∧ rec (trim pre) = some x ∧ rec (trim post) = some y := by
  have key : ∀ k, readTier rec s (tierAt A k) = some v →
      ∃ (k : Nat) (pre : Str) (ch : Char) (post : Str) (x y : α), s = pre ++ ch :: post
        ∧ level ch = some k ∧ rec (trim pre) = some x ∧ rec (trim post) = some y := by
    intro k hk
    obtain ⟨pre, ch, post, hs, hsp, -⟩ := readTier_some rec s _ (tierAt_length_one A k) v hk
    obtain ⟨hl, x, y, hx, hy, -⟩ := (splitAtChar_some_iff A rec k pre ch post v).mp hsp
    exact ⟨k, pre, ch, post, x, y, hs, hl, hx, hy⟩
  rw [readBinaryOp_eq] at h
  cases h0 : readTier rec s (tierAt A 0) with
  | some w => rw [h0] at h; exact key 0 (by rw [h0]; exact h)
  | none =>
    rw [h0] at h
    simp only at h
    cases h1 : readTier rec s (tierAt A 1) with
    | some w => rw [h1] at h; exact key 1 (by rw [h1]; exact h)
    | none =>
      rw [h1] at h
      simp only at h
      exact key 2 h

theorem orElse_some_cases {β : Type} (a : Option β) (f : Unit → Option β) (v : β)
    (h : a.orElse f = some v) : a = some v ∨ (a = none ∧ f () = some v) := by
  cases a with
  | none => exact Or.inr ⟨rfl, h⟩
  | some w => exact Or.inl h

theorem unaryOperations_noParen {α : Type} (A : DoubleOps α) :
    ∀ op ∈ unaryOperations A, NoParen op.str := by
  intro op hop
  simp only [unaryOperations, List.mem_cons, List.mem_singleton, List.not_mem_nil,
    or_false] at hop
  rcases hop with rfl | rfl | rfl | rfl | rfl | rfl | rfl | rfl <;>
    exact ⟨by simp, by simp⟩

theorem balanced_of_eval {α : Type} (A : DoubleOps α) (st : Calculator α) :
    ∀ (n : Nat) (s : Str) (v : α), s.length < n → readExpression A st s = some v →
      Balanced s := by
  intro n
  induction n with
  | zero => intro s v hs; omega
  | succ n ih =>
    intro s v hs h
    have sub : ∀ (t : Str) (x : α), t.length < s.length →
        readExpression A st (trim t) = some x → Balanced t := by
      intro t x ht hx
      apply balanced_of_trim
      have := trim_length_le t
      exact ih (trim t) x (by omega) hx
    rw [readExpression_eq] at h
    unfold readExpressionStep at h
    rcases orElse_some_cases _ _ v h with hP | ⟨-, h⟩
    · exact balanced_of_noParen s (readPercent_some_noParen st s v hP)
    rcases orElse_some_cases _ _ v h with hD | ⟨-, h⟩
    · exact balanced_of_noParen s (readDouble_some_noParen A s v hD)
    rcases orElse_some_cases _ _ v h with hPar | ⟨-, h⟩
    · obtain ⟨t, hst, ht⟩ := readParantheses_some _ s v hPar
      rw [hst]
      apply balanced_wrap
      exact sub t v (by rw [hst]; simp; omega) ht
    rcases orElse_some_cases _ _ v h with hB | ⟨-, h⟩
    · obtain ⟨k, pre, ch, post, x, y, hsp, hl, hx, hy⟩ := readBinaryOp_some A _ s v hB
      have hch : level ch ≠ none := by rw [hl]; simp
      have hp := level_not_digit hch
      have hpre : Balanced pre := sub pre x (by rw [hsp]; simp) hx
      have hpost : Balanced post := sub post y (by rw [hsp]; simp; omega) hy
      have hmid : Balanced [ch] :=
        balanced_of_noParen [ch]
          ⟨by simpa using (Ne.symm hp.2.2.2.2.2.1), by simpa using (Ne.symm hp.2.2.2.2.2.2.1)⟩
      have e : pre ++ ch :: post = pre ++ ([ch] ++ post) := rfl
      rw [hsp, e]
      exact balanced_append _ _ hpre (balanced_append _ _ hmid hpost)
    rcases orElse_some_cases _ _ v h with hU | ⟨-, h⟩
    · obtain ⟨op, hop, rest, x, hsr, hx⟩ := readUnaryOpLoop_some _ s _ v hU
      have hne : op.str ≠ [] := unaryOperations_nonempty_symbols A op hop
      have hlen : 0 < op.str.length := List.length_pos.mpr hne
      have hrest : Balanced rest := sub rest x (by rw [hsr]; simp; omega) hx
      rw [hsr]
      exact balanced_append _ _ (balanced_of_noParen _ (unaryOperations_noParen A op hop))
        hrest
    · rw [readAlias_eq] at h
      split at h
      · rename_i hpi
        rw [hpi]
        exact balanced_of_noParen _ ⟨by decide, by decide⟩
      · exact absurd h (by simp)

/-- C18: in every register state, a string on which `readExpression` succeeds has as
many `(` as `)`, and none of its prefixes has more `)` than `(`. -/
theorem accepted_strings_are_balanced {α : Type} (A : DoubleOps α) (st : Calculator α)
    (s : Str) (v : α) (h : readExpression A st s = some v) :
    s.count '(' = s.count ')' ∧ ∀ p : Str, p <+: s → p.count ')' ≤ p.count '(' :=
  balanced_of_eval A st (s.length + 1) s v (by omega) h

/-- C18 on `(1)+(2)` in the folding interpretation: the string evaluates (to 3, by the
split at `+`, after `readParantheses` has failed on the interior `1)+(2`), and it has two
`(` and two `)`. -/
theorem accepted_strings_are_balanced_witness :
    readExpression folding foldingZero ['(', '1', ')', '+', '(', '2', ')'] = some (Term.num 3)
      ∧ ['(', '1', ')', '+', '(', '2', ')'].count '('
        = ['(', '1', ')', '+', '(', '2', ')'].count ')' :=
  ⟨by decide, (accepted_strings_are_balanced folding foldingZero
    ['(', '1', ')', '+', '(', '2', ')'] (Term.num 3) (by decide)).1⟩

end Calc
